import Mathlib

/-!
# go-simplejson: a shallow embedding of `simplejson.go`

The Go program wraps a decoded JSON document (`Json.data interface{}`) and
navigates and mutates it in place.  What it does depends on aliasing: Go maps
are references, slices are headers over shared backing arrays, and the program
adds `*[]interface{}` cells that it writes back into the parent container.  The
embedding therefore works on an explicit heap:

* `Heap.arrays` : the backing arrays of `[]interface{}` slices,
* `Heap.maps`   : the map objects behind `map[string]interface{}` / `primitive.M`,
* `Heap.cells`  : the slice headers that `*[]interface{}` pointers point to,
* `Heap.jsons`  : the `Json` structs that `*Json` pointers point to.

A method of `*Json` is a function of the receiver's address and the heap.  A Go
panic is the result `Except.error`; a Go `error` return value is an ordinary
result (`none` / `true`).  Allocation appends to the heap, so a fresh address
is the current length.

Conventions and limits of the embedding:

* `Data` lists the dynamic types a decoded document and the methods themselves
  produce.  Slices of another element type, nil maps and nil pointers held in
  an interface are not represented.
* An address beyond the heap reads as the zero value and a write to it is
  dropped; Go has no such addresses, and the properties below assume
  allocation wherever the difference matters.
* Indices are unbounded integers.  `index + 1` could only wrap for the largest
  `int`, for which `DelIndex` and `Insert` have already panicked.
* The capacity that `append` gives a reallocated slice is left to the Go
  runtime: the methods that append take the policy `g` as a parameter and the
  properties hold for every `g`.
* The entries of a map are kept in an association list whose order has no
  meaning (Go map iteration order is unspecified).
* `Extend` takes two things from outside `simplejson.go` as parameters: the
  result of `FromStruct` (the serializer round trip) and the order in which
  `range` visits the entries of a map.
* In `Map`, the `primitive.M` case assigns `m, ok` from a conversion of a type
  assertion; it is read as its evident intent, `m` the converted map and `ok`
  true.
-/

set_option autoImplicit false

/-! ## The program: data, heap and methods -/

namespace SimpleJson

/-- Heap addresses. -/
abbrev Ref := Nat

/-- A Go slice header `[]interface{}`: backing array, offset of element 0 in
it, length and capacity. -/
structure Slice where
  arr : Ref
  off : Nat
  len : Nat
  cap : Nat
  deriving DecidableEq, Repr

/-- The dynamic values an `interface{}` holds in this program. -/
inductive Data where
  /-- The nil interface (JSON `null`). -/
  | null
  | bool (b : Bool)
  /-- A number (`float64`, `int` or `json.Number`). -/
  | num (n : Int)
  | str (s : String)
  /-- A slice header `[]interface{}` held by value. -/
  | slice (s : Slice)
  /-- A `map[string]interface{}` (a reference to a map object). -/
  | map (m : Ref)
  /-- A `primitive.M` (same representation, different dynamic type). -/
  | bsonM (m : Ref)
  /-- A `*[]interface{}`. -/
  | slicePtr (p : Ref)
  /-- A `*Json`. -/
  | jsonPtr (p : Ref)
  deriving DecidableEq, Repr

/-- The cases of `reflect.Kind` the program distinguishes. -/
inductive Kind where
  | bool | number | string | slice | map | ptr | struct
  deriving DecidableEq, Repr

/-- The `reflect.Type`s of the values of `Data`. -/
inductive GoType where
  | bool | number | string
  /-- The type `[]interface{}`. -/
  | ifaceSlice
  /-- The type `map[string]interface{}`. -/
  | ifaceMap
  /-- The type `primitive.M`. -/
  | bsonM
  /-- The struct type `Json`. -/
  | jsonStruct
  | ptr (elem : GoType)
  deriving DecidableEq, Repr

/-- The method `reflect.Type.Kind`. -/
def GoType.Kind : GoType → Kind
  | .bool => .bool
  | .number => .number
  | .string => .string
  | .ifaceSlice => .slice
  | .ifaceMap => .map
  | .bsonM => .map
  | .jsonStruct => .struct
  | .ptr _ => .ptr

/-- The method `reflect.Type.Name`: the name of a defined type, empty for a
type literal. -/
def GoType.Name : GoType → String
  | .bool => "bool"
  | .number => "float64"
  | .string => "string"
  | .jsonStruct => "Json"
  | .bsonM => "M"
  | .ifaceSlice => ""
  | .ifaceMap => ""
  | .ptr _ => ""

/-- The method `reflect.Type.Elem` (the source calls it on pointer types only). -/
def GoType.Elem : GoType → GoType
  | .ptr e => e
  | t => t

/-- The function `reflect.TypeOf`: `none` is the nil `reflect.Type` it returns
for a nil interface. -/
def TypeOf : Data → Option GoType
  | .null => none
  | .bool _ => some .bool
  | .num _ => some .number
  | .str _ => some .string
  | .slice _ => some .ifaceSlice
  | .map _ => some .ifaceMap
  | .bsonM _ => some .bsonM
  | .slicePtr _ => some (.ptr .ifaceSlice)
  | .jsonPtr _ => some (.ptr .jsonStruct)

/-- The ways the program panics. -/
inductive Panic where
  /-- A method call on the nil `reflect.Type`, or `*p` of a nil pointer. -/
  | nilDeref
  /-- An index expression out of range. -/
  | indexOutOfRange
  /-- A slice expression out of range. -/
  | sliceBounds
  /-- A single-value type assertion that fails, or a reflect call on the wrong kind. -/
  | typeAssert
  /-- An explicit `panic(...)` / `log.Panic(...)` of the source. -/
  | explicit
  deriving DecidableEq, Repr

/-- Contents of a Go map: an association list with at most one entry per key
is kept by `mapInsert`; the order of the entries carries no meaning. -/
abbrev MapObj := List (String × Data)

/-- The map read `val, ok := m[key]`. -/
def mapLookup (key : String) : MapObj → Option Data
  | [] => none
  | (k, v) :: rest => if k = key then some v else mapLookup key rest

/-- The statement `delete(m, key)`. -/
def mapErase (key : String) : MapObj → MapObj
  | [] => []
  | (k, v) :: rest => if k = key then mapErase key rest else (k, v) :: mapErase key rest

/-- The assignment `m[key] = val`. -/
def mapInsert (key : String) (val : Data) (m : MapObj) : MapObj :=
  (key, val) :: mapErase key m

/-- The memory of the program. -/
structure Heap where
  arrays : List (List Data)
  maps : List MapObj
  cells : List Slice
  jsons : List Data
  deriving DecidableEq, Repr

namespace Heap

/-- The empty heap. -/
def empty : Heap := ⟨[], [], [], []⟩

/-- The field `j.data`. -/
def data (h : Heap) (j : Ref) : Data := h.jsons.getD j Data.null

/-- The assignment `j.data = d`. -/
def setData (h : Heap) (j : Ref) (d : Data) : Heap :=
  { h with jsons := h.jsons.set j d }

/-- The allocation `&Json{d}`. -/
def newJson (h : Heap) (d : Data) : Ref × Heap :=
  (h.jsons.length, { h with jsons := h.jsons ++ [d] })

/-- The entries of map object `m`. -/
def mapOf (h : Heap) (m : Ref) : MapObj := h.maps.getD m []

/-- The allocation `make(map[string]interface{})`. -/
def newMap (h : Heap) : Ref × Heap :=
  (h.maps.length, { h with maps := h.maps ++ [[]] })

/-- The assignment `m[key] = val` on map object `m`. -/
def mapStore (h : Heap) (m : Ref) (key : String) (val : Data) : Heap :=
  { h with maps := h.maps.set m (mapInsert key val (h.mapOf m)) }

/-- The statement `delete(m, key)` on map object `m`. -/
def mapDelete (h : Heap) (m : Ref) (key : String) : Heap :=
  { h with maps := h.maps.set m (mapErase key (h.mapOf m)) }

/-- The slice header `*p`. -/
def cell (h : Heap) (p : Ref) : Slice := h.cells.getD p ⟨0, 0, 0, 0⟩

/-- The allocation `arr := s; p = &arr`. -/
def newCell (h : Heap) (s : Slice) : Ref × Heap :=
  (h.cells.length, { h with cells := h.cells ++ [s] })

/-- The assignment `*p = s`. -/
def setCell (h : Heap) (p : Ref) (s : Slice) : Heap :=
  { h with cells := h.cells.set p s }

/-- The backing array `a`. -/
def array (h : Heap) (a : Ref) : List Data := h.arrays.getD a []

/-- Replace the contents of backing array `a`. -/
def setArray (h : Heap) (a : Ref) (xs : List Data) : Heap :=
  { h with arrays := h.arrays.set a xs }

/-- The elements `s[0], ..., s[len(s)-1]` of a slice. -/
def elems (h : Heap) (s : Slice) : List Data :=
  ((h.array s.arr).drop s.off).take s.len

end Heap

/-- Overwrite `A[start], A[start+1], ...` with the values `vs`. -/
def writeList (A : List Data) (start : Nat) (vs : List Data) : List Data :=
  A.take start ++ vs ++ A.drop (start + vs.length)

/-- The builtin `append(s, vs...)`.  When the capacity suffices the values are
written behind the slice in its backing array; otherwise a new array is
allocated.  Go leaves the new capacity to the runtime: `g need` is the number
of spare (zeroed) slots the runtime adds to the `need` elements. -/
def goAppend (g : Nat → Nat) (h : Heap) (s : Slice) (vs : List Data) : Slice × Heap :=
  if s.len + vs.length ≤ s.cap then
    ({ s with len := s.len + vs.length },
      h.setArray s.arr (writeList (h.array s.arr) (s.off + s.len) vs))
  else
    let need := s.len + vs.length
    ({ arr := h.arrays.length, off := 0, len := need, cap := need + g need },
      { h with arrays := h.arrays ++ [h.elems s ++ vs ++ List.replicate (g need) Data.null] })

/-- The builtin `copy(dst, src)`: the first `min(len(dst), len(src))` elements
of `src` are read and then written over `dst` (overlap is allowed). -/
def goCopy (h : Heap) (dst src : Slice) : Heap :=
  h.setArray dst.arr
    (writeList (h.array dst.arr) dst.off ((h.elems src).take (min dst.len src.len)))

/-- The slice expression `s[lo:hi]`; Go requires `0 <= lo <= hi <= cap(s)`. -/
def reslice (s : Slice) (lo hi : Int) : Except Panic Slice :=
  if 0 ≤ lo ∧ lo ≤ hi ∧ hi ≤ (s.cap : Int) then
    .ok { arr := s.arr, off := s.off + lo.toNat, len := (hi - lo).toNat, cap := s.cap - lo.toNat }
  else .error .sliceBounds

/-- The index expression `s[i]` as a value; Go requires `0 <= i < len(s)`. -/
def indexRead (h : Heap) (s : Slice) (i : Int) : Except Panic Data :=
  if 0 ≤ i ∧ i < (s.len : Int) then
    .ok ((h.array s.arr).getD (s.off + i.toNat) Data.null)
  else .error .indexOutOfRange

/-- The assignment `s[i] = v`. -/
def indexWrite (h : Heap) (s : Slice) (i : Int) (v : Data) : Except Panic Heap :=
  if 0 ≤ i ∧ i < (s.len : Int) then
    .ok (h.setArray s.arr ((h.array s.arr).set (s.off + i.toNat) v))
  else .error .indexOutOfRange

/-- The call `typ.Kind()` on the result of `reflect.TypeOf`: a nil
`reflect.Type` has no method to call and the program panics. -/
def kindOf (typ : Option GoType) : Except Panic Kind :=
  match typ with
  | none => .error .nilDeref
  | some t => .ok t.Kind

/-- The loop `for typ.Kind() == reflect.Ptr { typ = typ.Elem() }` once the
first `typ.Kind()` has been evaluated on a non-nil type. -/
def stripPtr : GoType → GoType
  | .ptr e => stripPtr e
  | t => t

/-- A step of a `GetPath` branch: the `case string` and `case int` of its type
switch (arguments of other types are skipped by the switch). -/
inductive Step where
  | key (s : String)
  | index (i : Int)
  deriving DecidableEq, Repr

namespace Json

/-- The method `Interface`: the underlying data. -/
def Interface (j : Ref) (h : Heap) : Data := h.data j

/-- The method `Map`: `none` is the error result.  The type switch accepts a
`primitive.M` (converted to a plain map over the same map object) and a
`map[string]interface{}`; every other dynamic type, nil included, leaves
`ok` false. -/
def Map (j : Ref) (h : Heap) : Option Ref :=
  match h.data j with
  | .bsonM m => some m
  | .map m => some m
  | _ => none

/-- The method `Set`. -/
def Set (j : Ref) (key : String) (val : Data) (h : Heap) : Heap :=
  match Map j h with
  | none => h
  | some m => h.mapStore m key val

/-- The body of the loop of `SetPath` followed by the final assignment:
`curr` is the current map, the list is `branch[i:]`. -/
def setPathWalk (val : Data) : Ref → List String → Heap → Heap
  | _, [], h => h
  | curr, [last], h => h.mapStore curr last val
  | curr, b :: b2 :: rest, h =>
    match mapLookup b (h.mapOf curr) with
    | none =>
      let n := h.newMap
      setPathWalk val n.1 (b2 :: rest) (n.2.mapStore curr b (.map n.1))
    | some (.map r) => setPathWalk val r (b2 :: rest) h
    | some _ =>
      let n := h.newMap
      setPathWalk val n.1 (b2 :: rest) (n.2.mapStore curr b (.map n.1))

/-- The method `SetPath`. -/
def SetPath (j : Ref) (branch : List String) (val : Data) (h : Heap) : Heap :=
  match branch with
  | [] => h.setData j val
  | _ :: _ =>
    match h.data j with
    | .map m => setPathWalk val m branch h
    | _ =>
      let n := h.newMap
      setPathWalk val n.1 branch (n.2.setData j (.map n.1))

/-- The method `Del`. -/
def Del (j : Ref) (key : String) (h : Heap) : Heap :=
  match Map j h with
  | none => h
  | some m => h.mapDelete m key

/-- The method `ArrayPtr`: the result `none` is `(nil, err)` with a non-nil
error, `some p` is `(p, nil)`. -/
def ArrayPtr (j : Ref) (h : Heap) : Except Panic (Option Ref × Heap) :=
  match kindOf (TypeOf (h.data j)) with
  | .error e => .error e
  | .ok k =>
    if k = Kind.ptr then
      match h.data j with
      | .slicePtr p => .ok (some p, h)
      | _ => .ok (none, h)
    else if k = Kind.slice then
      match h.data j with
      | .slice arr =>
        let p := h.newCell arr
        .ok (some p.1, p.2.setData j (.slicePtr p.1))
      | _ => .error .typeAssert
    else .ok (none, h)

/-- The method `DelIndex`: the result `true` is a non-nil error. -/
def DelIndex (g : Nat → Nat) (j : Ref) (index : Int) (h : Heap) :
    Except Panic (Bool × Heap) :=
  match ArrayPtr j h with
  | .error e => .error e
  | .ok (none, h1) => .ok (true, h1)
  | .ok (some ap, h1) =>
    match reslice (h1.cell ap) 0 index with
    | .error e => .error e
    | .ok front =>
      match reslice (h1.cell ap) (index + 1) (h1.cell ap).len with
      | .error e => .error e
      | .ok back =>
        let r := goAppend g h1 front (h1.elems back)
        .ok (false, r.2.setCell ap r.1)

/-- The method `Insert`. -/
def Insert (g : Nat → Nat) (j : Ref) (index : Int) (val : Data) (h : Heap) :
    Except Panic Heap :=
  match ArrayPtr j h with
  | .error e => .error e
  | .ok (none, h1) => .ok h1
  | .ok (some ap, h1) =>
    if index > ((h1.cell ap).len : Int) then .error .explicit
    else
      let r := goAppend g h1 (h1.cell ap) [Data.num 0]
      let h2 := r.2.setCell ap r.1
      match reslice (h2.cell ap) (index + 1) (h2.cell ap).len with
      | .error e => .error e
      | .ok dst =>
        match reslice (h2.cell ap) index (h2.cell ap).len with
        | .error e => .error e
        | .ok src =>
          let h3 := goCopy h2 dst src
          indexWrite h3 (h3.cell ap) index val

/-- The method `CheckGet`: `none` is the result `(nil, false)`, `some c` is
`(c, true)`. -/
def CheckGet (j : Ref) (key : String) (h : Heap) : Except Panic (Option Ref × Heap) :=
  match Map j h with
  | none => .ok (none, h)
  | some m =>
    match mapLookup key (h.mapOf m) with
    | none => .ok (none, h)
    | some val =>
      match kindOf (TypeOf val) with
      | .error e => .error e
      | .ok k =>
        if k = Kind.slice then
          match val with
          | .slice arr =>
            let p := h.newCell arr
            let c := (p.2.mapStore m key (.slicePtr p.1)).newJson (.slicePtr p.1)
            .ok (some c.1, c.2)
          | _ => .error .typeAssert
        else
          let c := h.newJson val
          .ok (some c.1, c.2)

/-- The method `Get`. -/
def Get (j : Ref) (key : String) (h : Heap) : Except Panic (Ref × Heap) :=
  match Map j h with
  | none => .ok (h.newJson .null)
  | some m =>
    match mapLookup key (h.mapOf m) with
    | none => .ok (h.newJson .null)
    | some val =>
      match kindOf (TypeOf val) with
      | .error e => .error e
      | .ok k =>
        if k = Kind.slice then
          match val with
          | .slice arr =>
            let p := h.newCell arr
            .ok ((p.2.mapStore m key (.slicePtr p.1)).newJson (.slicePtr p.1))
          | _ => .error .typeAssert
        else .ok (h.newJson val)

/-- The method `GetIndex`. -/
def GetIndex (j : Ref) (index : Int) (h : Heap) : Except Panic (Ref × Heap) :=
  match ArrayPtr j h with
  | .error e => .error e
  | .ok (none, h1) => .ok (h1.newJson .null)
  | .ok (some ap, h1) =>
    if ((h1.cell ap).len : Int) > index then
      match indexRead h1 (h1.cell ap) index with
      | .error e => .error e
      | .ok d => .ok (h1.newJson d)
    else .ok (h1.newJson .null)

/-- The method `GetPath`. -/
def GetPath : Ref → List Step → Heap → Except Panic (Ref × Heap)
  | jin, [], h => .ok (jin, h)
  | jin, .key s :: rest, h =>
    match CheckGet jin s h with
    | .error e => .error e
    | .ok (none, h1) => .ok (h1.newJson .null)
    | .ok (some c, h1) => GetPath c rest h1
  | jin, .index i :: rest, h =>
    match GetIndex jin i h with
    | .error e => .error e
    | .ok (c, h1) => GetPath c rest h1

/-- The method `EnSet` called with the arguments `keys..., v`. -/
def EnSet (j : Ref) (keys : List String) (v : Data) (h : Heap) : Except Panic Heap :=
  match keys with
  | [] => .error .explicit
  | k0 :: ks =>
    match TypeOf v with
    | none => .error .nilDeref
    | some t0 =>
      let typ := stripPtr t0
      -- if typ.Name() == "Json" { v = v.(*Json).Interface(); typ = reflect.TypeOf(v) }
      let unwrapped : Except Panic (Data × Option GoType) :=
        if typ.Name = "Json" then
          match v with
          | .jsonPtr c => .ok (Interface c h, TypeOf (Interface c h))
          | _ => .error .typeAssert
        else .ok (v, some typ)
      match unwrapped with
      | .error e => .error e
      | .ok (v1, typ1) =>
        match kindOf typ1 with
        | .error e => .error e
        | .ok k =>
          let stored : Except Panic (Data × Heap) :=
            if k = Kind.slice then
              -- reflect.ValueOf(v).Len() panics unless v itself is a slice
              match v1 with
              | .slice arr =>
                let ia : Slice := ⟨h.arrays.length, 0, arr.len, arr.len⟩
                let h1 : Heap := { h with arrays := h.arrays ++ [h.elems arr] }
                let p := h1.newCell ia
                .ok (.slicePtr p.1, p.2)
              | _ => .error .typeAssert
            else .ok (v1, h)
          match stored with
          | .error e => .error e
          | .ok (val, h2) =>
            match ks with
            | [] => .ok (Set j k0 val h2)
            | _ :: _ => .ok (SetPath j (k0 :: ks) val h2)

/-- The method `Append`. -/
def Append (g : Nat → Nat) (j : Ref) (val : Data) (h : Heap) : Except Panic Heap :=
  match ArrayPtr j h with
  | .error e => .error e
  | .ok (none, _) => .error .explicit
  | .ok (some ap, h1) =>
    match TypeOf val with
    | none => .error .nilDeref
    | some t0 =>
      let typ := stripPtr t0
      let val1 : Except Panic Data :=
        if typ.Name = "Json" then
          match val with
          | .jsonPtr c => .ok (Interface c h1)
          | _ => .error .typeAssert
        else .ok val
      match val1 with
      | .error e => .error e
      | .ok v =>
        let r := goAppend g h1 (h1.cell ap) [v]
        .ok ((r.2.setCell ap r.1).setData j (.slicePtr ap))

/-- The method `RenameKey`. -/
def RenameKey (j : Ref) (old new : String) (h : Heap) : Except Panic Heap :=
  match CheckGet j old h with
  | .error e => .error e
  | .ok (none, h1) => .ok h1
  | .ok (some v, h1) =>
    match EnSet j [new] (.jsonPtr v) h1 with
    | .error e => .error e
    | .ok h2 => .ok (Del j old h2)

end Json

namespace Heap

/-- A slice header is valid in a heap: its backing array exists and holds the
whole capacity window. -/
def validSlice (h : Heap) (s : Slice) : Prop :=
  s.arr < h.arrays.length ∧ s.len ≤ s.cap ∧ s.off + s.cap ≤ (h.array s.arr).length

instance (h : Heap) (s : Slice) : Decidable (h.validSlice s) := by
  unfold validSlice; infer_instance

end Heap

/-- The Array denoted by a value: the elements of the slice it holds directly
or through a `*[]interface{}`, provided the references are allocated and the
slice lies inside its backing array. -/
def arrayOfData (h : Heap) : Data → Option (List Data)
  | .slice s => if h.validSlice s then some (h.elems s) else none
  | .slicePtr p =>
    if p < h.cells.length ∧ h.validSlice (h.cell p) then some (h.elems (h.cell p)) else none
  | _ => none

/-- The Array denoted by the `Json` at address `j`, which must be allocated. -/
def arrayOf (h : Heap) (j : Ref) : Option (List Data) :=
  if j < h.jsons.length then arrayOfData h (h.data j) else none

/-- The receiver `j` holds the pointer `p` to a valid slice with elements `a`:
the state every array method works in once `ArrayPtr` has returned. -/
structure ArrAt (h : Heap) (j p : Ref) (a : List Data) : Prop where
  hj : j < h.jsons.length
  hd : h.data j = .slicePtr p
  hp : p < h.cells.length
  hv : h.validSlice (h.cell p)
  he : h.elems (h.cell p) = a

/-- A heap with the Array `[1, 2]` held by value in the `Json` at address 0. -/
def heapArr12 : Heap :=
  ⟨[[Data.num 1, Data.num 2]], [], [], [Data.slice ⟨0, 0, 2, 2⟩]⟩

/-- The empty Object built by `New()`, held by the `Json` at address 0. -/
def heapNew : Heap := ⟨[], [[]], [], [Data.map 0]⟩

/-- The Object `{"a": null}` held by the `Json` at address 0. -/
def heapANull : Heap := ⟨[], [[("a", Data.null)]], [], [Data.map 0]⟩

/-- The Object `{"old": null}` held by the `Json` at address 0. -/
def heapOldNull : Heap := ⟨[], [[("old", Data.null)]], [], [Data.map 0]⟩

/-- The Object `{"a": 1}` held by the `Json` at address 0. -/
def heapA1 : Heap := ⟨[], [[("a", Data.num 1)]], [], [Data.map 0]⟩

/-- The Object `{"arr": [1, 2]}` held by the `Json` at address 0. -/
def heapParent : Heap :=
  ⟨[[Data.num 1, Data.num 2]], [[("arr", Data.slice ⟨0, 0, 2, 2⟩)]], [], [Data.map 0]⟩

/-- The Null value held by the `Json` at address 0. -/
def heapNull : Heap := ⟨[], [], [], [Data.null]⟩

/-- The value `d` presents `x` up to the rebinding done by navigation: it is `x`
itself, or `x` is a slice held by value and `d` points to a cell holding that
very slice header. -/
def Rebound (h : Heap) (x d : Data) : Prop :=
  d = x ∨ ∃ s p, x = Data.slice s ∧ d = Data.slicePtr p ∧ p < h.cells.length ∧ h.cell p = s

/-- The raw content of an appended value: the wrapped data when the value is a
`*Json`, the value itself otherwise. -/
def rawContent (h : Heap) : Data → Data
  | .jsonPtr c => h.data c
  | d => d

/-- The map object behind a value the type switch of `Map` accepts. -/
def dataMap : Data → Option Ref
  | .map m => some m
  | .bsonM m => some m
  | _ => none

/-- Descending key by key, as the specification words it: `some d` is the
value reached when every step finds its key in an Object; `none` when a key is
missing or the value reached so far is not an Object. -/
def descend (h : Heap) : Data → List String → Option Data
  | d, [] => some d
  | d, k :: ks =>
    match dataMap d with
    | none => none
    | some m =>
      match mapLookup k (h.mapOf m) with
      | none => none
      | some v => descend h v ks

/-- Whether descending key by key looks up a key that holds null. -/
def hitsNull (h : Heap) : Data → List String → Bool
  | _, [] => false
  | d, k :: ks =>
    match dataMap d with
    | none => false
    | some m =>
      match mapLookup k (h.mapOf m) with
      | none => false
      | some .null => true
      | some v => hitsNull h v ks

/-- The result `GetPath` should produce for a descent: a `Json` presenting the
value reached, or a Null value when the descent stops early. -/
def Presents (h : Heap) (r : Option Data) (c : Ref) : Prop :=
  match r with
  | some v => Rebound h v (h.data c)
  | none => h.data c = Data.null

/-- The map objects that exist before `SetPath` runs and that its loop passes
through, starting from `curr`: the walk follows a key as long as it holds a
`map[string]interface{}`, and leaves the old structure at the first key that
is missing or holds something else. -/
def visited (h : Heap) : Ref → List String → List Ref
  | curr, [] => [curr]
  | curr, [_] => [curr]
  | curr, b :: b2 :: rest =>
    match mapLookup b (h.mapOf curr) with
    | some (.map r) => curr :: visited h r (b2 :: rest)
    | _ => [curr]

/-- The Object `{"a": {"b": 5}}` held by the `Json` at address 0. -/
def heapAB5 : Heap := ⟨[], [[("a", Data.map 1)], [("b", Data.num 5)]], [], [Data.map 0]⟩

/-- The Object `{"a": 7}` held by the `Json` at address 0. -/
def heapA7 : Heap := ⟨[], [[("a", Data.num 7)]], [], [Data.map 0]⟩

/-- The Object `{"old": 1}` held by the `Json` at address 0. -/
def heapOld1 : Heap := ⟨[], [[("old", Data.num 1)]], [], [Data.map 0]⟩

/-- A map that contains itself under the key `a` (not a decoded document). -/
def heapCyclic : Heap := ⟨[], [[("a", Data.map 0)]], [], [Data.map 0]⟩

/-- The body of the loop of `StringArray`: `none` once an element is neither
nil nor a string. -/
def stringStep (acc : Option (List String)) (a : Data) : Option (List String) :=
  match acc with
  | none => none
  | some retArr =>
    match a with
    | .null => some (retArr ++ [""])
    | .str s => some (retArr ++ [s])
    | _ => none

/-- A key of the mapping `Items` returns (`map[interface{}]*Json`): an `int`
position or a `string` key. -/
inductive ItemKey where
  | index (i : Nat)
  | key (s : String)
  deriving DecidableEq, Repr

/-- The statements `result[k] = &Json{item}` of `Items`, one allocation per
entry. -/
def allocItems : List (ItemKey × Data) → Heap → List (ItemKey × Ref) × Heap
  | [], h => ([], h)
  | (k, d) :: rest, h =>
    let c := h.newJson d
    let r := allocItems rest c.2
    ((k, c.1) :: r.1, r.2)

/-- The entries `(idx, item)` of `for idx, item := range arr`, from position
`i` on. -/
def indexed : Nat → List Data → List (ItemKey × Data)
  | _, [] => []
  | i, d :: rest => (ItemKey.index i, d) :: indexed (i + 1) rest

namespace Json

/-- The method `Array`: the pair is the slice header and the error flag.  The
source returns `*ap, err`, so a failing `ArrayPtr` (nil pointer, non-nil error)
makes it dereference nil. -/
def Array (j : Ref) (h : Heap) : Except Panic ((Slice × Bool) × Heap) :=
  match ArrayPtr j h with
  | .error e => .error e
  | .ok (none, _) => .error .nilDeref
  | .ok (some ap, h1) => .ok ((h1.cell ap, false), h1)

/-- The method `String`: `none` is the error result. -/
protected def String (j : Ref) (h : Heap) : Option String :=
  match h.data j with
  | .str s => some s
  | _ => none

/-- The method `StringArray`: `none` is the error result. -/
def StringArray (j : Ref) (h : Heap) : Except Panic (Option (List String) × Heap) :=
  match Array j h with
  | .error e => .error e
  | .ok ((_, true), h1) => .ok (none, h1)
  | .ok ((arr, false), h1) =>
    .ok ((h1.elems arr).foldl stringStep (some []), h1)

/-- The method `MustArray`, called with the optional defaults `args`. -/
def MustArray (j : Ref) (args : List Slice) (h : Heap) : Except Panic (Slice × Heap) :=
  let def_ : Except Panic Slice :=
    match args with
    | [] => .ok ⟨0, 0, 0, 0⟩
    | [d] => .ok d
    | _ => .error .explicit
  match def_ with
  | .error e => .error e
  | .ok d =>
    match Array j h with
    | .error e => .error e
    | .ok ((a, false), h1) => .ok (a, h1)
    | .ok ((_, true), h1) => .ok (d, h1)

/-- The method `MustMap`, called with the optional defaults `args`; `none` is
the nil map. -/
def MustMap (j : Ref) (args : List Ref) (h : Heap) : Except Panic (Option Ref) :=
  let def_ : Except Panic (Option Ref) :=
    match args with
    | [] => .ok none
    | [d] => .ok (some d)
    | _ => .error .explicit
  match def_ with
  | .error e => .error e
  | .ok d =>
    match Map j h with
    | some m => .ok (some m)
    | none => .ok d

/-- The method `MustString`, called with the optional defaults `args`. -/
def MustString (j : Ref) (args : List String) (h : Heap) : Except Panic String :=
  let def_ : Except Panic String :=
    match args with
    | [] => .ok ""
    | [d] => .ok d
    | _ => .error .explicit
  match def_ with
  | .error e => .error e
  | .ok d =>
    match Json.String j h with
    | some s => .ok s
    | none => .ok d

/-- The method `Items`: the mapping it returns, as a list of entries whose
order has no meaning. -/
def Items (j : Ref) (h : Heap) : Except Panic (List (ItemKey × Ref) × Heap) :=
  match TypeOf (Interface j h) with
  | none => .error .nilDeref
  | some t0 =>
    let typ := if t0.Kind = Kind.ptr then t0.Elem else t0
    if typ.Kind = Kind.slice then
      match Array j h with
      | .error e => .error e
      | .ok ((arr, _), h1) => .ok (allocItems (indexed 0 (h1.elems arr)) h1)
    else if typ.Kind = Kind.map then
      match MustMap j [] h with
      | .error e => .error e
      | .ok none => .ok ([], h)
      | .ok (some m) => .ok (allocItems ((h.mapOf m).map (fun e => (ItemKey.key e.1, e.2))) h)
    else .ok ([], h)

/-- The loop `for _, item := range ... { j.Append(item) }` of `Extend` over the
items in the order the runtime visits them. -/
def appendAll (g : Nat → Nat) (j : Ref) : List Ref → Heap → Except Panic Heap
  | [], h => .ok h
  | item :: rest, h =>
    match Append g j (.jsonPtr item) h with
    | .error e => .error e
    | .ok h1 => appendAll g j rest h1

/-- The method `Extend`.  Two things come from outside `simplejson.go` and are
parameters: `fromStruct` is the function `FromStruct` (marshal with
`encoding/json`, decode again with `NewJson`), and `order` is the order in
which the runtime's `range` visits the entries of the map `Items` returns.
`typ.Name()` is the empty string for every pointer type, so the comparison
with `"*Json"` sends every argument through `FromStruct`. -/
def Extend (g : Nat → Nat) (fromStruct : Data → Heap → Except Panic (Ref × Heap))
    (order : List (ItemKey × Ref) → List (ItemKey × Ref)) (j : Ref) (val : Data) (h : Heap) :
    Except Panic Heap :=
  match TypeOf val with
  | none => .error .nilDeref
  | some typ =>
    let arr : Except Panic (Ref × Heap) :=
      if typ.Name ≠ "*Json" then fromStruct val h
      else
        match val with
        | .jsonPtr c => .ok (c, h)
        | _ => .error .typeAssert
    match arr with
    | .error e => .error e
    | .ok (a, h1) =>
      match Items a h1 with
      | .error e => .error e
      | .ok (items, h2) => appendAll g j ((order items).map (fun e => e.2)) h2

/-- The earlier `GetPath` that the source keeps in a comment: fold `Get` over
the branch. -/
def GetPathByGet : Ref → List String → Heap → Except Panic (Ref × Heap)
  | jin, [], h => .ok (jin, h)
  | jin, p :: rest, h =>
    match Get jin p h with
    | .error e => .error e
    | .ok (c, h1) => GetPathByGet c rest h1

end Json

/-- The String `"s"` held by the `Json` at address 0. -/
def heapStr : Heap := ⟨[], [], [], [Data.str "s"]⟩

/-- The Number `7` held by the `Json` at address 0. -/
def heapNum : Heap := ⟨[], [], [], [Data.num 7]⟩

/-- The string an element contributes to `StringArray`: its content for a
String, the empty string for Null. -/
def strOf : Data → String
  | .str s => s
  | _ => ""

/-- An element `StringArray` accepts: a String or Null. -/
def isStringOrNull : Data → Bool
  | .str _ => true
  | .null => true
  | _ => false

/-- The Array `["a", null, "b"]` held by value in the `Json` at address 0. -/
def heapStrings : Heap :=
  ⟨[[Data.str "a", Data.null, Data.str "b"]], [], [], [Data.slice ⟨0, 0, 3, 3⟩]⟩

/-- The Object `{"a": 1, "b": 2}` held by the `Json` at address 0. -/
def heapAB : Heap := ⟨[], [[("a", Data.num 1), ("b", Data.num 2)]], [], [Data.map 0]⟩

/-- What a mapping returned by `Items` holds: each key with the data of the
`Json` it maps to. -/
def itemData (h : Heap) (items : List (ItemKey × Ref)) : List (ItemKey × Data) :=
  items.map (fun e => (e.1, h.data e.2))

/-- The Array `[[1, 2]]` held by value in the `Json` at address 0; the inner
Array has its own backing array. -/
def heapNested : Heap :=
  ⟨[[Data.slice ⟨1, 0, 2, 2⟩], [Data.num 1, Data.num 2]], [], [], [Data.slice ⟨0, 0, 1, 1⟩]⟩

/-- Two outcomes of a navigation agree: both panic in the same way, or both
return a `Json` with the same data over the same arrays, maps and cells (the
two may have allocated different numbers of intermediate `Json` structs). -/
def SameOutcome (r1 r2 : Except Panic (Ref × Heap)) : Prop :=
  match r1, r2 with
  | .ok (c1, h1), .ok (c2, h2) =>
    h1.data c1 = h2.data c2 ∧ h1.arrays = h2.arrays ∧ h1.maps = h2.maps ∧ h1.cells = h2.cells
  | .error e1, .error e2 => e1 = e2
  | _, _ => False

/-- The Object `{"a": {"b": 5, "c": 6}, "d": 7}` held by the `Json` at
address 0. -/
def heapTree : Heap :=
  ⟨[], [[("a", Data.map 1), ("d", Data.num 7)], [("b", Data.num 5), ("c", Data.num 6)]], [],
    [Data.map 0]⟩

/-- A `primitive.M` with the entries `{"a": 1, "b": 2}` held by the `Json` at
address 0. -/
def heapBson : Heap := ⟨[], [[("a", Data.num 1), ("b", Data.num 2)]], [], [Data.bsonM 0]⟩

/-- Modelled from the spec: `FromStruct` applied to a `*Json` that holds an
Array of scalars.  `FromStruct` serializes its argument with `encoding/json`
and parses the text again with `NewJson`, neither of which is in
`simplejson.go`; by the specification ("convert a typed record into a Value by
serializing then reparsing") the result is a fresh `Json` holding a fresh array
with the same elements.  No other argument is covered: for those this
definition answers with the panic `explicit`, and no property relies on it. -/
def fromStructArray (val : Data) (h : Heap) : Except Panic (Ref × Heap) :=
  match val with
  | .jsonPtr c =>
    match arrayOfData h (h.data c) with
    | some b =>
      let h1 : Heap := { h with arrays := h.arrays ++ [b] }
      .ok (h1.newJson (.slice ⟨h.arrays.length, 0, b.length, b.length⟩))
    | none => .error .explicit
  | _ => .error .explicit

/-- The Arrays `[0]` (the `Json` at address 0) and `[1, 2]` (the `Json` at
address 1). -/
def heapTwoArrays : Heap :=
  ⟨[[Data.num 0], [Data.num 1, Data.num 2]], [], [],
    [Data.slice ⟨0, 0, 1, 1⟩, Data.slice ⟨1, 0, 2, 2⟩]⟩

/-- The slice header behind an Array value: the slice itself, or the cell a
`*[]interface{}` points to. -/
def headerOf (h : Heap) : Data → Option Slice
  | .slice s => some s
  | .slicePtr p => some (h.cell p)
  | _ => none


/-- One level of the value a piece of data denotes in a heap.  A slice held by
value and a `*[]interface{}` to a slice both present an Array, by its
elements; the view is otherwise finer than the six variants of the
specification, as it tells a `primitive.M` from a plain map and a wrapped
`*Json` from its content. -/
inductive Shape where
  /-- Null, a Bool, a Number or a String. -/
  | scalar (d : Data)
  | array (items : List Data)
  | object (entries : MapObj)
  | bson (entries : MapObj)
  | wrapped (d : Data)
  deriving DecidableEq, Repr

/-- The shape of a piece of data in heap `h`. -/
def shapeOf (h : Heap) : Data → Shape
  | .slice s => .array (h.elems s)
  | .slicePtr p => .array (h.elems (h.cell p))
  | .map m => .object (h.mapOf m)
  | .bsonM m => .bson (h.mapOf m)
  | .jsonPtr c => .wrapped (h.data c)
  | d => .scalar d

/-- Two sequences have the same length and elements related by `f`, position
by position. -/
def sameList (f : Data → Data → Bool) : List Data → List Data → Bool
  | [], [] => true
  | x :: xs, y :: ys => f x y && sameList f xs ys
  | _, _ => false

/-- Two maps have the same keys, and values related by `f` under each key
(the order of the entries plays no part). -/
def sameEntries (f : Data → Data → Bool) (m1 m2 : MapObj) : Bool :=
  (m1.map Prod.fst ++ m2.map Prod.fst).all fun k =>
    match mapLookup k m1, mapLookup k m2 with
    | none, none => true
    | some a, some b => f a b
    | _, _ => false

/-- Structural equality down to depth `n` of the value `d1` denotes in heap
`h1` and the value `d2` denotes in heap `h2`: same variant, same elements in
the same positions, same keys, and nested values equal down to depth `n - 1`.
Nothing is compared below depth `n`; two values are structurally equal when
this holds for every `n` (a heap may hold a map that contains itself). -/
def sameValue (h1 h2 : Heap) : Nat → Data → Data → Bool
  | 0, _, _ => true
  | n + 1, d1, d2 =>
    match shapeOf h1 d1, shapeOf h2 d2 with
    | .scalar a, .scalar b => decide (a = b)
    | .array xs, .array ys => sameList (sameValue h1 h2 n) xs ys
    | .object m1, .object m2 => sameEntries (sameValue h1 h2 n) m1 m2
    | .bson m1, .bson m2 => sameEntries (sameValue h1 h2 n) m1 m2
    | .wrapped a, .wrapped b => sameValue h1 h2 n a b
    | _, _ => false

/-- The value held by the `Json` at address `j` is structurally equal in the
heaps `h` (before) and `h1` (after). -/
def StructurallyEqual (h h1 : Heap) (j : Ref) : Prop :=
  ∀ n, sameValue h h1 n (h.data j) (h1.data j) = true

/-- A pointer held in an interface points into the heap. -/
def allocated (h : Heap) : Data → Bool
  | .slicePtr p => decide (p < h.cells.length)
  | .jsonPtr c => decide (c < h.jsons.length)
  | _ => true

/-- No pointer stored in the heap dangles: every `*[]interface{}` and `*Json`
held in a backing array, a map or a `Json` points to an allocated cell or
struct.  Every heap of a Go program is of this kind. -/
def Heap.closed (h : Heap) : Bool :=
  h.arrays.all (fun A => A.all (allocated h)) &&
  h.maps.all (fun M => M.all (fun e => allocated h e.2)) &&
  h.jsons.all (allocated h)

/-- Heap `h1` differs from `h` by rebinding only: the backing arrays and the
existing cells are the same, every map has the same keys, and a value stored
under a key or in a `Json` is the one it was or a pointer to a cell holding
the very slice that was stored there. -/
structure Rebinds (h h1 : Heap) : Prop where
  arrays : h1.arrays = h.arrays
  cells : ∀ p, p < h.cells.length → h1.cell p = h.cell p
  maps : ∀ m k,
    (mapLookup k (h.mapOf m) = none ∧ mapLookup k (h1.mapOf m) = none) ∨
    ∃ a b, mapLookup k (h.mapOf m) = some a ∧ mapLookup k (h1.mapOf m) = some b ∧ Rebound h1 a b
  len : h.jsons.length ≤ h1.jsons.length
  jsons : ∀ c, c < h.jsons.length → Rebound h1 (h.data c) (h1.data c)

/-- The Object `{"arr": [1, 2], "n": 7}` held by the `Json` at address 0, and
the Array `[[1, 2], "x"]` held by value in the `Json` at address 1 (its first
element shares the backing array of `arr`). -/
def heapNav : Heap :=
  ⟨[[Data.num 1, Data.num 2], [Data.slice ⟨0, 0, 2, 2⟩, Data.str "x"]],
    [[("arr", Data.slice ⟨0, 0, 2, 2⟩), ("n", Data.num 7)]], [],
    [Data.map 0, Data.slice ⟨1, 0, 2, 2⟩]⟩


/-- A heap no Go program reaches: the Object `{"arr": [1, 2], "p": p}` where
`p` is a `*[]interface{}` that points to no allocated cell. -/
def heapDangling : Heap :=
  ⟨[[Data.num 1, Data.num 2]],
    [[("arr", Data.slice ⟨0, 0, 2, 2⟩), ("p", Data.slicePtr 0)]], [], [Data.map 0]⟩


/-- The map objects a value reaches within `n` levels, through slices, cells,
maps and wrapped `Json` structs. -/
def mapsWithin (h : Heap) : Nat → Data → List Ref
  | 0, _ => []
  | n + 1, .slice s => (h.elems s).flatMap (mapsWithin h n)
  | n + 1, .slicePtr p => (h.elems (h.cell p)).flatMap (mapsWithin h n)
  | n + 1, .map r => r :: (h.mapOf r).flatMap (fun e => mapsWithin h n e.2)
  | n + 1, .bsonM r => r :: (h.mapOf r).flatMap (fun e => mapsWithin h n e.2)
  | n + 1, .jsonPtr c => mapsWithin h n (h.data c)
  | _ + 1, _ => []

/-- The entries off the path lie apart from the path: in each map the walk of
`SetPath` passes through, a value stored under a key other than the step taken
there reaches, at any depth, only allocated maps that the walk does not pass
through.  This holds in every decoded document, which is a tree. -/
def OffPathApart (h : Heap) (m : Ref) (p : List String) : Prop :=
  ∀ i, i < (visited h m p).length →
    ∀ e ∈ h.mapOf ((visited h m p).getD i 0), e.1 ≠ p.getD i "" →
      ∀ n, ∀ r ∈ mapsWithin h n e.2, r < h.maps.length ∧ r ∉ visited h m p

/-- The Object `{"a": M, "d": 7}` held by the `Json` at address 0, where `M`
is a `primitive.M` with the entries `{"b": 1, "c": 2}`. -/
def heapBsonInner : Heap :=
  ⟨[], [[("a", Data.bsonM 1), ("d", Data.num 7)], [("b", Data.num 1), ("c", Data.num 2)]], [],
    [Data.map 0]⟩

/-- The Object `{"a": M, "b": M}` held by the `Json` at address 0, where both
keys hold the same map object `M = {"x": 1}` (built with `Set`, not decoded). -/
def heapShared : Heap :=
  ⟨[], [[("a", Data.map 1), ("b", Data.map 1)], [("x", Data.num 1)]], [], [Data.map 0]⟩

/-- The Object `{"a": {"b": 5, "c": {"e": 6}}, "d": [{"f": 7}]}` held by the
`Json` at address 0. -/
def heapDeep : Heap :=
  ⟨[[Data.map 3]],
    [[("a", Data.map 1), ("d", Data.slice ⟨0, 0, 1, 1⟩)],
      [("b", Data.num 5), ("c", Data.map 2)], [("e", Data.num 6)], [("f", Data.num 7)]],
    [], [Data.map 0]⟩

end SimpleJson

/-! ## Properties -/

namespace SimpleJson

theorem writeList_length (A : List Data) (k : Nat) (vs : List Data)
    (hk : k + vs.length ≤ A.length) : (writeList A k vs).length = A.length := by
  simp [writeList]; omega

theorem writeList_mid (P R S : List Data) (k : Nat) (vs : List Data)
    (hk : k + vs.length ≤ R.length) :
    writeList (P ++ R ++ S) (P.length + k) vs = P ++ writeList R k vs ++ S := by
  have h1 : k ≤ R.length := by omega
  simp [writeList, List.take_append_eq_append_take, List.drop_append_eq_append_drop,
    List.take_of_length_le, List.drop_eq_nil_of_le, h1]
  have : P.length + k + vs.length - P.length = k + vs.length := by omega
  have h2 : k - R.length = 0 := by omega
  have h3 : k + vs.length - R.length = 0 := by omega
  simp [this, h2, h3, Nat.add_assoc]

theorem set_mid (P R S : List Data) (k : Nat) (v : Data) (hk : k < R.length) :
    (P ++ R ++ S).set (P.length + k) v = P ++ R.set k v ++ S := by
  have e : P.length + k - P.length = k := by omega
  rw [List.append_assoc, List.set_append_right _ _ (by omega), e, List.set_append_left _ _ hk]
  simp

namespace Heap

theorem array_setArray_same (h : Heap) (a : Ref) (xs : List Data) (ha : a < h.arrays.length) :
    (h.setArray a xs).array a = xs := by
  simp [array, setArray, ha]

theorem cell_setCell_same (h : Heap) (p : Ref) (s : Slice) (hp : p < h.cells.length) :
    (h.setCell p s).cell p = s := by
  simp [cell, setCell, hp]

theorem data_setData_same (h : Heap) (j : Ref) (d : Data) (hj : j < h.jsons.length) :
    (h.setData j d).data j = d := by
  simp [data, setData, hj]

theorem cell_newCell (h : Heap) (s : Slice) : (h.newCell s).2.cell (h.newCell s).1 = s := by
  simp [cell, newCell]

theorem data_newJson (h : Heap) (d : Data) : (h.newJson d).2.data (h.newJson d).1 = d := by
  simp [data, newJson]

/-- The capacity window of a valid slice splits its backing array. -/
theorem validSlice.window {h : Heap} {s : Slice} (hv : h.validSlice s) :
    ∃ P R S, h.array s.arr = P ++ R ++ S ∧ P.length = s.off ∧ R.length = s.cap ∧
      h.elems s = R.take s.len := by
  obtain ⟨_, hl, hc⟩ := hv
  refine ⟨(h.array s.arr).take s.off, ((h.array s.arr).drop s.off).take s.cap,
    ((h.array s.arr).drop s.off).drop s.cap, ?_, ?_, ?_, ?_⟩
  · simp
  · simp; omega
  · simp; omega
  · simp [elems, List.take_take, hl]

end Heap

theorem ArrAt.arrayOf {h : Heap} {j p : Ref} {a : List Data} (w : ArrAt h j p a) :
    arrayOf h j = some a := by
  simp [SimpleJson.arrayOf, arrayOfData, w.hj, w.hd, w.hp, w.hv, w.he]

theorem ArrAt.ArrayPtr {h : Heap} {j p : Ref} {a : List Data} (w : ArrAt h j p a) :
    Json.ArrayPtr j h = .ok (some p, h) := by
  simp [Json.ArrayPtr, w.hd, TypeOf, kindOf, GoType.Kind]

theorem ArrayPtr_of_arrayOf {h : Heap} {j : Ref} {a : List Data} (w : arrayOf h j = some a) :
    ∃ p h1, Json.ArrayPtr j h = .ok (some p, h1) ∧ ArrAt h1 j p a ∧
      h1.arrays = h.arrays ∧ h1.maps = h.maps ∧ h1.jsons.length = h.jsons.length := by
  unfold arrayOf at w
  split at w
  · rename_i hj
    unfold arrayOfData at w
    split at w
    · rename_i s hs
      split at w
      · rename_i hv
        refine ⟨h.cells.length, (h.newCell s).2.setData j (.slicePtr h.cells.length), ?_, ?_, ?_⟩
        · simp [Json.ArrayPtr, hs, TypeOf, kindOf, GoType.Kind, Heap.newCell]
        · injection w with w
          refine ⟨?_, ?_, ?_, ?_, ?_⟩
          · simpa [Heap.setData, Heap.newCell] using hj
          · simp [Heap.setData, Heap.newCell, Heap.data, hj]
          · simp [Heap.setData, Heap.newCell]
          · simpa [Heap.setData, Heap.newCell, Heap.cell, Heap.validSlice, Heap.array] using hv
          · simpa [Heap.setData, Heap.newCell, Heap.cell, Heap.elems, Heap.array] using w
        · simp [Heap.setData, Heap.newCell]
      · simp at w
    · rename_i p hs
      split at w
      · rename_i hv
        injection w with w
        exact ⟨p, h, by simp [Json.ArrayPtr, hs, TypeOf, kindOf, GoType.Kind],
          ⟨hj, hs, hv.1, hv.2, w⟩, rfl, rfl, rfl⟩
      · simp at w
    · simp at w
  · simp at w

theorem elems_length {h : Heap} {s : Slice} (hv : h.validSlice s) :
    (h.elems s).length = s.len := by
  obtain ⟨_, hl, hc⟩ := hv
  simp [Heap.elems]; omega

/-- The elements of the sub-slice `s[lo:lo+l]` of a valid slice. -/
theorem elems_sub {h : Heap} {s : Slice} {P R S : List Data}
    (hA : h.array s.arr = P ++ R ++ S) (hP : P.length = s.off) (lo l c : Nat)
    (hl : lo + l ≤ R.length) :
    h.elems ⟨s.arr, s.off + lo, l, c⟩ = (R.drop lo).take l := by
  have e1 : s.off + lo - P.length = lo := by omega
  have e2 : s.off + lo - P.length - R.length = 0 := by omega
  have e3 : P.length ≤ s.off + lo := by omega
  simp [Heap.elems, hA, List.drop_append_eq_append_drop, List.drop_eq_nil_of_le, e1, e2, e3,
    List.take_append_eq_append_take]
  have e4 : l - (R.length - lo) = 0 := by omega
  simp [e4]

theorem elems_fresh (h : Heap) (xs : List Data) (n c : Nat) :
    Heap.elems { h with arrays := h.arrays ++ [xs] } ⟨h.arrays.length, 0, n, c⟩ = xs.take n := by
  simp [Heap.elems, Heap.array]

theorem goAppend_spec (g : Nat → Nat) (h : Heap) (s : Slice) (vs : List Data)
    (hv : h.validSlice s) :
    (goAppend g h s vs).2.validSlice (goAppend g h s vs).1 ∧
    (goAppend g h s vs).2.elems (goAppend g h s vs).1 = h.elems s ++ vs ∧
    (goAppend g h s vs).1.len = s.len + vs.length ∧
    (goAppend g h s vs).2.cells = h.cells ∧
    (goAppend g h s vs).2.jsons = h.jsons ∧
    (goAppend g h s vs).2.maps = h.maps ∧
    h.arrays.length ≤ (goAppend g h s vs).2.arrays.length := by
  obtain ⟨P, R, S, hA, hP, hR, hE⟩ := hv.window
  obtain ⟨ha, hl, hc⟩ := hv
  unfold goAppend
  split
  · rename_i hfit
    have hw : writeList (h.array s.arr) (s.off + s.len) vs = P ++ writeList R s.len vs ++ S := by
      rw [hA, ← hP]; exact writeList_mid P R S s.len vs (by omega)
    have hwl : (writeList R s.len vs).length = R.length := writeList_length _ _ _ (by omega)
    refine ⟨⟨?_, ?_, ?_⟩, ?_, rfl, rfl, rfl, rfl, ?_⟩
    · simpa [Heap.setArray] using ha
    · simpa using hfit
    · simp only [Heap.array_setArray_same _ _ _ ha, hw]
      simp [hwl]; omega
    · rw [hE]
      simp only [Heap.elems, Heap.array_setArray_same _ _ _ ha, hw]
      rw [List.append_assoc, ← hP, List.drop_left]
      rw [List.take_append_of_le_length (by omega)]
      unfold writeList
      rw [List.take_append_of_le_length (by simp; omega)]
      apply List.take_of_length_le
      simp
    · simp [Heap.setArray]
  · refine ⟨⟨?_, ?_, ?_⟩, ?_, rfl, rfl, rfl, rfl, ?_⟩
    · simp
    · simp
    · simp [Heap.array, elems_length ⟨ha, hl, hc⟩]; omega
    · rw [elems_fresh]
      apply List.take_left'
      simp [elems_length ⟨ha, hl, hc⟩]
    · simp

theorem copy_src (a T : List Data) (z : Data) (i : Nat) (hi : i ≤ a.length) :
    (((a ++ z :: T).drop i).take (a.length + 1 - i)).take (min (a.length - i) (a.length + 1 - i))
      = a.drop i := by
  obtain ⟨a1, a2, rfl, rfl⟩ : ∃ a1 a2, a = a1 ++ a2 ∧ a1.length = i :=
    ⟨a.take i, a.drop i, by simp, by simp [hi]⟩
  have e1 : (a1 ++ a2).length + 1 - a1.length = a2.length + 1 := by simp; omega
  have e2 : (a1 ++ a2).length - a1.length = a2.length := by simp
  rw [e1, e2, List.append_assoc, List.drop_left, List.drop_left, List.take_take]
  have e3 : min (min a2.length (a2.length + 1)) (a2.length + 1) = a2.length := by omega
  rw [e3, List.take_left]

theorem take_succ_append_set (L rest : List Data) (i : Nat) (x : Data) (hi : i < L.length) :
    ((L.take (i + 1)) ++ rest).set i x = L.take i ++ x :: rest := by
  induction L generalizing i with
  | nil => simp at hi
  | cons y L ih =>
    cases i with
    | zero => simp
    | succ i =>
      simp at hi
      simp [ih i hi]

/-- The list effect of `copy(s[i+1:], s[i:])` followed by `s[i] = x` on a slice
whose elements are `a` followed by the appended placeholder `z`. -/
theorem insert_list (a T : List Data) (z x : Data) (i : Nat) (hi : i ≤ a.length) :
    ((writeList (a ++ z :: T) (i + 1)
        ((((a ++ z :: T).drop i).take (a.length + 1 - i)).take
          (min (a.length - i) (a.length + 1 - i)))).set i x).take (a.length + 1)
      = a.take i ++ x :: a.drop i := by
  rw [copy_src a T z i hi]
  unfold writeList
  rw [List.append_assoc, take_succ_append_set _ _ _ _ (by simp; omega),
    List.take_append_of_le_length hi]
  have e : a.take i ++ x :: (a.drop i ++ (a ++ z :: T).drop (i + 1 + (a.drop i).length))
      = (a.take i ++ x :: a.drop i) ++ (a ++ z :: T).drop (i + 1 + (a.drop i).length) := by simp
  rw [e]
  apply List.take_left'
  simp; omega

theorem Insert_core (g : Nat → Nat) {h : Heap} {j p : Ref} {a : List Data} (w : ArrAt h j p a)
    (i : Nat) (x : Data) (hi : i ≤ a.length) :
    ∃ h', Json.Insert g j (i : Int) x h = .ok h' ∧
      ArrAt h' j p (a.take i ++ x :: a.drop i) ∧ h'.maps = h.maps ∧ h'.jsons = h.jsons := by
  have hlen : (h.cell p).len = a.length := by rw [← w.he]; exact (elems_length w.hv).symm
  obtain ⟨hv1, he1, hl1, hc1, hj1, hm1, _⟩ := goAppend_spec g h (h.cell p) [Data.num 0] w.hv
  unfold Json.Insert
  rw [w.ArrayPtr]
  simp only []
  rw [if_neg (by omega)]
  generalize goAppend g h (h.cell p) [Data.num 0] = r at hv1 he1 hl1 hc1 hj1 hm1 ⊢
  obtain ⟨s1, h1⟩ := r
  simp only at hv1 he1 hl1 hc1 hj1 hm1 ⊢
  have hp1 : p < h1.cells.length := by rw [hc1]; exact w.hp
  rw [Heap.cell_setCell_same _ _ _ hp1]
  obtain ⟨P, R, S, hA, hP, hR, hE⟩ := hv1.window
  obtain ⟨ha1, hlc, hcap⟩ := hv1
  have hs1 : s1.len = a.length + 1 := by rw [hl1, hlen]; rfl
  have t1 : ((i : Int) + 1).toNat = i + 1 := by omega
  have t2 : ((s1.len : Int) - ((i : Int) + 1)).toNat = a.length - i := by omega
  have t3 : ((s1.len : Int) - (i : Int)).toNat = a.length + 1 - i := by omega
  simp only [reslice]
  rw [if_pos (by omega), if_pos (by omega)]
  simp only [t1, t2, t3, Int.toNat_ofNat]
  have hR' : R = a ++ Data.num 0 :: R.drop (a.length + 1) := by
    have e : R.take (a.length + 1) = a ++ [Data.num 0] := by
      rw [← hs1, ← hE, he1, w.he]
    calc R = R.take (a.length + 1) ++ R.drop (a.length + 1) := (List.take_append_drop _ _).symm
      _ = a ++ Data.num 0 :: R.drop (a.length + 1) := by rw [e]; simp
  generalize R.drop (a.length + 1) = T at hR'
  subst hR'
  have hRl : a.length + 1 + T.length = s1.cap := by rw [← hR]; simp; omega
  have hsrc : (h1.setCell p s1).elems ⟨s1.arr, s1.off + i, a.length + 1 - i, s1.cap - i⟩
      = ((a ++ Data.num 0 :: T).drop i).take (a.length + 1 - i) :=
    elems_sub (h := h1.setCell p s1) (s := s1) hA hP i _ _ (by omega)
  have hcopy : (goCopy (h1.setCell p s1) ⟨s1.arr, s1.off + (i + 1), a.length - i, s1.cap - (i + 1)⟩
      ⟨s1.arr, s1.off + i, a.length + 1 - i, s1.cap - i⟩).array s1.arr
      = P ++ writeList (a ++ Data.num 0 :: T) (i + 1) (a.drop i) ++ S := by
    unfold goCopy
    simp only []
    rw [Heap.array_setArray_same (h1.setCell p s1) _ _ ha1, hsrc, copy_src a T _ i hi]
    show writeList (h1.array s1.arr) _ _ = _
    rw [hA, ← hP]
    exact writeList_mid P _ S (i + 1) _ (by simp; omega)
  generalize hh3 : goCopy (h1.setCell p s1) ⟨s1.arr, s1.off + (i + 1), a.length - i, s1.cap - (i + 1)⟩
      ⟨s1.arr, s1.off + i, a.length + 1 - i, s1.cap - i⟩ = h3 at hcopy ⊢
  have h3c : h3.cells = (h1.setCell p s1).cells := by rw [← hh3]; rfl
  have h3j : h3.jsons = h1.jsons := by rw [← hh3]; rfl
  have h3m : h3.maps = h1.maps := by rw [← hh3]; rfl
  have h3a : h3.arrays.length = h1.arrays.length := by
    rw [← hh3]; simp [goCopy, Heap.setArray, Heap.setCell]
  have h3arr : s1.arr < h3.arrays.length := by rw [h3a]; exact ha1
  have h3cell : h3.cell p = s1 := by
    unfold Heap.cell; rw [h3c]; exact Heap.cell_setCell_same _ _ _ hp1
  rw [h3cell]
  unfold indexWrite
  rw [if_pos (by omega)]
  simp only [Int.toNat_ofNat]
  have hW : (writeList (a ++ Data.num 0 :: T) (i + 1) (a.drop i)).length
      = (a ++ Data.num 0 :: T).length := writeList_length _ _ _ (by simp; omega)
  have hfin : (h3.setArray s1.arr ((h3.array s1.arr).set (s1.off + i) x)).array s1.arr
      = P ++ (writeList (a ++ Data.num 0 :: T) (i + 1) (a.drop i)).set i x ++ S := by
    rw [Heap.array_setArray_same _ _ _ h3arr, hcopy, ← hP]
    exact set_mid _ _ _ _ _ (by rw [hW]; simp; omega)
  refine ⟨_, rfl, ⟨?_, ?_, ?_, ?_, ?_⟩, ?_, ?_⟩
  · show j < h3.jsons.length
    rw [h3j, hj1]; exact w.hj
  · show h3.jsons.getD j Data.null = _
    rw [h3j, hj1]; exact w.hd
  · show p < h3.cells.length
    rw [h3c]; simpa [Heap.setCell] using hp1
  · show Heap.validSlice _ (h3.cell p)
    rw [h3cell]
    refine ⟨?_, hlc, ?_⟩
    · simpa [Heap.setArray] using h3arr
    · rw [hfin]; simp [hW]; omega
  · show Heap.elems _ (h3.cell p) = _
    rw [h3cell]
    unfold Heap.elems
    rw [hfin, List.append_assoc, ← hP, List.drop_left, hs1,
      List.take_append_of_le_length (by simp [hW])]
    have := insert_list a T (Data.num 0) x i hi
    rw [copy_src a T _ i hi] at this
    exact this
  · show h3.maps = _
    rw [h3m, hm1]
  · show h3.jsons = _
    rw [h3j, hj1]

theorem DelIndex_core (g : Nat → Nat) {h : Heap} {j p : Ref} {e : List Data} (w : ArrAt h j p e)
    (i : Nat) (hi : i < e.length) :
    ∃ h', Json.DelIndex g j (i : Int) h = .ok (false, h') ∧
      ArrAt h' j p (e.take i ++ e.drop (i + 1)) ∧ h'.maps = h.maps ∧ h'.jsons = h.jsons := by
  have hlen : (h.cell p).len = e.length := by rw [← w.he]; exact (elems_length w.hv).symm
  obtain ⟨P, R, S, hA, hP, hR, hE⟩ := w.hv.window
  obtain ⟨ha, hlc, hcap⟩ := w.hv
  have hfront : h.validSlice ⟨(h.cell p).arr, (h.cell p).off, i, (h.cell p).cap⟩ :=
    ⟨ha, by show i ≤ (h.cell p).cap; omega, hcap⟩
  have efront : h.elems ⟨(h.cell p).arr, (h.cell p).off, i, (h.cell p).cap⟩ = e.take i := by
    have := elems_sub (h := h) (s := h.cell p) hA hP 0 i (h.cell p).cap (by omega)
    simp only [Nat.add_zero, List.drop_zero] at this
    rw [this, ← w.he, hE, List.take_take, Nat.min_eq_left (by omega)]
  have eback : h.elems ⟨(h.cell p).arr, (h.cell p).off + (i + 1), e.length - (i + 1),
      (h.cell p).cap - (i + 1)⟩ = e.drop (i + 1) := by
    have hEe : e = R.take e.length := by rw [← hlen, ← hE, w.he]
    rw [elems_sub (h := h) (s := h.cell p) hA hP (i + 1) _ _ (by omega)]
    conv_rhs => rw [hEe, List.drop_take]
  obtain ⟨hv1, he1, hl1, hc1, hj1, hm1, _⟩ :=
    goAppend_spec g h ⟨(h.cell p).arr, (h.cell p).off, i, (h.cell p).cap⟩ (e.drop (i + 1)) hfront
  unfold Json.DelIndex
  rw [w.ArrayPtr]
  simp only [reslice]
  have t1 : ((i : Int) + 1).toNat = i + 1 := by omega
  have t2 : (((h.cell p).len : Int) - ((i : Int) + 1)).toNat = e.length - (i + 1) := by omega
  have t3 : ((i : Int) - 0).toNat = i := by omega
  rw [if_pos (by omega), if_pos (by omega)]
  simp only [t1, t2, t3, Int.toNat_zero, Nat.add_zero, Nat.sub_zero, eback]
  generalize goAppend g h ⟨(h.cell p).arr, (h.cell p).off, i, (h.cell p).cap⟩ (e.drop (i + 1)) = r
    at hv1 he1 hl1 hc1 hj1 hm1 ⊢
  obtain ⟨s1, h1⟩ := r
  simp only at hv1 he1 hl1 hc1 hj1 hm1 ⊢
  have hp1 : p < h1.cells.length := by rw [hc1]; exact w.hp
  refine ⟨_, rfl, ⟨?_, ?_, ?_, ?_, ?_⟩, ?_, ?_⟩
  · show j < h1.jsons.length
    rw [hj1]; exact w.hj
  · show h1.jsons.getD j Data.null = _
    rw [hj1]; exact w.hd
  · simpa [Heap.setCell] using hp1
  · rw [Heap.cell_setCell_same _ _ _ hp1]; exact hv1
  · rw [Heap.cell_setCell_same _ _ _ hp1]
    show h1.elems s1 = _
    rw [he1, efront]
  · exact hm1
  · exact hj1

theorem GetIndex_core {h : Heap} {j p : Ref} {e : List Data} (w : ArrAt h j p e)
    (i : Nat) (hi : i < e.length) :
    Json.GetIndex j (i : Int) h = .ok (h.newJson (e.getD i Data.null)) := by
  have hlen : (h.cell p).len = e.length := by rw [← w.he]; exact (elems_length w.hv).symm
  unfold Json.GetIndex
  rw [w.ArrayPtr]
  simp only []
  rw [if_pos (by omega)]
  unfold indexRead
  rw [if_pos (by omega)]
  simp only [Int.toNat_ofNat]
  have : (h.array (h.cell p).arr).getD ((h.cell p).off + i) Data.null = e.getD i Data.null := by
    rw [← w.he]
    simp only [Heap.elems, List.getD_eq_getElem?_getD, List.getElem?_take, List.getElem?_drop]
    rw [if_pos (by omega)]
  rw [this]

theorem Insert_rebound (g : Nat → Nat) {h h0 : Heap} {j p : Ref} {a : List Data}
    (hA : Json.ArrayPtr j h = .ok (some p, h0)) (w : ArrAt h0 j p a) (i : Int) (x : Data) :
    Json.Insert g j i x h = Json.Insert g j i x h0 := by
  unfold Json.Insert; rw [hA, w.ArrayPtr]

theorem DelIndex_rebound (g : Nat → Nat) {h h0 : Heap} {j p : Ref} {a : List Data}
    (hA : Json.ArrayPtr j h = .ok (some p, h0)) (w : ArrAt h0 j p a) (i : Int) :
    Json.DelIndex g j i h = Json.DelIndex g j i h0 := by
  unfold Json.DelIndex; rw [hA, w.ArrayPtr]

theorem GetIndex_rebound {h h0 : Heap} {j p : Ref} {a : List Data}
    (hA : Json.ArrayPtr j h = .ok (some p, h0)) (w : ArrAt h0 j p a) (i : Int) :
    Json.GetIndex j i h = Json.GetIndex j i h0 := by
  unfold Json.GetIndex; rw [hA, w.ArrayPtr]

theorem ArrAt.newJson {h : Heap} {j p : Ref} {a : List Data} (w : ArrAt h j p a) (d : Data) :
    ArrAt (h.newJson d).2 j p a := by
  refine ⟨?_, ?_, w.hp, w.hv, w.he⟩
  · have := w.hj
    show j < (h.jsons ++ [d]).length
    simp only [List.length_append, List.length_singleton]
    exact Nat.lt_succ_of_lt this
  · have := w.hd
    have hj := w.hj
    simp only [Heap.data, Heap.newJson, List.getD_eq_getElem?_getD] at this ⊢
    rw [List.getElem?_append_left hj]; exact this

/-- C3: on an Array with elements `a` and `0 <= i <= len(a)`, `Insert(i, x)`
returns normally, the Array then holds `a[0..i)`, `x`, `a[i..n)` (so its length
is `n+1`), and `GetIndex(i)` yields a `Json` whose data is `x` and leaves the
elements as they are.  The growth policy `g` of `append` is arbitrary. -/
theorem Insert_then_GetIndex (g : Nat → Nat) (h : Heap) (j : Ref) (a : List Data) (i : Nat)
    (x : Data) (hv : arrayOf h j = some a) (hi : i ≤ a.length) :
    ∃ h1, Json.Insert g j (i : Int) x h = .ok h1 ∧
      arrayOf h1 j = some (a.take i ++ x :: a.drop i) ∧
      (a.take i ++ x :: a.drop i).length = a.length + 1 ∧
      ∃ c h2, Json.GetIndex j (i : Int) h1 = .ok (c, h2) ∧ h2.data c = x ∧
        arrayOf h2 j = some (a.take i ++ x :: a.drop i) := by
  obtain ⟨p, h0, hA, w, -⟩ := ArrayPtr_of_arrayOf hv
  obtain ⟨h1, hI, w1, -, -⟩ := Insert_core g w i x hi
  have hlen : (a.take i ++ x :: a.drop i).length = a.length + 1 := by simp; omega
  refine ⟨h1, by rw [Insert_rebound g hA w, hI], w1.arrayOf, hlen, _, _,
    GetIndex_core w1 i (by omega), ?_, (w1.newJson _).arrayOf⟩
  have := Heap.data_newJson h1 ((a.take i ++ x :: a.drop i).getD i Data.null)
  refine this.trans ?_
  have key : (a.take i ++ x :: a.drop i)[i]? = some x := by
    rw [List.getElem?_append_right (by simp [hi])]
    simp [hi]
  rw [List.getD_eq_getElem?_getD, key]
  rfl

theorem Insert_then_GetIndex_witness :
    ∃ h1, Json.Insert (fun _ => 0) 0 ((1 : Nat) : Int) (Data.str "x") heapArr12 = .ok h1 ∧
      arrayOf h1 0 = some ([Data.num 1, Data.num 2].take 1 ++ Data.str "x" ::
        [Data.num 1, Data.num 2].drop 1) ∧
      ([Data.num 1, Data.num 2].take 1 ++ Data.str "x" :: [Data.num 1, Data.num 2].drop 1).length
        = [Data.num 1, Data.num 2].length + 1 ∧
      ∃ c h2, Json.GetIndex 0 ((1 : Nat) : Int) h1 = .ok (c, h2) ∧ h2.data c = Data.str "x" ∧
        arrayOf h2 0 = some ([Data.num 1, Data.num 2].take 1 ++ Data.str "x" ::
          [Data.num 1, Data.num 2].drop 1) :=
  Insert_then_GetIndex (fun _ => 0) heapArr12 0 [Data.num 1, Data.num 2] 1 (Data.str "x")
    (by decide) (by decide)

theorem take_drop_insert (a : List Data) (x : Data) (i : Nat) (hi : i ≤ a.length) :
    (a.take i ++ x :: a.drop i).take i ++ (a.take i ++ x :: a.drop i).drop (i + 1) = a := by
  have hl : (a.take i).length = i := by simp [hi]
  have e1 : (a.take i ++ x :: a.drop i).take i = a.take i := List.take_left' hl
  have e2 : (a.take i ++ x :: a.drop i).drop (i + 1) = a.drop i := by
    have : a.take i ++ x :: a.drop i = (a.take i ++ [x]) ++ a.drop i := by simp
    rw [this]
    exact List.drop_left' (by simp [hl])
  rw [e1, e2, List.take_append_drop]

/-- C4: on an Array with elements `a` and `0 <= i <= len(a)`, `Insert(i, x)`
followed by `DelIndex(i)` returns normally, `DelIndex` reports no error, and
the Array holds exactly the original elements `a` in their original order. -/
theorem Insert_then_DelIndex (g : Nat → Nat) (h : Heap) (j : Ref) (a : List Data) (i : Nat)
    (x : Data) (hv : arrayOf h j = some a) (hi : i ≤ a.length) :
    ∃ h1 h2, Json.Insert g j (i : Int) x h = .ok h1 ∧
      Json.DelIndex g j (i : Int) h1 = .ok (false, h2) ∧ arrayOf h2 j = some a := by
  obtain ⟨p, h0, hA, w, -⟩ := ArrayPtr_of_arrayOf hv
  obtain ⟨h1, hI, w1, -, -⟩ := Insert_core g w i x hi
  obtain ⟨h2, hD, w2, -, -⟩ := DelIndex_core g w1 i (by simp; omega)
  rw [take_drop_insert a x i hi] at w2
  exact ⟨h1, h2, by rw [Insert_rebound g hA w, hI], hD, w2.arrayOf⟩

theorem Insert_then_DelIndex_witness :
    ∃ h1 h2, Json.Insert (fun _ => 0) 0 ((1 : Nat) : Int) (Data.str "x") heapArr12 = .ok h1 ∧
      Json.DelIndex (fun _ => 0) 0 ((1 : Nat) : Int) h1 = .ok (false, h2) ∧
      arrayOf h2 0 = some [Data.num 1, Data.num 2] :=
  Insert_then_DelIndex (fun _ => 0) heapArr12 0 [Data.num 1, Data.num 2] 1 (Data.str "x")
    (by decide) (by decide)

/-- C1 (the code departs from the claim): on the empty Object, `Set("k", nil)`
stores the null, and the following `Get("k")` does not return a Null value: it
panics, because `reflect.TypeOf(val)` is nil for the stored nil and `Get` calls
`.Kind()` on it. -/
theorem Set_null_then_Get_panics :
    mapLookup "k" ((Json.Set 0 "k" Data.null heapNew).mapOf 0) = some Data.null ∧
    Json.Get 0 "k" (Json.Set 0 "k" Data.null heapNew) = .error Panic.nilDeref :=
  ⟨rfl, rfl⟩

/-- C2 (the code departs from the claim): on the empty Object,
`SetPath(["a"], nil)` stores the null under `a`, but `GetPath("a")` does not
yield it: `CheckGet` panics on the stored nil. -/
theorem SetPath_null_then_GetPath_panics :
    mapLookup "a" ((Json.SetPath 0 ["a"] Data.null heapNew).mapOf 0) = some Data.null ∧
    Json.GetPath 0 [Step.key "a"] (Json.SetPath 0 ["a"] Data.null heapNew)
      = .error Panic.nilDeref :=
  ⟨rfl, rfl⟩

/-- C5 (the code departs from the claim): on `{"a": null}` the path `a` reaches
the stored null and the path `a, b` reaches a value that is not an Object, so
both should yield Null; `GetPath` panics on both. -/
theorem GetPath_through_null_panics :
    Json.GetPath 0 [Step.key "a"] heapANull = .error Panic.nilDeref ∧
    Json.GetPath 0 [Step.key "a", Step.key "b"] heapANull = .error Panic.nilDeref :=
  ⟨rfl, rfl⟩

/-- C6 (the code departs from the claim): with parent `{"arr": [1, 2]}` and
`child := parent.Get("arr")`, appending the value null through the child
panics (`reflect.TypeOf(nil).Kind()` in `Append`) instead of making the array
`[1, 2, null]`. -/
theorem Append_null_through_child_panics (g : Nat → Nat) :
    ∃ child h1, Json.Get 0 "arr" heapParent = .ok (child, h1) ∧
      Json.Append g child Data.null h1 = .error Panic.nilDeref :=
  ⟨_, _, rfl, rfl⟩

/-- C7 (the code departs from the claim): on `{"old": null}` the key `old` is
present, yet `RenameKey("old", "new")` panics in `CheckGet` instead of moving
the null to `new`. -/
theorem RenameKey_null_panics :
    mapLookup "old" (heapOldNull.mapOf 0) = some Data.null ∧
    Json.RenameKey 0 "old" "new" heapOldNull = .error Panic.nilDeref :=
  ⟨rfl, rfl⟩

/-- C8 (the code departs from the claim): on `{"a": 1}`, `RenameKey("a", "a")`
returns normally and leaves the Object empty: the key is stored under its own
name and then deleted. -/
theorem RenameKey_same_key_deletes :
    ∃ h1, Json.RenameKey 0 "a" "a" heapA1 = .ok h1 ∧ h1.data 0 = Data.map 0 ∧
      h1.mapOf 0 = [] ∧ mapLookup "a" (h1.mapOf 0) = none :=
  ⟨_, rfl, rfl, rfl, rfl⟩

/-- C9 (the code departs from the claim): on `{"a": null}` the key `a` is
present with a null value; `Get("a")` and `CheckGet("a")` both panic instead of
returning a Null value (with found = true). -/
theorem Get_CheckGet_stored_null_panic :
    mapLookup "a" (heapANull.mapOf 0) = some Data.null ∧
    Json.Get 0 "a" heapANull = .error Panic.nilDeref ∧
    Json.CheckGet 0 "a" heapANull = .error Panic.nilDeref :=
  ⟨rfl, rfl, rfl⟩

/-- C10 (the code departs from the claim): `GetIndex(0)` on a Null value
panics (`reflect.TypeOf(nil).Kind()` in `ArrayPtr`), and `GetIndex(-1)` on the
Array `[1, 2]` panics with an index out of range; neither returns Null. -/
theorem GetIndex_null_or_negative_panics :
    Json.GetIndex 0 0 heapNull = .error Panic.nilDeref ∧
    Json.GetIndex 0 (-1) heapArr12 = .error Panic.indexOutOfRange :=
  ⟨rfl, rfl⟩

theorem mapLookup_mapErase_self (k : String) (m : MapObj) : mapLookup k (mapErase k m) = none := by
  induction m with
  | nil => rfl
  | cons e m ih =>
    obtain ⟨k', v⟩ := e
    by_cases hk : k' = k
    · simp [mapErase, hk, ih]
    · simp [mapErase, mapLookup, hk, ih]

theorem mapLookup_mapErase_ne (k k' : String) (m : MapObj) (hne : k' ≠ k) :
    mapLookup k' (mapErase k m) = mapLookup k' m := by
  induction m with
  | nil => rfl
  | cons e m ih =>
    obtain ⟨k0, v⟩ := e
    by_cases hk : k0 = k
    · subst hk
      have : ¬ k0 = k' := fun h => hne h.symm
      simp [mapErase, mapLookup, this, ih]
    · by_cases hk' : k0 = k'
      · subst hk'
        simp [mapErase, mapLookup, hk]
      · simp [mapErase, mapLookup, hk, hk', ih]

theorem mapLookup_mapInsert_self (k : String) (v : Data) (m : MapObj) :
    mapLookup k (mapInsert k v m) = some v := by
  simp [mapInsert, mapLookup]

theorem mapLookup_mapInsert_ne (k k' : String) (v : Data) (m : MapObj) (hne : k' ≠ k) :
    mapLookup k' (mapInsert k v m) = mapLookup k' m := by
  have : ¬ k = k' := fun h => hne h.symm
  simp [mapInsert, mapLookup, this, mapLookup_mapErase_ne k k' m hne]

namespace Heap

theorem mapOf_mapStore_same (h : Heap) (m : Ref) (k : String) (v : Data)
    (hm : m < h.maps.length) : (h.mapStore m k v).mapOf m = mapInsert k v (h.mapOf m) := by
  simp [mapOf, mapStore, hm]

theorem mapOf_mapStore_other (h : Heap) (m m' : Ref) (k : String) (v : Data) (hne : m' ≠ m) :
    (h.mapStore m k v).mapOf m' = h.mapOf m' := by
  have : ¬ m = m' := fun e => hne e.symm
  simp [mapOf, mapStore, List.getElem?_set, this]

theorem mapOf_mapDelete_same (h : Heap) (m : Ref) (k : String) (hm : m < h.maps.length) :
    (h.mapDelete m k).mapOf m = mapErase k (h.mapOf m) := by
  simp [mapOf, mapDelete, hm]

theorem mapOf_mapDelete_other (h : Heap) (m m' : Ref) (k : String) (hne : m' ≠ m) :
    (h.mapDelete m k).mapOf m' = h.mapOf m' := by
  have : ¬ m = m' := fun e => hne e.symm
  simp [mapOf, mapDelete, List.getElem?_set, this]

theorem data_newJson_old (h : Heap) (d : Data) (j : Ref) (hj : j < h.jsons.length) :
    (h.newJson d).2.data j = h.data j := by
  show (h.jsons ++ [d]).getD j Data.null = h.jsons.getD j Data.null
  simp only [List.getD_eq_getElem?_getD]
  rw [List.getElem?_append_left hj]

end Heap

/-- `Get` and `CheckGet` on a receiver that is not an Object, or lacks the key:
`Get` returns a fresh Null value, `CheckGet` reports not found; the heap is
otherwise untouched. -/
theorem Get_CheckGet_absent (h : Heap) (j : Ref) (k : String)
    (hk : ∀ m, Json.Map j h = some m → mapLookup k (h.mapOf m) = none) :
    Json.Get j k h = .ok (h.newJson Data.null) ∧ Json.CheckGet j k h = .ok (none, h) := by
  unfold Json.Get Json.CheckGet
  cases hM : Json.Map j h with
  | none => exact ⟨rfl, rfl⟩
  | some m => simp [hk m hM]

/-- `Get` and `CheckGet` on an Object holding a non-null value `v` under the
key: both return the same fresh `Json` presenting `v`, found = true. -/
theorem Get_CheckGet_present (h : Heap) (j m : Ref) (k : String) (v : Data)
    (hM : Json.Map j h = some m) (hL : mapLookup k (h.mapOf m) = some v) (hv : v ≠ Data.null) :
    ∃ c h1, Json.Get j k h = .ok (c, h1) ∧ Json.CheckGet j k h = .ok (some c, h1) ∧
      c = h.jsons.length ∧ Rebound h1 v (h1.data c) ∧ h1.arrays = h.arrays ∧
      ((∀ s, v ≠ Data.slice s) → h1 = (h.newJson v).2) ∧
      (∀ s, v = Data.slice s →
        h1 = (((h.newCell s).2.mapStore m k (.slicePtr h.cells.length)).newJson
          (.slicePtr h.cells.length)).2) := by
  unfold Json.Get Json.CheckGet
  simp only [hM, hL]
  cases v with
  | null => exact absurd rfl hv
  | slice s =>
    refine ⟨_, _, rfl, rfl, rfl, Or.inr ⟨s, h.cells.length, rfl, ?_, ?_, ?_⟩, rfl, ?_, ?_⟩
    · exact Heap.data_newJson _ _
    · simp [Heap.newJson, Heap.mapStore, Heap.newCell]
    · simp [Heap.newJson, Heap.mapStore, Heap.newCell, Heap.cell]
    · intro h0; exact absurd rfl (h0 s)
    · intro s' hs; injection hs with hs; subst hs; rfl
  | bool b =>
    exact ⟨_, _, rfl, rfl, rfl, Or.inl (Heap.data_newJson _ _), rfl, fun _ => rfl,
      fun s hs => by cases hs⟩
  | num n =>
    exact ⟨_, _, rfl, rfl, rfl, Or.inl (Heap.data_newJson _ _), rfl, fun _ => rfl,
      fun s hs => by cases hs⟩
  | str n =>
    exact ⟨_, _, rfl, rfl, rfl, Or.inl (Heap.data_newJson _ _), rfl, fun _ => rfl,
      fun s hs => by cases hs⟩
  | map n =>
    exact ⟨_, _, rfl, rfl, rfl, Or.inl (Heap.data_newJson _ _), rfl, fun _ => rfl,
      fun s hs => by cases hs⟩
  | bsonM n =>
    exact ⟨_, _, rfl, rfl, rfl, Or.inl (Heap.data_newJson _ _), rfl, fun _ => rfl,
      fun s hs => by cases hs⟩
  | slicePtr n =>
    exact ⟨_, _, rfl, rfl, rfl, Or.inl (Heap.data_newJson _ _), rfl, fun _ => rfl,
      fun s hs => by cases hs⟩
  | jsonPtr n =>
    exact ⟨_, _, rfl, rfl, rfl, Or.inl (Heap.data_newJson _ _), rfl, fun _ => rfl,
      fun s hs => by cases hs⟩

/-- `Get` and `CheckGet` panic exactly when the receiver is an Object holding
null under the key. -/
theorem Get_CheckGet_panic_iff (h : Heap) (j : Ref) (k : String) :
    ((∃ e, Json.Get j k h = .error e) ↔
      ∃ m, Json.Map j h = some m ∧ mapLookup k (h.mapOf m) = some Data.null) ∧
    ((∃ e, Json.CheckGet j k h = .error e) ↔
      ∃ m, Json.Map j h = some m ∧ mapLookup k (h.mapOf m) = some Data.null) := by
  cases hM : Json.Map j h with
  | none =>
    obtain ⟨h1, h2⟩ := Get_CheckGet_absent h j k (fun m hm => by rw [hM] at hm; cases hm)
    simp [h1, h2]
  | some m =>
    cases hL : mapLookup k (h.mapOf m) with
    | none =>
      obtain ⟨h1, h2⟩ := Get_CheckGet_absent h j k
        (fun m' hm => by rw [hM] at hm; injection hm with hm; subst hm; exact hL)
      simp [h1, h2, hL]
    | some v =>
      by_cases hv : v = Data.null
      · subst hv
        simp [Json.Get, Json.CheckGet, hM, hL, TypeOf, kindOf]
      · obtain ⟨c, h1, e1, e2, -⟩ := Get_CheckGet_present h j m k v hM hL hv
        simp [e1, e2, hL, hv]

theorem Map_eq_some {h : Heap} {j m : Ref} (hM : Json.Map j h = some m) :
    j < h.jsons.length ∧ (h.data j = Data.map m ∨ h.data j = Data.bsonM m) := by
  unfold Json.Map at hM
  have hj : j < h.jsons.length := by
    by_contra hc
    have : h.data j = Data.null := by
      simp [Heap.data, List.getD_eq_getElem?_getD, List.getElem?_eq_none (Nat.le_of_not_lt hc)]
    rw [this] at hM; cases hM
  refine ⟨hj, ?_⟩
  split at hM
  · injection hM with hM; subst hM; right; assumption
  · injection hM with hM; subst hM; left; assumption
  · cases hM

theorem Map_congr {h h1 : Heap} {j : Ref} (hd : h1.data j = h.data j) :
    Json.Map j h1 = Json.Map j h := by
  unfold Json.Map; rw [hd]

/-- Round trip through a key: on an Object, `Set(k, x)` with a non-null `x` followed by
`Get(k)` returns a `Json` presenting `x`. -/
theorem Set_then_Get (h : Heap) (j m : Ref) (k : String) (x : Data)
    (hM : Json.Map j h = some m) (hm : m < h.maps.length) (hx : x ≠ Data.null) :
    ∃ c h1, Json.Get j k (Json.Set j k x h) = .ok (c, h1) ∧ Rebound h1 x (h1.data c) := by
  have hS : Json.Set j k x h = h.mapStore m k x := by unfold Json.Set; rw [hM]
  have hM1 : Json.Map j (h.mapStore m k x) = some m := by
    rw [← hM]; exact Map_congr rfl
  have hL : mapLookup k ((h.mapStore m k x).mapOf m) = some x := by
    rw [Heap.mapOf_mapStore_same _ _ _ _ hm, mapLookup_mapInsert_self]
  obtain ⟨c, h1, e1, -, -, hr, -⟩ := Get_CheckGet_present _ j m k x hM1 hL hx
  exact ⟨c, h1, by rw [hS, e1], hr⟩

/-- `EnSet(key, v)` with `v` a `*Json` whose data is neither nil nor a slice
held by value stores that data with `Set`. -/
theorem EnSet_single_json (h : Heap) (j c : Ref) (k : String) (d : Data)
    (hd : h.data c = d) (hn : d ≠ Data.null) (hs : ∀ s, d ≠ Data.slice s) :
    Json.EnSet j [k] (Data.jsonPtr c) h = .ok (Json.Set j k d h) := by
  unfold Json.EnSet
  cases d with
  | null => exact absurd rfl hn
  | slice s => exact absurd rfl (hs s)
  | bool b => simp [TypeOf, stripPtr, GoType.Name, Json.Interface, hd, kindOf, GoType.Kind]
  | num b => simp [TypeOf, stripPtr, GoType.Name, Json.Interface, hd, kindOf, GoType.Kind]
  | str b => simp [TypeOf, stripPtr, GoType.Name, Json.Interface, hd, kindOf, GoType.Kind]
  | map b => simp [TypeOf, stripPtr, GoType.Name, Json.Interface, hd, kindOf, GoType.Kind]
  | bsonM b => simp [TypeOf, stripPtr, GoType.Name, Json.Interface, hd, kindOf, GoType.Kind]
  | slicePtr b => simp [TypeOf, stripPtr, GoType.Name, Json.Interface, hd, kindOf, GoType.Kind]
  | jsonPtr b => simp [TypeOf, stripPtr, GoType.Name, Json.Interface, hd, kindOf, GoType.Kind]

/-- Renaming an absent key: `RenameKey(old, new)` on a receiver that is not an Object or
lacks `old` changes nothing. -/
theorem RenameKey_absent (h : Heap) (j : Ref) (old new : String)
    (hk : ∀ m, Json.Map j h = some m → mapLookup old (h.mapOf m) = none) :
    Json.RenameKey j old new h = .ok h := by
  unfold Json.RenameKey
  rw [(Get_CheckGet_absent h j old hk).2]

/-- Renaming a present key: on an Object holding a non-null `x` under `old`,
`RenameKey(old, new)` returns normally; afterwards `old` is absent (also when
`new` is the same key), every key other than `old` and `new` keeps its value,
and when `new` differs from `old` it holds `x` (up to array rebinding). -/
theorem RenameKey_present (h : Heap) (j m : Ref) (old new : String) (x : Data)
    (hM : Json.Map j h = some m) (hm : m < h.maps.length)
    (hL : mapLookup old (h.mapOf m) = some x) (hx : x ≠ Data.null) :
    ∃ h1, Json.RenameKey j old new h = .ok h1 ∧ Json.Map j h1 = some m ∧
      (old ≠ new → ∃ d, mapLookup new (h1.mapOf m) = some d ∧ Rebound h1 x d) ∧
      mapLookup old (h1.mapOf m) = none ∧
      ∀ k, k ≠ old → k ≠ new → mapLookup k (h1.mapOf m) = mapLookup k (h.mapOf m) := by
  obtain ⟨hj, -⟩ := Map_eq_some hM
  obtain ⟨c, h1, -, e2, hc, hr, -, hns, hsl⟩ := Get_CheckGet_present h j m old x hM hL hx
  unfold Json.RenameKey
  rw [e2]
  simp only []
  by_cases hs : ∃ s, x = Data.slice s
  · obtain ⟨s, rfl⟩ := hs
    have h1e := hsl s rfl
    have hd : h1.data c = Data.slicePtr h.cells.length := by
      rw [h1e, hc]; exact Heap.data_newJson _ _
    rw [EnSet_single_json h1 j c new _ hd (by simp) (by simp)]
    have hM1 : Json.Map j h1 = some m := by
      rw [← hM]; apply Map_congr
      rw [h1e]; exact Heap.data_newJson_old _ _ _ hj
    have hmaps : h1.maps = h.maps.set m (mapInsert old (.slicePtr h.cells.length) (h.mapOf m)) := by
      rw [h1e]; rfl
    have hm1 : m < h1.maps.length := by rw [hmaps]; simpa using hm
    have hmo : h1.mapOf m = mapInsert old (.slicePtr h.cells.length) (h.mapOf m) := by
      simp [Heap.mapOf, hmaps, hm]
    simp only [Json.Set, Json.Del, hM1]
    have hM2 : Json.Map j (h1.mapStore m new (.slicePtr h.cells.length)) = some m := by
      rw [← hM1]; exact Map_congr rfl
    rw [hM2]
    simp only []
    have hm2 : m < (h1.mapStore m new (.slicePtr h.cells.length)).maps.length := by
      simpa [Heap.mapStore] using hm1
    refine ⟨_, rfl, ?_,
      fun hne => ⟨.slicePtr h.cells.length, ?_, Or.inr ⟨s, _, rfl, rfl, ?_, ?_⟩⟩, ?_, ?_⟩
    · rw [← hM2]; exact Map_congr rfl
    · rw [Heap.mapOf_mapDelete_same _ _ _ hm2, mapLookup_mapErase_ne _ _ _ (Ne.symm hne),
        Heap.mapOf_mapStore_same _ _ _ _ hm1, mapLookup_mapInsert_self]
    · show h.cells.length < h1.cells.length
      rw [h1e]; simp [Heap.newJson, Heap.mapStore, Heap.newCell]
    · show h1.cell h.cells.length = s
      rw [h1e]; simp [Heap.newJson, Heap.mapStore, Heap.newCell, Heap.cell]
    · rw [Heap.mapOf_mapDelete_same _ _ _ hm2, mapLookup_mapErase_self]
    · intro k hk1 hk2
      rw [Heap.mapOf_mapDelete_same _ _ _ hm2, mapLookup_mapErase_ne _ _ _ hk1,
        Heap.mapOf_mapStore_same _ _ _ _ hm1, mapLookup_mapInsert_ne _ _ _ _ hk2, hmo,
        mapLookup_mapInsert_ne _ _ _ _ hk1]
  · have hs' : ∀ s, x ≠ Data.slice s := fun s e => hs ⟨s, e⟩
    have h1e := hns hs'
    have hd : h1.data c = x := by rw [h1e, hc]; exact Heap.data_newJson _ _
    rw [EnSet_single_json h1 j c new x hd hx hs']
    have hM1 : Json.Map j h1 = some m := by
      rw [← hM]; apply Map_congr
      rw [h1e]; exact Heap.data_newJson_old _ _ _ hj
    have hmaps : h1.maps = h.maps := by rw [h1e]; rfl
    have hm1 : m < h1.maps.length := by rw [hmaps]; exact hm
    have hmo : h1.mapOf m = h.mapOf m := by unfold Heap.mapOf; rw [hmaps]
    simp only [Json.Set, Json.Del, hM1]
    have hM2 : Json.Map j (h1.mapStore m new x) = some m := by
      rw [← hM1]; exact Map_congr rfl
    rw [hM2]
    simp only []
    have hm2 : m < (h1.mapStore m new x).maps.length := by
      simpa [Heap.mapStore] using hm1
    refine ⟨_, rfl, ?_, fun hne => ⟨x, ?_, Or.inl rfl⟩, ?_, ?_⟩
    · rw [← hM2]; exact Map_congr rfl
    · rw [Heap.mapOf_mapDelete_same _ _ _ hm2, mapLookup_mapErase_ne _ _ _ (Ne.symm hne),
        Heap.mapOf_mapStore_same _ _ _ _ hm1, mapLookup_mapInsert_self]
    · rw [Heap.mapOf_mapDelete_same _ _ _ hm2, mapLookup_mapErase_self]
    · intro k hk1 hk2
      rw [Heap.mapOf_mapDelete_same _ _ _ hm2, mapLookup_mapErase_ne _ _ _ hk1,
        Heap.mapOf_mapStore_same _ _ _ _ hm1, mapLookup_mapInsert_ne _ _ _ _ hk2, hmo]

theorem set_getD_self (l : List Data) (j : Nat) (v : Data) (hj : j < l.length)
    (hv : l.getD j Data.null = v) : l.set j v = l := by
  apply List.ext_getElem?
  intro n
  rw [List.getElem?_set]
  split
  · rename_i hjn
    subst hjn
    simp only [List.getD_eq_getElem?_getD, List.getElem?_eq_getElem hj, Option.getD_some] at hv
    simp [hj, hv]
  · rfl

/-- `GetIndex(i)` on an Array with `i >= 0`: element `i`, or Null when `i` is
beyond the end; nothing but the returned `Json` is allocated. -/
theorem GetIndex_array {h : Heap} {j p : Ref} {e : List Data} (w : ArrAt h j p e)
    (i : Int) (hi : 0 ≤ i) :
    Json.GetIndex j i h = .ok (h.newJson (e.getD i.toNat Data.null)) := by
  by_cases hlt : i.toNat < e.length
  · have := GetIndex_core w i.toNat hlt
    rwa [Int.toNat_of_nonneg hi] at this
  · have hlen : (h.cell p).len = e.length := by rw [← w.he]; exact (elems_length w.hv).symm
    unfold Json.GetIndex
    rw [w.ArrayPtr]
    simp only []
    rw [if_neg (by omega)]
    have : e.getD i.toNat Data.null = Data.null := by
      rw [List.getD_eq_getElem?_getD, List.getElem?_eq_none (by omega)]; rfl
    rw [this]

/-- `GetIndex(i)` on an Array with a negative `i` panics. -/
theorem GetIndex_array_negative {h : Heap} {j p : Ref} {e : List Data} (w : ArrAt h j p e)
    (i : Int) (hi : i < 0) :
    Json.GetIndex j i h = .error Panic.indexOutOfRange := by
  unfold Json.GetIndex
  rw [w.ArrayPtr]
  simp only []
  rw [if_pos (by omega)]
  unfold indexRead
  rw [if_neg (by omega)]

/-- What `GetIndex` does on every kind of receiver.  On an Array it
yields element `i` for `0 <= i < len`, Null for `i >= len`, and leaves the
elements as they are; it panics for `i < 0`.  On a Null receiver it panics.
On every other receiver it yields Null. -/
theorem GetIndex_cases (h : Heap) (j : Ref) (i : Int) :
    (∀ a, arrayOf h j = some a → 0 ≤ i →
      ∃ c h1, Json.GetIndex j i h = .ok (c, h1) ∧ h1.data c = a.getD i.toNat Data.null ∧
        arrayOf h1 j = some a) ∧
    (∀ a, arrayOf h j = some a → i < 0 → Json.GetIndex j i h = .error Panic.indexOutOfRange) ∧
    (h.data j = Data.null → Json.GetIndex j i h = .error Panic.nilDeref) ∧
    (((∃ b, h.data j = Data.bool b) ∨ (∃ n, h.data j = Data.num n) ∨
      (∃ s, h.data j = Data.str s) ∨ (∃ m, h.data j = Data.map m) ∨
      (∃ m, h.data j = Data.bsonM m) ∨ (∃ c, h.data j = Data.jsonPtr c)) →
      Json.GetIndex j i h = .ok (h.newJson Data.null)) := by
  refine ⟨?_, ?_, ?_, ?_⟩
  · intro a ha hi
    obtain ⟨p, h0, hA, w, -⟩ := ArrayPtr_of_arrayOf ha
    refine ⟨_, _, by rw [GetIndex_rebound hA w, GetIndex_array w i hi], ?_, (w.newJson _).arrayOf⟩
    exact Heap.data_newJson _ _
  · intro a ha hi
    obtain ⟨p, h0, hA, w, -⟩ := ArrayPtr_of_arrayOf ha
    rw [GetIndex_rebound hA w, GetIndex_array_negative w i hi]
  · intro hd
    simp [Json.GetIndex, Json.ArrayPtr, hd, TypeOf, kindOf]
  · rintro (⟨b, hd⟩ | ⟨b, hd⟩ | ⟨b, hd⟩ | ⟨b, hd⟩ | ⟨b, hd⟩ | ⟨b, hd⟩) <;>
      simp [Json.GetIndex, Json.ArrayPtr, hd, TypeOf, kindOf, GoType.Kind]

/-- `Append(x)` on an Array with a non-nil `x`: the raw content of `x` is added
at the end; maps and `Json` structs are unchanged. -/
theorem Append_core (g : Nat → Nat) {h : Heap} {j p : Ref} {a : List Data} (w : ArrAt h j p a)
    (x : Data) (hx : x ≠ Data.null) :
    ∃ h1, Json.Append g j x h = .ok h1 ∧ ArrAt h1 j p (a ++ [rawContent h x]) ∧
      h1.maps = h.maps ∧ h1.jsons = h.jsons := by
  obtain ⟨hv1, he1, hl1, hc1, hj1, hm1, -⟩ :=
    goAppend_spec g h (h.cell p) [rawContent h x] w.hv
  have hA : Json.Append g j x h
      = .ok (((goAppend g h (h.cell p) [rawContent h x]).2.setCell p
          (goAppend g h (h.cell p) [rawContent h x]).1).setData j (.slicePtr p)) := by
    unfold Json.Append
    rw [w.ArrayPtr]
    cases x <;> first
      | exact absurd rfl hx
      | simp [TypeOf, stripPtr, GoType.Name, rawContent, Json.Interface]
  generalize goAppend g h (h.cell p) [rawContent h x] = r at hv1 he1 hl1 hc1 hj1 hm1 hA
  obtain ⟨s1, h1⟩ := r
  simp only at hv1 he1 hl1 hc1 hj1 hm1 hA
  have hp1 : p < h1.cells.length := by rw [hc1]; exact w.hp
  have hjs : ((h1.setCell p s1).setData j (.slicePtr p)).jsons = h.jsons := by
    show h1.jsons.set j (.slicePtr p) = h.jsons
    rw [hj1]; exact set_getD_self _ _ _ w.hj w.hd
  refine ⟨_, hA, ⟨?_, ?_, ?_, ?_, ?_⟩, hm1, hjs⟩
  · rw [hjs]; exact w.hj
  · show List.getD _ j Data.null = _
    rw [hjs]; exact w.hd
  · show p < (h1.cells.set p s1).length
    simpa using hp1
  · have : ((h1.setCell p s1).setData j (.slicePtr p)).cell p = s1 :=
      Heap.cell_setCell_same _ _ _ hp1
    rw [this]; exact hv1
  · have : ((h1.setCell p s1).setData j (.slicePtr p)).cell p = s1 :=
      Heap.cell_setCell_same _ _ _ hp1
    rw [this]
    show h1.elems s1 = _
    rw [he1, w.he]

theorem validSlice_congr {h h1 : Heap} (e : h1.arrays = h.arrays) (s : Slice) :
    h1.validSlice s ↔ h.validSlice s := by
  unfold Heap.validSlice Heap.array; rw [e]

theorem elems_congr {h h1 : Heap} (e : h1.arrays = h.arrays) (s : Slice) :
    h1.elems s = h.elems s := by
  unfold Heap.elems Heap.array; rw [e]

theorem cell_congr {h h1 : Heap} (e : h1.cells = h.cells) (p : Ref) : h1.cell p = h.cell p := by
  unfold Heap.cell; rw [e]

theorem data_congr {h h1 : Heap} (e : h1.jsons = h.jsons) (j : Ref) : h1.data j = h.data j := by
  unfold Heap.data; rw [e]

theorem mapOf_congr {h h1 : Heap} (e : h1.maps = h.maps) (m : Ref) : h1.mapOf m = h.mapOf m := by
  unfold Heap.mapOf; rw [e]

/-- After `child := parent.Get(k)` on an Object whose key `k` holds an Array
with elements `a`, the child points to a cell holding those elements, and the
parent's key holds the pointer to the same cell. -/
theorem Get_array_child (h : Heap) (j m : Ref) (k : String) (v : Data) (a : List Data)
    (hM : Json.Map j h = some m) (hm : m < h.maps.length)
    (hL : mapLookup k (h.mapOf m) = some v) (hv : arrayOfData h v = some a) :
    ∃ child h1 p, Json.Get j k h = .ok (child, h1) ∧ ArrAt h1 child p a ∧
      Json.Map j h1 = some m ∧ m < h1.maps.length ∧
      mapLookup k (h1.mapOf m) = some (Data.slicePtr p) := by
  obtain ⟨hj, -⟩ := Map_eq_some hM
  unfold arrayOfData at hv
  split at hv
  · rename_i s
    split at hv
    · rename_i hvs
      injection hv with hv
      obtain ⟨c, h1, e1, -, hc, -, ha, -, hsl⟩ :=
        Get_CheckGet_present h j m k (.slice s) hM hL (by simp)
      have h1e := hsl s rfl
      have hcells : h1.cells = h.cells ++ [s] := by rw [h1e]; rfl
      have hcell : h1.cell h.cells.length = s := by
        unfold Heap.cell; rw [hcells]; simp
      refine ⟨c, h1, h.cells.length, e1, ⟨?_, ?_, ?_, ?_, ?_⟩, ?_, ?_, ?_⟩
      · rw [h1e, hc]; show h.jsons.length < (h.jsons ++ [_]).length; simp
      · rw [h1e, hc]; exact Heap.data_newJson _ _
      · rw [hcells]; simp
      · rw [hcell]; exact (validSlice_congr ha s).2 hvs
      · rw [hcell, elems_congr ha s]; exact hv
      · rw [← hM]; apply Map_congr
        rw [h1e]; exact Heap.data_newJson_old _ _ _ hj
      · rw [h1e]; simpa [Heap.newJson, Heap.mapStore, Heap.newCell] using hm
      · rw [h1e]
        show mapLookup k (((h.newCell s).2.mapStore m k (.slicePtr h.cells.length)).mapOf m) = _
        rw [Heap.mapOf_mapStore_same _ _ _ _ (by simpa [Heap.newCell] using hm),
          mapLookup_mapInsert_self]
    · cases hv
  · rename_i p
    split at hv
    · rename_i hvp
      injection hv with hv
      obtain ⟨c, h1, e1, -, hc, -, ha, hns, -⟩ :=
        Get_CheckGet_present h j m k (.slicePtr p) hM hL (by simp)
      have h1e := hns (by simp)
      have hcells : h1.cells = h.cells := by rw [h1e]; rfl
      have hmaps : h1.maps = h.maps := by rw [h1e]; rfl
      refine ⟨c, h1, p, e1, ⟨?_, ?_, ?_, ?_, ?_⟩, ?_, ?_, ?_⟩
      · rw [h1e, hc]; show h.jsons.length < (h.jsons ++ [_]).length; simp
      · rw [h1e, hc]; exact Heap.data_newJson _ _
      · rw [hcells]; exact hvp.1
      · rw [cell_congr hcells]; exact (validSlice_congr ha _).2 hvp.2
      · rw [cell_congr hcells, elems_congr ha]; exact hv
      · rw [← hM]; apply Map_congr
        rw [h1e]; exact Heap.data_newJson_old _ _ _ hj
      · rw [hmaps]; exact hm
      · rw [mapOf_congr hmaps]; exact hL
    · cases hv
  · cases hv

/-- Aliasing through `Get`: on an Object whose key `k` holds an Array with elements
`a`, after `child := parent.Get(k)` and `child.Append(x)` with a non-nil `x`, a
fresh `parent.Get(k)` denotes the Array `a` followed by the raw content of
`x`: the mutation made through the child is visible through the parent. -/
theorem Append_through_child (g : Nat → Nat) (h : Heap) (j m : Ref) (k : String) (v x : Data)
    (a : List Data) (hM : Json.Map j h = some m) (hm : m < h.maps.length)
    (hL : mapLookup k (h.mapOf m) = some v) (hv : arrayOfData h v = some a)
    (hx : x ≠ Data.null) :
    ∃ child h1 h2 c2 h3, Json.Get j k h = .ok (child, h1) ∧
      Json.Append g child x h1 = .ok h2 ∧ Json.Get j k h2 = .ok (c2, h3) ∧
      arrayOf h3 c2 = some (a ++ [rawContent h1 x]) ∧
      (a ++ [rawContent h1 x]).length = a.length + 1 := by
  obtain ⟨child, h1, p, e1, w1, hM1, hm1, hL1⟩ := Get_array_child h j m k v a hM hm hL hv
  obtain ⟨h2, e2, w2, hmaps2, hjs2⟩ := Append_core g w1 x hx
  have hM2 : Json.Map j h2 = some m := by
    rw [← hM1]; exact Map_congr (data_congr hjs2 j)
  have hL2 : mapLookup k (h2.mapOf m) = some (Data.slicePtr p) := by
    rw [mapOf_congr hmaps2]; exact hL1
  obtain ⟨c2, h3, e3, -, hc, -, ha, hns, -⟩ :=
    Get_CheckGet_present h2 j m k (.slicePtr p) hM2 hL2 (by simp)
  have h3e := hns (by simp)
  have hcells : h3.cells = h2.cells := by rw [h3e]; rfl
  have w3 : ArrAt h3 c2 p (a ++ [rawContent h1 x]) := by
    refine ⟨?_, ?_, ?_, ?_, ?_⟩
    · rw [h3e, hc]; show h2.jsons.length < (h2.jsons ++ [_]).length; simp
    · rw [h3e, hc]; exact Heap.data_newJson _ _
    · rw [hcells]; exact w2.hp
    · rw [cell_congr hcells]; exact (validSlice_congr ha _).2 w2.hv
    · rw [cell_congr hcells, elems_congr ha]; exact w2.he
  exact ⟨child, h1, h2, c2, h3, e1, e2, e3, w3.arrayOf, by simp⟩

theorem Map_eq_dataMap (j : Ref) (h : Heap) : Json.Map j h = dataMap (h.data j) := by
  unfold Json.Map dataMap
  cases h.data j <;> rfl

theorem descend_congr {h h1 : Heap} (e : h1.maps = h.maps) (d : Data) (ks : List String) :
    descend h1 d ks = descend h d ks := by
  induction ks generalizing d with
  | nil => rfl
  | cons k ks ih =>
    unfold descend
    cases dataMap d with
    | none => rfl
    | some m =>
      simp only [mapOf_congr e]
      cases mapLookup k (h.mapOf m) with
      | none => rfl
      | some v => exact ih v

theorem hitsNull_congr {h h1 : Heap} (e : h1.maps = h.maps) (d : Data) (ks : List String) :
    hitsNull h1 d ks = hitsNull h d ks := by
  induction ks generalizing d with
  | nil => rfl
  | cons k ks ih =>
    unfold hitsNull
    cases dataMap d with
    | none => rfl
    | some m =>
      simp only [mapOf_congr e]
      cases mapLookup k (h.mapOf m) with
      | none => rfl
      | some v => cases v <;> first | rfl | exact ih _

/-- Descent by `GetPath`: for a path of string keys whose descent looks up no key
holding null, `GetPath` returns normally and yields the value reached by
descending key by key, or Null when a key is missing or the value reached so
far is not an Object. -/
theorem GetPath_keys (ks : List String) (h : Heap) (j : Ref)
    (hn : hitsNull h (h.data j) ks = false) :
    ∃ c h1, Json.GetPath j (ks.map Step.key) h = .ok (c, h1) ∧
      Presents h1 (descend h (h.data j) ks) c := by
  induction ks generalizing h j with
  | nil => exact ⟨j, h, rfl, Or.inl rfl⟩
  | cons k ks ih =>
    simp only [List.map_cons, Json.GetPath]
    unfold descend
    unfold hitsNull at hn
    have hMd := Map_eq_dataMap j h
    cases hD : dataMap (h.data j) with
    | none =>
      rw [hD] at hMd
      rw [(Get_CheckGet_absent h j k (fun m hm => by rw [hMd] at hm; cases hm)).2]
      exact ⟨_, _, rfl, Heap.data_newJson _ _⟩
    | some m =>
      rw [hD] at hMd hn
      simp only at hn ⊢
      cases hL : mapLookup k (h.mapOf m) with
      | none =>
        rw [(Get_CheckGet_absent h j k
          (fun m' hm => by rw [hMd] at hm; injection hm with hm; subst hm; exact hL)).2]
        exact ⟨_, _, rfl, Heap.data_newJson _ _⟩
      | some v =>
        rw [hL] at hn
        have hv : v ≠ Data.null := by
          intro e; subst e; simp at hn
        have hn' : hitsNull h v ks = false := by
          cases v <;> first | exact absurd rfl hv | exact hn
        obtain ⟨c, h1, -, e2, hc, hr, -, hns, hsl⟩ := Get_CheckGet_present h j m k v hMd hL hv
        rw [e2]
        simp only []
        by_cases hs : ∃ s, v = Data.slice s
        · obtain ⟨s, rfl⟩ := hs
          have hd : h1.data c = Data.slicePtr h.cells.length := by
            rw [hsl s rfl, hc]; exact Heap.data_newJson _ _
          cases ks with
          | nil => exact ⟨c, h1, rfl, hr⟩
          | cons k2 ks =>
            simp only [List.map_cons, Json.GetPath]
            rw [(Get_CheckGet_absent h1 c k2 (fun m' hm => by
              rw [Map_eq_dataMap, hd] at hm; cases hm)).2]
            exact ⟨_, _, rfl, Heap.data_newJson _ _⟩
        · have h1e := hns (fun s e => hs ⟨s, e⟩)
          have hd : h1.data c = v := by rw [h1e, hc]; exact Heap.data_newJson _ _
          have hmaps : h1.maps = h.maps := by rw [h1e]; rfl
          obtain ⟨c', h2, e3, hp⟩ := ih h1 c (by rw [hd, hitsNull_congr hmaps]; exact hn')
          rw [hd, descend_congr hmaps] at hp
          exact ⟨c', h2, e3, hp⟩

/-- The nil defect along a path: whenever the descent along a path of
string keys looks up a key holding null, `GetPath` panics. -/
theorem GetPath_keys_panics (ks : List String) (h : Heap) (j : Ref)
    (hn : hitsNull h (h.data j) ks = true) :
    Json.GetPath j (ks.map Step.key) h = .error Panic.nilDeref := by
  induction ks generalizing h j with
  | nil => simp [hitsNull] at hn
  | cons k ks ih =>
    simp only [List.map_cons, Json.GetPath]
    unfold hitsNull at hn
    have hMd := Map_eq_dataMap j h
    cases hD : dataMap (h.data j) with
    | none => rw [hD] at hn; simp at hn
    | some m =>
      rw [hD] at hMd hn
      simp only at hn
      cases hL : mapLookup k (h.mapOf m) with
      | none => rw [hL] at hn; simp at hn
      | some v =>
        rw [hL] at hn
        by_cases hv : v = Data.null
        · subst hv
          simp [Json.CheckGet, hMd, hL, TypeOf, kindOf]
        · have hn' : hitsNull h v ks = true := by
            cases v <;> first | exact absurd rfl hv | exact hn
          obtain ⟨c, h1, -, e2, hc, hr, -, hns, hsl⟩ := Get_CheckGet_present h j m k v hMd hL hv
          rw [e2]
          simp only []
          by_cases hs : ∃ s, v = Data.slice s
          · obtain ⟨s, rfl⟩ := hs
            cases ks <;> simp [hitsNull, dataMap] at hn'
          · have h1e := hns (fun s e => hs ⟨s, e⟩)
            have hd : h1.data c = v := by rw [h1e, hc]; exact Heap.data_newJson _ _
            have hmaps : h1.maps = h.maps := by rw [h1e]; rfl
            exact ih h1 c (by rw [hd, hitsNull_congr hmaps]; exact hn')

theorem mapOf_newMap_old (h : Heap) (m : Ref) (hm : m < h.maps.length) :
    h.newMap.2.mapOf m = h.mapOf m := by
  show (h.maps ++ [[]]).getD m [] = h.maps.getD m []
  simp only [List.getD_eq_getElem?_getD]
  rw [List.getElem?_append_left hm]

theorem mapOf_newMap_new (h : Heap) : h.newMap.2.mapOf h.newMap.1 = [] := by
  show (h.maps ++ [[]]).getD h.maps.length [] = []
  simp

theorem visited_fresh (h : Heap) (n : Ref) (p : List String) (hn : h.mapOf n = []) :
    visited h n p = [n] := by
  match p with
  | [] => rfl
  | [_] => rfl
  | b :: b2 :: rest => unfold visited; rw [hn]; rfl

/-- The step of the loop of `SetPath` that creates a map: the heap after
`n := make(map[string]interface{}); curr[b] = n`. -/
theorem step_fresh (h : Heap) (curr : Ref) (b : String) (hc : curr < h.maps.length) :
    h.newMap.1 = h.maps.length ∧
    (h.newMap.2.mapStore curr b (.map h.newMap.1)).maps.length = h.maps.length + 1 ∧
    (h.newMap.2.mapStore curr b (.map h.newMap.1)).mapOf h.newMap.1 = [] ∧
    mapLookup b ((h.newMap.2.mapStore curr b (.map h.newMap.1)).mapOf curr)
      = some (.map h.newMap.1) ∧
    ∀ m, m < h.maps.length → m ≠ curr →
      (h.newMap.2.mapStore curr b (.map h.newMap.1)).mapOf m = h.mapOf m := by
  have hc' : curr < h.newMap.2.maps.length := by
    show curr < (h.maps ++ [[]]).length
    simp only [List.length_append, List.length_singleton]; exact Nat.lt_succ_of_lt hc
  refine ⟨rfl, ?_, ?_, ?_, ?_⟩
  · simp [Heap.mapStore, Heap.newMap]
  · rw [Heap.mapOf_mapStore_other _ _ _ _ _ (by
      show h.maps.length ≠ curr
      exact (Nat.ne_of_lt hc).symm)]
    exact mapOf_newMap_new h
  · rw [Heap.mapOf_mapStore_same _ _ _ _ hc', mapLookup_mapInsert_self]
  · intro m hm hne
    rw [Heap.mapOf_mapStore_other _ _ _ _ _ hne, mapOf_newMap_old h m hm]

theorem setPathWalk_jsons (x : Data) (p : List String) (curr : Ref) (h : Heap) :
    (Json.setPathWalk x curr p h).jsons = h.jsons := by
  induction p generalizing curr h with
  | nil => rfl
  | cons b rest ih =>
    cases rest with
    | nil => rfl
    | cons b2 rest =>
      unfold Json.setPathWalk
      split
      · rw [ih]; rfl
      · exact ih _ _
      · rw [ih]; rfl

theorem setPathWalk_length (x : Data) (p : List String) (curr : Ref) (h : Heap) :
    h.maps.length ≤ (Json.setPathWalk x curr p h).maps.length := by
  induction p generalizing curr h with
  | nil => exact Nat.le_refl _
  | cons b rest ih =>
    cases rest with
    | nil => simp [Json.setPathWalk, Heap.mapStore]
    | cons b2 rest =>
      unfold Json.setPathWalk
      split
      · refine Nat.le_trans ?_ (ih _ _)
        simp [Heap.mapStore, Heap.newMap]
      · exact ih _ _
      · refine Nat.le_trans ?_ (ih _ _)
        simp [Heap.mapStore, Heap.newMap]

theorem setPathWalk_step_map (x : Data) (curr r : Ref) (b b2 : String) (rest : List String)
    (h : Heap) (hL : mapLookup b (h.mapOf curr) = some (.map r)) :
    Json.setPathWalk x curr (b :: b2 :: rest) h = Json.setPathWalk x r (b2 :: rest) h := by
  rw [Json.setPathWalk, hL]

theorem setPathWalk_step_fresh (x : Data) (curr : Ref) (b b2 : String) (rest : List String)
    (h : Heap) (hL : ∀ r, mapLookup b (h.mapOf curr) ≠ some (.map r)) :
    Json.setPathWalk x curr (b :: b2 :: rest) h
      = Json.setPathWalk x h.newMap.1 (b2 :: rest)
          (h.newMap.2.mapStore curr b (.map h.newMap.1)) := by
  rw [Json.setPathWalk]
  split
  · rfl
  · rename_i r hr; exact absurd hr (hL r)
  · rfl

theorem visited_step_map (curr r : Ref) (b b2 : String) (rest : List String)
    (h : Heap) (hL : mapLookup b (h.mapOf curr) = some (.map r)) :
    visited h curr (b :: b2 :: rest) = curr :: visited h r (b2 :: rest) := by
  rw [visited, hL]

theorem mem_visited_self (h : Heap) (curr : Ref) (p : List String) : curr ∈ visited h curr p := by
  match p with
  | [] => simp [visited]
  | [_] => simp [visited]
  | b :: b2 :: rest =>
    unfold visited
    split <;> simp

/-- The loop of `SetPath` writes only to the maps it passes through and to the
maps it creates: every other existing map keeps its entries. -/
theorem setPathWalk_frame (x : Data) (p : List String) (curr : Ref) (h : Heap) (m : Ref)
    (hall : ∀ r ∈ visited h curr p, r < h.maps.length)
    (hm : m < h.maps.length) (hnot : m ∉ visited h curr p) :
    (Json.setPathWalk x curr p h).mapOf m = h.mapOf m := by
  induction p generalizing curr h with
  | nil => rfl
  | cons b rest ih =>
    have hcurr : curr < h.maps.length := hall curr (mem_visited_self h curr _)
    have hne : m ≠ curr := fun e => hnot (e ▸ mem_visited_self h curr _)
    cases rest with
    | nil => exact Heap.mapOf_mapStore_other _ _ _ _ _ hne
    | cons b2 rest =>
      by_cases hL : ∃ r, mapLookup b (h.mapOf curr) = some (.map r)
      · obtain ⟨r, hL⟩ := hL
        rw [setPathWalk_step_map x curr r b b2 rest h hL]
        rw [visited_step_map curr r b b2 rest h hL] at hall hnot
        exact ih r h (fun r' hr' => hall r' (List.mem_cons_of_mem _ hr')) hm
          (fun hmem => hnot (List.mem_cons_of_mem _ hmem))
      · have hL' : ∀ r, mapLookup b (h.mapOf curr) ≠ some (.map r) := fun r e => hL ⟨r, e⟩
        rw [setPathWalk_step_fresh x curr b b2 rest h hL']
        obtain ⟨hn, hlen, hempty, -, hold⟩ := step_fresh h curr b hcurr
        have hv := visited_fresh _ h.newMap.1 (b2 :: rest) hempty
        rw [ih h.newMap.1 _ (by
            intro r hr; rw [hv] at hr; simp at hr; rw [hr, hlen, hn]; exact Nat.lt_succ_self _)
          (by rw [hlen]; exact Nat.lt_succ_of_lt hm)
          (by rw [hv]; simp; rw [hn]; exact Nat.ne_of_lt hm)]
        exact hold m hm hne

/-- The loop of `SetPath` and the final assignment: when the maps the walk
passes through are allocated and pairwise different, descending from `curr`
along the branch afterwards reaches the value written. -/
theorem setPathWalk_descend (x : Data) (p : List String) (hp : p ≠ []) (curr : Ref) (h : Heap)
    (hall : ∀ r ∈ visited h curr p, r < h.maps.length)
    (hnd : (visited h curr p).Nodup) :
    descend (Json.setPathWalk x curr p h) (.map curr) p = some x := by
  induction p generalizing curr h with
  | nil => exact absurd rfl hp
  | cons b rest ih =>
    have hcurr : curr < h.maps.length := hall curr (mem_visited_self h curr _)
    cases rest with
    | nil =>
      simp only [Json.setPathWalk, descend, dataMap]
      rw [Heap.mapOf_mapStore_same _ _ _ _ hcurr, mapLookup_mapInsert_self]
    | cons b2 rest =>
      by_cases hL : ∃ r, mapLookup b (h.mapOf curr) = some (.map r)
      · obtain ⟨r, hL⟩ := hL
        rw [setPathWalk_step_map x curr r b b2 rest h hL]
        rw [visited_step_map curr r b b2 rest h hL] at hall hnd
        have hall' : ∀ r' ∈ visited h r (b2 :: rest), r' < h.maps.length :=
          fun r' hr' => hall r' (List.mem_cons_of_mem _ hr')
        have hfr := setPathWalk_frame x (b2 :: rest) r h curr hall' hcurr (List.nodup_cons.1 hnd).1
        have hrec := ih (by simp) r h hall' (List.nodup_cons.1 hnd).2
        rw [descend]
        simp only [dataMap]
        rw [hfr, hL]
        exact hrec
      · have hL' : ∀ r, mapLookup b (h.mapOf curr) ≠ some (.map r) := fun r e => hL ⟨r, e⟩
        rw [setPathWalk_step_fresh x curr b b2 rest h hL']
        obtain ⟨hn, hlen, hempty, hstored, -⟩ := step_fresh h curr b hcurr
        have hv := visited_fresh _ h.newMap.1 (b2 :: rest) hempty
        have hall' : ∀ r ∈ visited (h.newMap.2.mapStore curr b (.map h.newMap.1)) h.newMap.1
            (b2 :: rest), r < (h.newMap.2.mapStore curr b (.map h.newMap.1)).maps.length := by
          intro r hr; rw [hv] at hr; simp at hr; rw [hr, hlen, hn]; exact Nat.lt_succ_self _
        have hfr := setPathWalk_frame x (b2 :: rest) h.newMap.1 _ curr hall'
          (by rw [hlen]; exact Nat.lt_succ_of_lt hcurr)
          (by rw [hv]; simp; rw [hn]; exact Nat.ne_of_lt hcurr)
        have hrec := ih (by simp) h.newMap.1 _ hall' (by rw [hv]; simp)
        rw [descend]
        simp only [dataMap]
        rw [hfr, hstored]
        exact hrec

theorem descend_append (h : Heap) (d : Data) (q r : List String) :
    descend h d (q ++ r) = (descend h d q).bind (fun v => descend h v r) := by
  induction q generalizing d with
  | nil => rfl
  | cons k q ih =>
    simp only [List.cons_append, descend]
    cases dataMap d with
    | none => rfl
    | some m =>
      simp only []
      cases mapLookup k (h.mapOf m) with
      | none => rfl
      | some v => exact ih v

theorem descend_some_nonempty (h : Heap) (v x : Data) (r : List String) (hr : r ≠ [])
    (hd : descend h v r = some x) : ∃ m, dataMap v = some m := by
  cases r with
  | nil => exact absurd rfl hr
  | cons k ks =>
    unfold descend at hd
    cases hD : dataMap v with
    | none => rw [hD] at hd; cases hd
    | some m => exact ⟨m, rfl⟩

theorem hitsNull_of_descend (h : Heap) (d x : Data) (p : List String)
    (hd : descend h d p = some x) (hx : x ≠ Data.null) : hitsNull h d p = false := by
  induction p generalizing d with
  | nil => rfl
  | cons k ks ih =>
    unfold descend at hd
    unfold hitsNull
    cases hD : dataMap d with
    | none => rfl
    | some m =>
      rw [hD] at hd
      simp only at hd ⊢
      cases hL : mapLookup k (h.mapOf m) with
      | none => rfl
      | some v =>
        rw [hL] at hd
        simp only at hd
        have hv : v ≠ Data.null := by
          intro e
          subst e
          cases ks with
          | nil => simp [descend] at hd; exact hx hd.symm
          | cons k2 ks => simp [descend, dataMap] at hd
        have := ih v hd
        cases v <;> first | exact absurd rfl hv | exact this

/-- What `SetPath` builds: `SetPath(p, x)` with a non-empty branch `p`, on a receiver
of any variant.  When the receiver is a `map[string]interface{}` the maps the
walk passes through must be allocated and pairwise different (as they are in
every decoded document, which is a tree).  Afterwards the receiver is an
Object; descending along `p` reaches `x`; every proper initial part of `p`
leads to an Object; and, when `x` is not null, `GetPath(p...)` yields `x`. -/
theorem SetPath_spec (h : Heap) (j : Ref) (p : List String) (x : Data) (hp : p ≠ [])
    (hj : j < h.jsons.length)
    (hw : ∀ m, h.data j = Data.map m →
      (∀ r ∈ visited h m p, r < h.maps.length) ∧ (visited h m p).Nodup) :
    ∃ m, (Json.SetPath j p x h).data j = Data.map m ∧
      descend (Json.SetPath j p x h) (Data.map m) p = some x ∧
      (∀ q r, p = q ++ r → r ≠ [] →
        ∃ v mm, descend (Json.SetPath j p x h) (Data.map m) q = some v ∧ dataMap v = some mm) ∧
      (x ≠ Data.null →
        ∃ c h2, Json.GetPath j (p.map Step.key) (Json.SetPath j p x h) = .ok (c, h2) ∧
          Rebound h2 x (h2.data c)) := by
  have key : ∃ m, (Json.SetPath j p x h).data j = Data.map m ∧
      descend (Json.SetPath j p x h) (Data.map m) p = some x := by
    cases p with
    | nil => exact absurd rfl hp
    | cons b rest =>
      by_cases hd : ∃ m, h.data j = Data.map m
      · obtain ⟨m, hd⟩ := hd
        obtain ⟨hall, hnd⟩ := hw m hd
        have hS : Json.SetPath j (b :: rest) x h = Json.setPathWalk x m (b :: rest) h := by
          unfold Json.SetPath; rw [hd]
        rw [hS]
        refine ⟨m, ?_, setPathWalk_descend x _ hp m h hall hnd⟩
        rw [data_congr (setPathWalk_jsons x _ m h)]; exact hd
      · have hS : Json.SetPath j (b :: rest) x h
            = Json.setPathWalk x h.newMap.1 (b :: rest) (h.newMap.2.setData j (.map h.newMap.1)) := by
          cases hdj : h.data j with
          | map m => exact absurd ⟨m, hdj⟩ hd
          | _ => simp only [Json.SetPath, hdj]
        rw [hS]
        have hempty : (h.newMap.2.setData j (.map h.newMap.1)).mapOf h.newMap.1 = [] :=
          mapOf_newMap_new h
        have hv := visited_fresh _ h.newMap.1 (b :: rest) hempty
        refine ⟨h.newMap.1, ?_, setPathWalk_descend x _ hp _ _ ?_ ?_⟩
        · rw [data_congr (setPathWalk_jsons x _ _ _)]
          exact Heap.data_setData_same _ _ _ hj
        · intro r hr
          rw [hv] at hr; simp at hr; rw [hr]
          show h.maps.length < (h.maps ++ [[]]).length
          simp
        · rw [hv]; simp
  obtain ⟨m, hd, hdesc⟩ := key
  refine ⟨m, hd, hdesc, ?_, ?_⟩
  · intro q r hqr hr
    subst hqr
    rw [descend_append] at hdesc
    cases hq : descend (Json.SetPath j (q ++ r) x h) (Data.map m) q with
    | none => rw [hq] at hdesc; cases hdesc
    | some v =>
      rw [hq] at hdesc
      obtain ⟨mm, hmm⟩ := descend_some_nonempty _ v x r hr hdesc
      exact ⟨v, mm, rfl, hmm⟩
  · intro hx
    have hn := hitsNull_of_descend _ _ x p hdesc hx
    rw [← hd] at hn hdesc
    obtain ⟨c, h2, e, hpres⟩ := GetPath_keys p _ j hn
    rw [hdesc] at hpres
    exact ⟨c, h2, e, hpres⟩

/-- The specification example for `SetPath`: `SetPath(["a","b","c"], 1)` on the empty Object leaves
exactly `{"a":{"b":{"c":1}}}`: three maps, chained by the keys `a` and `b`,
the innermost holding `1` under `c`. -/
theorem SetPath_example :
    Json.SetPath 0 ["a", "b", "c"] (Data.num 1) heapNew
      = ⟨[], [[("a", Data.map 1)], [("b", Data.map 2)], [("c", Data.num 1)]], [],
          [Data.map 0]⟩ :=
  rfl

/-- The specification examples for `GetPath`: `GetPath("a","b")` yields `5` on `{"a":{"b":5}}` and
Null on `{"a":7}`. -/
theorem GetPath_examples :
    (∃ c h1, Json.GetPath 0 [Step.key "a", Step.key "b"] heapAB5 = .ok (c, h1) ∧
      h1.data c = Data.num 5) ∧
    (∃ c h1, Json.GetPath 0 [Step.key "a", Step.key "b"] heapA7 = .ok (c, h1) ∧
      h1.data c = Data.null) :=
  ⟨⟨_, _, rfl, rfl⟩, ⟨_, _, rfl, rfl⟩⟩

/-- The specification example for `RenameKey`: `RenameKey("old","new")` on `{"old":1}` leaves
`{"new":1}`. -/
theorem RenameKey_example :
    ∃ h1, Json.RenameKey 0 "old" "new" heapOld1 = .ok h1 ∧ h1.data 0 = Data.map 0 ∧
      h1.mapOf 0 = [("new", Data.num 1)] :=
  ⟨_, rfl, rfl, rfl⟩

/-- The specification example for aliasing: with parent `{"arr":[1,2]}`, `child := parent.Get("arr")`
and `child.Append(3)`, a fresh `parent.Get("arr")` denotes `[1,2,3]`. -/
theorem Append_through_child_example (g : Nat → Nat) :
    ∃ child h1 h2 c2 h3, Json.Get 0 "arr" heapParent = .ok (child, h1) ∧
      Json.Append g child (Data.num 3) h1 = .ok h2 ∧ Json.Get 0 "arr" h2 = .ok (c2, h3) ∧
      arrayOf h3 c2 = some ([Data.num 1, Data.num 2] ++ [rawContent h1 (Data.num 3)]) ∧
      ([Data.num 1, Data.num 2] ++ [rawContent h1 (Data.num 3)]).length
        = [Data.num 1, Data.num 2].length + 1 :=
  Append_through_child g heapParent 0 0 "arr" (Data.slice ⟨0, 0, 2, 2⟩) (Data.num 3)
    [Data.num 1, Data.num 2] rfl (by decide) rfl (by decide) (by decide)

/-- The hypothesis of `SetPath_spec` holds on the empty Object for the branch
`a, b, c`, and the conclusion applies to it. -/
theorem SetPath_spec_example :
    ∃ m, (Json.SetPath 0 ["a", "b", "c"] (Data.num 1) heapNew).data 0 = Data.map m ∧
      descend (Json.SetPath 0 ["a", "b", "c"] (Data.num 1) heapNew) (Data.map m) ["a", "b", "c"]
        = some (Data.num 1) :=
  let ⟨m, h1, h2, _⟩ := SetPath_spec heapNew 0 ["a", "b", "c"] (Data.num 1) (by decide)
    (by decide) (fun m hm => by
      have : m = 0 := by
        have h0 : heapNew.data 0 = Data.map 0 := rfl
        rw [h0] at hm; injection hm with hm; exact hm.symm
      subst this
      exact ⟨by decide, by decide⟩)
  ⟨m, h1, h2⟩

/-- Why `SetPath_spec` asks for pairwise different maps: on a map that contains
itself under `a`, `SetPath(["a","a"], 1)` overwrites the link it has just
followed, and the branch `a, a` no longer leads anywhere. -/
theorem SetPath_on_cyclic_map :
    (Json.SetPath 0 ["a", "a"] (Data.num 1) heapCyclic).mapOf 0 = [("a", Data.num 1)] ∧
    descend (Json.SetPath 0 ["a", "a"] (Data.num 1) heapCyclic) (Data.map 0) ["a", "a"] = none :=
  ⟨rfl, rfl⟩

theorem Set_then_Get_witness :
    ∃ c h1, Json.Get 0 "k" (Json.Set 0 "k" (Data.num 1) heapNew) = .ok (c, h1) ∧
      Rebound h1 (Data.num 1) (h1.data c) :=
  Set_then_Get heapNew 0 0 "k" (Data.num 1) rfl (by decide) (by decide)

theorem RenameKey_present_witness :
    ∃ h1, Json.RenameKey 0 "old" "new" heapOld1 = .ok h1 ∧ Json.Map 0 h1 = some 0 ∧
      ("old" ≠ "new" → ∃ d, mapLookup "new" (h1.mapOf 0) = some d ∧ Rebound h1 (Data.num 1) d) ∧
      mapLookup "old" (h1.mapOf 0) = none ∧
      ∀ k, k ≠ "old" → k ≠ "new" → mapLookup k (h1.mapOf 0) = mapLookup k (heapOld1.mapOf 0) :=
  RenameKey_present heapOld1 0 0 "old" "new" (Data.num 1) rfl (by decide) rfl (by decide)

theorem RenameKey_absent_witness :
    Json.RenameKey 0 "old" "new" heapA7 = .ok heapA7 :=
  RenameKey_absent heapA7 0 "old" "new" (fun m hm => by
    have : m = 0 := by
      have h0 : Json.Map 0 heapA7 = some 0 := rfl
      rw [h0] at hm; injection hm with hm; exact hm.symm
    subst this; rfl)

theorem GetPath_keys_witness :
    ∃ c h1, Json.GetPath 0 (["a", "b"].map Step.key) heapAB5 = .ok (c, h1) ∧
      Presents h1 (descend heapAB5 (heapAB5.data 0) ["a", "b"]) c :=
  GetPath_keys ["a", "b"] heapAB5 0 rfl

theorem GetPath_keys_panics_witness :
    Json.GetPath 0 (["a", "b"].map Step.key) heapANull = .error Panic.nilDeref :=
  GetPath_keys_panics ["a", "b"] heapANull 0 rfl

theorem GetIndex_cases_witness :
    ∃ c h1, Json.GetIndex 0 5 heapArr12 = .ok (c, h1) ∧
      h1.data c = [Data.num 1, Data.num 2].getD (5 : Int).toNat Data.null ∧
      arrayOf h1 0 = some [Data.num 1, Data.num 2] :=
  (GetIndex_cases heapArr12 0 5).1 [Data.num 1, Data.num 2] (by decide) (by decide)

/-- C11 (the code departs from the claim): on the String `"s"`, the strict
extractor `Array()` does not return an error: `ArrayPtr` returns a nil pointer
with the error and `Array` dereferences it, so it panics; `MustArray()` and
`MustArray(d)` panic with it instead of returning the default. -/
theorem Array_on_String_panics (d : Slice) :
    Json.ArrayPtr 0 heapStr = .ok (none, heapStr) ∧
    Json.Array 0 heapStr = .error Panic.nilDeref ∧
    Json.MustArray 0 [] heapStr = .error Panic.nilDeref ∧
    Json.MustArray 0 [d] heapStr = .error Panic.nilDeref :=
  ⟨rfl, rfl, rfl, rfl⟩

/-- `Array()` never returns an error: on every receiver that is not an Array
it panics, and `MustArray` with it. -/
theorem Array_not_array_panics (h : Heap) (j : Ref) (hs : ∀ s, h.data j ≠ Data.slice s)
    (hp : ∀ p, h.data j ≠ Data.slicePtr p) :
    Json.Array j h = .error Panic.nilDeref ∧
    Json.MustArray j [] h = .error Panic.nilDeref ∧
    ∀ d, Json.MustArray j [d] h = .error Panic.nilDeref := by
  have hA : Json.Array j h = .error Panic.nilDeref := by
    unfold Json.Array Json.ArrayPtr
    cases hd : h.data j with
    | slice s => exact absurd hd (hs s)
    | slicePtr p => exact absurd hd (hp p)
    | _ => simp [TypeOf, kindOf, GoType.Kind]
  refine ⟨hA, ?_, fun d => ?_⟩ <;> simp [Json.MustArray, hA]

theorem Array_not_array_panics_witness :
    Json.Array 0 heapNum = .error Panic.nilDeref ∧
    Json.MustArray 0 [] heapNum = .error Panic.nilDeref ∧
    ∀ d, Json.MustArray 0 [d] heapNum = .error Panic.nilDeref :=
  Array_not_array_panics heapNum 0 (fun s e => by cases e) (fun p e => by cases e)

/-- `Array()` and `MustArray` on an Array: the slice returned holds the
elements, the error is nil, and the receiver still denotes the same Array. -/
theorem Array_of_array (h : Heap) (j : Ref) (a : List Data) (ha : arrayOf h j = some a) :
    ∃ s h1, Json.Array j h = .ok ((s, false), h1) ∧ h1.elems s = a ∧ arrayOf h1 j = some a ∧
      h1.validSlice s ∧ h1.maps = h.maps ∧
      Json.MustArray j [] h = .ok (s, h1) ∧ ∀ d, Json.MustArray j [d] h = .ok (s, h1) := by
  obtain ⟨p, h1, hA, w, -, hm, -⟩ := ArrayPtr_of_arrayOf ha
  have hArr : Json.Array j h = .ok ((h1.cell p, false), h1) := by
    unfold Json.Array; rw [hA]
  refine ⟨h1.cell p, h1, hArr, w.he, w.arrayOf, w.hv, hm, ?_, fun d => ?_⟩ <;>
    simp [Json.MustArray, hArr]

/-- C12: `MustString()` returns the string of a String value and the empty
string for every other variant; `MustString(d)` returns the string of a String
value and `d` for every other variant. -/
theorem MustString_spec (h : Heap) (j : Ref) (d : String) :
    Json.MustString j [] h = .ok (match h.data j with | .str s => s | _ => "") ∧
    Json.MustString j [d] h = .ok (match h.data j with | .str s => s | _ => d) := by
  unfold Json.MustString Json.String
  cases h.data j <;> exact ⟨rfl, rfl⟩

/-- The specification example for `MustString`: on a Number, `MustString()` is
the empty string and `MustString("x")` is `"x"`. -/
theorem MustString_example :
    Json.MustString 0 [] heapNum = .ok "" ∧ Json.MustString 0 ["x"] heapNum = .ok "x" :=
  ⟨rfl, rfl⟩

theorem stringStep_none (a : List Data) : a.foldl stringStep none = none := by
  induction a with
  | nil => rfl
  | cons e a ih => exact ih

theorem stringStep_foldl (a : List Data) (acc : List String) :
    a.foldl stringStep (some acc)
      = if a.all isStringOrNull then some (acc ++ a.map strOf) else none := by
  induction a generalizing acc with
  | nil => simp
  | cons e a ih =>
    cases e with
    | null => simp [stringStep, ih, isStringOrNull, strOf]
    | str s => simp [stringStep, ih, isStringOrNull, strOf]
    | _ => simp [stringStep, stringStep_none, isStringOrNull]

/-- C13: on an Array with elements `a`, `StringArray()` returns normally; it
succeeds exactly when every element is a String or Null, the result is then
the list of the elements' strings (same length, the empty string for Null),
and otherwise it returns the error. -/
theorem StringArray_spec (h : Heap) (j : Ref) (a : List Data) (ha : arrayOf h j = some a) :
    ∃ r h1, Json.StringArray j h = .ok (r, h1) ∧ arrayOf h1 j = some a ∧
      (r ≠ none ↔ ∀ e ∈ a, e = Data.null ∨ ∃ s, e = Data.str s) ∧
      ∀ l, r = some l → l = a.map strOf ∧ l.length = a.length ∧
        ∀ i, i < a.length → l.getD i "" = strOf (a.getD i Data.null) := by
  obtain ⟨s, h1, hA, he, ha1, -⟩ := Array_of_array h j a ha
  have hfold : Json.StringArray j h = .ok (a.foldl stringStep (some []), h1) := by
    unfold Json.StringArray
    rw [hA]
    simp only [he]
  rw [stringStep_foldl] at hfold
  have hall : (a.all isStringOrNull = true) ↔ ∀ e ∈ a, e = Data.null ∨ ∃ s, e = Data.str s := by
    rw [List.all_eq_true]
    constructor
    · intro hx e he
      have := hx e he
      cases e <;> simp [isStringOrNull] at this ⊢
    · intro hx e he
      rcases hx e he with rfl | ⟨s, rfl⟩ <;> rfl
  refine ⟨_, h1, hfold, ha1, ?_, ?_⟩
  · rw [← hall]
    by_cases hb : a.all isStringOrNull = true <;> simp [hb]
  · intro l hl
    by_cases hb : a.all isStringOrNull = true
    · simp only [hb, if_true, List.nil_append, Option.some.injEq] at hl
      subst hl
      refine ⟨rfl, by simp, fun i hi => ?_⟩
      simp [List.getD_eq_getElem?_getD, List.getElem?_map, List.getElem?_eq_getElem hi]
    · simp [hb] at hl

theorem StringArray_spec_witness :
    ∃ r h1, Json.StringArray 0 heapStrings = .ok (r, h1) ∧
      arrayOf h1 0 = some [Data.str "a", Data.null, Data.str "b"] ∧
      (r ≠ none ↔ ∀ e ∈ [Data.str "a", Data.null, Data.str "b"],
        e = Data.null ∨ ∃ s, e = Data.str s) ∧
      ∀ l, r = some l → l = [Data.str "a", Data.null, Data.str "b"].map strOf ∧
        l.length = [Data.str "a", Data.null, Data.str "b"].length ∧
        ∀ i, i < [Data.str "a", Data.null, Data.str "b"].length →
          l.getD i "" = strOf ([Data.str "a", Data.null, Data.str "b"].getD i Data.null) :=
  StringArray_spec heapStrings 0 [Data.str "a", Data.null, Data.str "b"] (by decide)

/-- The results of `StringArray` on `["a", null, "b"]` and on `[1, 2]`. -/
theorem StringArray_examples :
    (∃ h1, Json.StringArray 0 heapStrings = .ok (some ["a", "", "b"], h1)) ∧
    (∃ h1, Json.StringArray 0 heapArr12 = .ok (none, h1)) :=
  ⟨⟨_, rfl⟩, ⟨_, rfl⟩⟩

/-- C14 (the code departs from the claim): on the Array `[1, 2]`,
`Append(nil)` does not add a null element: it panics, because `Append` calls
`reflect.TypeOf(val).Kind()` on the nil value. -/
theorem Append_null_panics (g : Nat → Nat) :
    arrayOf heapArr12 0 = some [Data.num 1, Data.num 2] ∧
    Json.Append g 0 Data.null heapArr12 = .error Panic.nilDeref :=
  ⟨by decide, rfl⟩

/-- `Append(x)` on an Array with a non-nil `x`, whether the Array is held by
value or through a pointer: the elements become `a` followed by the raw
content of `x`. -/
theorem Append_array (g : Nat → Nat) (h : Heap) (j : Ref) (a : List Data) (x : Data)
    (ha : arrayOf h j = some a) (hx : x ≠ Data.null) :
    ∃ h0 h1, Json.Append g j x h = .ok h1 ∧ arrayOf h1 j = some (a ++ [rawContent h0 x]) ∧
      (a ++ [rawContent h0 x]).length = a.length + 1 ∧
      h0.jsons.length = h.jsons.length ∧ ∀ c, c ≠ j → h0.data c = h.data c := by
  obtain ⟨p, h0, hA, w, -, -, hl⟩ := ArrayPtr_of_arrayOf ha
  obtain ⟨h1, e1, w1, -, -⟩ := Append_core g w x hx
  have hre : Json.Append g j x h = Json.Append g j x h0 := by
    unfold Json.Append; rw [hA, w.ArrayPtr]
  refine ⟨h0, h1, by rw [hre, e1], w1.arrayOf, by simp, hl, ?_⟩
  intro c hc
  unfold Json.ArrayPtr at hA
  cases hd : h.data j with
  | slice s =>
    simp [hd, TypeOf, kindOf, GoType.Kind] at hA
    rw [← hA.2]
    simp [Heap.data, Heap.setData, Heap.newCell, List.getElem?_set, Ne.symm hc]
  | slicePtr q =>
    simp [hd, TypeOf, kindOf, GoType.Kind] at hA
    rw [← hA.2]
  | null => simp [hd, TypeOf, kindOf] at hA
  | _ => simp [hd, TypeOf, kindOf, GoType.Kind] at hA

theorem Append_array_witness :
    ∃ h0 h1, Json.Append (fun _ => 0) 0 (Data.num 3) heapArr12 = .ok h1 ∧
      arrayOf h1 0 = some ([Data.num 1, Data.num 2] ++ [rawContent h0 (Data.num 3)]) ∧
      ([Data.num 1, Data.num 2] ++ [rawContent h0 (Data.num 3)]).length
        = [Data.num 1, Data.num 2].length + 1 ∧
      h0.jsons.length = heapArr12.jsons.length ∧ ∀ c, c ≠ 0 → h0.data c = heapArr12.data c :=
  Append_array (fun _ => 0) heapArr12 0 [Data.num 1, Data.num 2] (Data.num 3) (by decide)
    (by decide)

/-- `Append` on a receiver that is not array-like fails fatally, whatever the
value appended. -/
theorem Append_not_array_panics (g : Nat → Nat) (h : Heap) (j : Ref) (x : Data)
    (hs : ∀ s, h.data j ≠ Data.slice s) (hp : ∀ p, h.data j ≠ Data.slicePtr p) :
    Json.Append g j x h
      = .error (if h.data j = Data.null then Panic.nilDeref else Panic.explicit) := by
  unfold Json.Append Json.ArrayPtr
  cases hd : h.data j with
  | slice s => exact absurd hd (hs s)
  | slicePtr p => exact absurd hd (hp p)
  | null => simp [TypeOf, kindOf]
  | _ => simp [TypeOf, kindOf, GoType.Kind]

theorem Append_not_array_panics_witness :
    Json.Append (fun _ => 0) 0 (Data.num 3) heapStr
      = .error (if heapStr.data 0 = Data.null then Panic.nilDeref else Panic.explicit) :=
  Append_not_array_panics (fun _ => 0) heapStr 0 (Data.num 3) (fun s e => by cases e)
    (fun p e => by cases e)

/-- C16 (the code departs from the claim): on a Null receiver, which is not
array-like, `DelIndex(0)` does not report an error: it panics in `ArrayPtr`
(`reflect.TypeOf(nil).Kind()`). -/
theorem DelIndex_on_Null_panics (g : Nat → Nat) :
    Json.DelIndex g 0 0 heapNull = .error Panic.nilDeref :=
  rfl

/-- `DelIndex(i)` on an Array with `0 <= i < len`: no error, and the elements
become `a[0..i)` followed by `a[i+1..n)`. -/
theorem DelIndex_in_range (g : Nat → Nat) (h : Heap) (j : Ref) (a : List Data) (i : Nat)
    (ha : arrayOf h j = some a) (hi : i < a.length) :
    ∃ h1, Json.DelIndex g j (i : Int) h = .ok (false, h1) ∧
      arrayOf h1 j = some (a.take i ++ a.drop (i + 1)) := by
  obtain ⟨p, h0, hA, w, -⟩ := ArrayPtr_of_arrayOf ha
  obtain ⟨h1, e1, w1, -, -⟩ := DelIndex_core g w i hi
  exact ⟨h1, by rw [DelIndex_rebound g hA w, e1], w1.arrayOf⟩

theorem DelIndex_in_range_witness :
    ∃ h1, Json.DelIndex (fun _ => 0) 0 ((0 : Nat) : Int) heapArr12 = .ok (false, h1) ∧
      arrayOf h1 0 = some ([Data.num 1, Data.num 2].take 0 ++ [Data.num 1, Data.num 2].drop (0 + 1)) :=
  DelIndex_in_range (fun _ => 0) heapArr12 0 [Data.num 1, Data.num 2] 0 (by decide) (by decide)

/-- `DelIndex(i)` on an Array with `i` out of range fails fatally (a slice
expression out of range); it never succeeds silently. -/
theorem DelIndex_out_of_range (g : Nat → Nat) (h : Heap) (j : Ref) (a : List Data) (i : Int)
    (ha : arrayOf h j = some a) (hi : i < 0 ∨ (a.length : Int) ≤ i) :
    Json.DelIndex g j i h = .error Panic.sliceBounds := by
  obtain ⟨p, h0, hA, w, -⟩ := ArrayPtr_of_arrayOf ha
  have hlen : (h0.cell p).len = a.length := by rw [← w.he]; exact (elems_length w.hv).symm
  rw [DelIndex_rebound g hA w]
  unfold Json.DelIndex
  rw [w.ArrayPtr]
  simp only [reslice]
  by_cases h1 : 0 ≤ (0 : Int) ∧ 0 ≤ i ∧ i ≤ ((h0.cell p).cap : Int)
  · rw [if_pos h1]
    simp only []
    rw [if_neg (by omega)]
  · rw [if_neg h1]

theorem DelIndex_out_of_range_witness :
    Json.DelIndex (fun _ => 0) 0 2 heapArr12 = .error Panic.sliceBounds :=
  DelIndex_out_of_range (fun _ => 0) heapArr12 0 [Data.num 1, Data.num 2] 2 (by decide)
    (by decide)

/-- `DelIndex` on a receiver that is neither an Array nor Null reports an error
and leaves the heap as it is. -/
theorem DelIndex_not_array (g : Nat → Nat) (h : Heap) (j : Ref) (i : Int)
    (hs : ∀ s, h.data j ≠ Data.slice s) (hp : ∀ p, h.data j ≠ Data.slicePtr p)
    (hn : h.data j ≠ Data.null) :
    Json.DelIndex g j i h = .ok (true, h) := by
  unfold Json.DelIndex Json.ArrayPtr
  cases hd : h.data j with
  | slice s => exact absurd hd (hs s)
  | slicePtr p => exact absurd hd (hp p)
  | null => exact absurd hd hn
  | _ => simp [TypeOf, kindOf, GoType.Kind]

theorem DelIndex_not_array_witness :
    Json.DelIndex (fun _ => 0) 0 0 heapStr = .ok (true, heapStr) :=
  DelIndex_not_array (fun _ => 0) heapStr 0 0 (fun s e => by cases e) (fun p e => by cases e)
    (fun e => by cases e)

theorem allocItems_frame (l : List (ItemKey × Data)) (h : Heap) :
    (allocItems l h).2.arrays = h.arrays ∧ (allocItems l h).2.maps = h.maps ∧
    (allocItems l h).2.cells = h.cells ∧
    (allocItems l h).2.jsons = h.jsons ++ l.map (fun e => e.2) := by
  induction l generalizing h with
  | nil => simp [allocItems]
  | cons e l ih =>
    obtain ⟨k, d⟩ := e
    obtain ⟨h1, h2, h3, h4⟩ := ih (h.newJson d).2
    refine ⟨?_, ?_, ?_, ?_⟩
    · simp only [allocItems]; rw [h1]; rfl
    · simp only [allocItems]; rw [h2]; rfl
    · simp only [allocItems]; rw [h3]; rfl
    · simp only [allocItems]; rw [h4]; simp [Heap.newJson]

theorem data_of_jsons_append (h h1 : Heap) (ds : List Data) (he : h1.jsons = h.jsons ++ ds)
    (j : Ref) (hj : j < h.jsons.length) : h1.data j = h.data j := by
  unfold Heap.data
  rw [he]
  simp only [List.getD_eq_getElem?_getD]
  rw [List.getElem?_append_left hj]

/-- The `Json` structs that `Items` allocates hold the entries' values. -/
theorem allocItems_data (l : List (ItemKey × Data)) (h : Heap) :
    itemData (allocItems l h).2 (allocItems l h).1 = l := by
  induction l generalizing h with
  | nil => rfl
  | cons e l ih =>
    obtain ⟨k, d⟩ := e
    have hfr := (allocItems_frame l (h.newJson d).2).2.2.2
    have hd : (allocItems l (h.newJson d).2).2.data h.jsons.length = d := by
      rw [data_of_jsons_append (h.newJson d).2 _ _ hfr h.jsons.length
        (by show h.jsons.length < (h.jsons ++ [d]).length; simp)]
      exact Heap.data_newJson h d
    have := ih (h.newJson d).2
    simp only [itemData, allocItems, List.map_cons] at this ⊢
    rw [this]
    show (k, (allocItems l (h.newJson d).2).2.data h.jsons.length) :: l = (k, d) :: l
    rw [hd]

/-- C17 (the code departs from the claim): on a Null value `Items()` does not
return the empty mapping: it panics, because it calls
`reflect.TypeOf(j.Interface()).Kind()` on nil data. -/
theorem Items_on_Null_panics : Json.Items 0 heapNull = .error Panic.nilDeref :=
  rfl

/-- `Items()` on an Array with elements `a`: the keys are the positions
`0, ..., n-1` and position `i` maps to a `Json` holding `a[i]`. -/
theorem Items_array (h : Heap) (j : Ref) (a : List Data) (ha : arrayOf h j = some a) :
    ∃ items h1, Json.Items j h = .ok (items, h1) ∧ itemData h1 items = indexed 0 a ∧
      arrayOf h1 j = some a := by
  obtain ⟨s, h0, hA, he, ha0, hv, -, -⟩ := Array_of_array h j a ha
  have hI : Json.Items j h = .ok (allocItems (indexed 0 a) h0) := by
    unfold Json.Items Json.Interface
    unfold arrayOf at ha
    split at ha
    · unfold arrayOfData at ha
      split at ha
      · rename_i s' hd
        simp [hd, TypeOf, GoType.Kind, hA, he]
      · rename_i p' hd
        simp [hd, TypeOf, GoType.Kind, GoType.Elem, hA, he]
      · cases ha
    · cases ha
  obtain ⟨f1, -, f3, f4⟩ := allocItems_frame (indexed 0 a) h0
  refine ⟨_, _, hI, allocItems_data _ _, ?_⟩
  obtain ⟨p, h0', hA', w, -⟩ := ArrayPtr_of_arrayOf ha0
  have hAP : Json.ArrayPtr j h0 = .ok (some p, h0) := by
    have := ArrayPtr_of_arrayOf ha
    obtain ⟨p2, h2, hA2, w2, -⟩ := this
    have hArr : Json.Array j h = .ok ((h2.cell p2, false), h2) := by
      unfold Json.Array; rw [hA2]
    rw [hA] at hArr
    injection hArr with hArr
    injection hArr with _ hh
    subst hh
    have := w2.ArrayPtr
    rw [hA'] at this
    injection this with this
    injection this with hp hh
    injection hp with hp
    subst hp
    rw [hA', hh]
  rw [hA'] at hAP
  injection hAP with hAP
  injection hAP with _ hh
  subst hh
  exact (ArrAt.mk
    (by rw [f4]; simp; exact Nat.lt_of_lt_of_le w.hj (Nat.le_add_right _ _))
    (by rw [data_of_jsons_append h0' _ _ f4 j w.hj]; exact w.hd)
    (by rw [f3]; exact w.hp)
    (by rw [cell_congr f3]; exact (validSlice_congr f1 _).2 w.hv)
    (by rw [cell_congr f3, elems_congr f1]; exact w.he)).arrayOf

theorem Items_array_witness :
    ∃ items h1, Json.Items 0 heapArr12 = .ok (items, h1) ∧
      itemData h1 items = indexed 0 [Data.num 1, Data.num 2] ∧
      arrayOf h1 0 = some [Data.num 1, Data.num 2] :=
  Items_array heapArr12 0 [Data.num 1, Data.num 2] (by decide)

/-- `Items()` on an Object: the keys are the Object's keys, each mapped to a
`Json` holding its value; the Object is untouched. -/
theorem Items_object (h : Heap) (j m : Ref) (hM : Json.Map j h = some m) :
    ∃ items h1, Json.Items j h = .ok (items, h1) ∧
      itemData h1 items = (h.mapOf m).map (fun e => (ItemKey.key e.1, e.2)) ∧
      h1.maps = h.maps := by
  have hI : Json.Items j h
      = .ok (allocItems ((h.mapOf m).map (fun e => (ItemKey.key e.1, e.2))) h) := by
    obtain ⟨-, hd | hd⟩ := Map_eq_some hM <;>
      simp [Json.Items, Json.Interface, Json.MustMap, Json.Map, hd, TypeOf, GoType.Kind]
  exact ⟨_, _, hI, allocItems_data _ _, (allocItems_frame _ _).2.1⟩

theorem Items_object_witness :
    ∃ items h1, Json.Items 0 heapAB = .ok (items, h1) ∧
      itemData h1 items = (heapAB.mapOf 0).map (fun e => (ItemKey.key e.1, e.2)) ∧
      h1.maps = heapAB.maps :=
  Items_object heapAB 0 0 rfl

/-- `Items()` on a Bool, Number or String (and on a `*Json`): the empty
mapping, nothing changed. -/
theorem Items_scalar (h : Heap) (j : Ref)
    (hd : (∃ b, h.data j = Data.bool b) ∨ (∃ n, h.data j = Data.num n) ∨
      (∃ s, h.data j = Data.str s) ∨ (∃ c, h.data j = Data.jsonPtr c)) :
    Json.Items j h = .ok ([], h) := by
  rcases hd with ⟨b, hd⟩ | ⟨b, hd⟩ | ⟨b, hd⟩ | ⟨b, hd⟩ <;>
    simp [Json.Items, Json.Interface, hd, TypeOf, GoType.Kind, GoType.Elem]

theorem Items_scalar_witness : Json.Items 0 heapStr = .ok ([], heapStr) :=
  Items_scalar heapStr 0 (Or.inr (Or.inr (Or.inl ⟨"s", rfl⟩)))

/-- C18 (the code departs from the claim): with parent `[[1, 2]]`,
`child := parent.GetIndex(0)` and `child.Append(3)`, a fresh
`parent.GetIndex(0)` still denotes `[1, 2]`: `GetIndex` hands out the element's
slice header by value and, unlike `Get`, writes no shared cell back into the
parent, so the append reaches only the child's own copy of the header. -/
theorem Append_through_GetIndex_not_visible (g : Nat → Nat) :
    ∃ child h1 h2 c2 h3, Json.GetIndex 0 0 heapNested = .ok (child, h1) ∧
      Json.Append g child (Data.num 3) h1 = .ok h2 ∧
      Json.GetIndex 0 0 h2 = .ok (c2, h3) ∧
      arrayOf h3 c2 = some [Data.num 1, Data.num 2] :=
  ⟨_, _, _, _, _, rfl, rfl, rfl, rfl⟩

/-- Folding `Get` from a Null value stays on Null values and changes nothing
but the `Json` structs allocated. -/
theorem GetPathByGet_null (ks : List String) (h : Heap) (c : Ref) (hd : h.data c = Data.null) :
    ∃ c1 h1, Json.GetPathByGet c ks h = .ok (c1, h1) ∧ h1.data c1 = Data.null ∧
      h1.arrays = h.arrays ∧ h1.maps = h.maps ∧ h1.cells = h.cells := by
  induction ks generalizing h c with
  | nil => exact ⟨c, h, rfl, hd, rfl, rfl, rfl⟩
  | cons k ks ih =>
    have hG := (Get_CheckGet_absent h c k (fun m hm => by
      rw [Map_eq_dataMap, hd] at hm; cases hm)).1
    obtain ⟨c1, h1, e, d1, a1, m1, l1⟩ := ih (h.newJson Data.null).2 (h.newJson Data.null).1
      (Heap.data_newJson _ _)
    refine ⟨c1, h1, ?_, d1, a1, m1, l1⟩
    rw [Json.GetPathByGet, hG]
    exact e

/-- C19: for every value and every path of string keys, the short-circuiting
`GetPath` and the chained lookup `Get(k1).Get(k2)...Get(kn)` agree: they panic
in exactly the same cases (with the same panic), and otherwise yield values
with the same data, leaving the same arrays, maps and cells. -/
theorem GetPath_eq_chained_Get (ks : List String) (h : Heap) (j : Ref) :
    SameOutcome (Json.GetPath j (ks.map Step.key) h) (Json.GetPathByGet j ks h) := by
  induction ks generalizing h j with
  | nil => exact ⟨rfl, rfl, rfl, rfl⟩
  | cons k ks ih =>
    simp only [List.map_cons, Json.GetPath, Json.GetPathByGet]
    by_cases hk : ∀ m, Json.Map j h = some m → mapLookup k (h.mapOf m) = none
    · obtain ⟨hG, hC⟩ := Get_CheckGet_absent h j k hk
      rw [hG, hC]
      obtain ⟨c1, h1, e, d1, a1, m1, l1⟩ := GetPathByGet_null ks (h.newJson Data.null).2
        (h.newJson Data.null).1 (Heap.data_newJson _ _)
      simp only []
      rw [e]
      exact ⟨(Heap.data_newJson _ _).trans d1.symm, a1.symm, m1.symm, l1.symm⟩
    · have hk' : ∃ m v, Json.Map j h = some m ∧ mapLookup k (h.mapOf m) = some v := by
        by_contra hc
        apply hk
        intro m hm
        cases hL : mapLookup k (h.mapOf m) with
        | none => rfl
        | some v => exact absurd ⟨m, v, hm, hL⟩ hc
      obtain ⟨m, v, hM, hL⟩ := hk'
      by_cases hv : v = Data.null
      · subst hv
        simp [Json.Get, Json.CheckGet, hM, hL, TypeOf, kindOf, SameOutcome]
      · obtain ⟨c, h1, eG, eC, -⟩ := Get_CheckGet_present h j m k v hM hL hv
        rw [eG, eC]
        exact ih h1 c

/-- The two implementations on the specification examples. -/
theorem chained_Get_examples :
    (∃ c h1, Json.GetPathByGet 0 ["a", "b"] heapAB5 = .ok (c, h1) ∧ h1.data c = Data.num 5) ∧
    (∃ c h1, Json.GetPathByGet 0 ["a", "b"] heapA7 = .ok (c, h1) ∧ h1.data c = Data.null) ∧
    Json.GetPathByGet 0 ["a", "b"] heapANull = .error Panic.nilDeref :=
  ⟨⟨_, _, rfl, rfl⟩, ⟨_, _, rfl, rfl⟩, rfl⟩

/-- The loop of `SetPath` changes at most the entry of the first step in the
map it starts from. -/
theorem setPathWalk_local (x : Data) (p : List String) (b : String) (rest : List String)
    (hp : p = b :: rest) (curr : Ref) (h : Heap)
    (hall : ∀ r ∈ visited h curr p, r < h.maps.length) (hnd : (visited h curr p).Nodup)
    (k : String) (hk : k ≠ b) :
    mapLookup k ((Json.setPathWalk x curr p h).mapOf curr) = mapLookup k (h.mapOf curr) := by
  subst hp
  have hcurr : curr < h.maps.length := hall curr (mem_visited_self h curr _)
  cases rest with
  | nil =>
    simp only [Json.setPathWalk]
    rw [Heap.mapOf_mapStore_same _ _ _ _ hcurr, mapLookup_mapInsert_ne _ _ _ _ hk]
  | cons b2 rest =>
    by_cases hL : ∃ r, mapLookup b (h.mapOf curr) = some (.map r)
    · obtain ⟨r, hL⟩ := hL
      rw [setPathWalk_step_map x curr r b b2 rest h hL]
      rw [visited_step_map curr r b b2 rest h hL] at hall hnd
      rw [setPathWalk_frame x (b2 :: rest) r h curr
        (fun r' hr' => hall r' (List.mem_cons_of_mem _ hr')) hcurr (List.nodup_cons.1 hnd).1]
    · have hL' : ∀ r, mapLookup b (h.mapOf curr) ≠ some (.map r) := fun r e => hL ⟨r, e⟩
      rw [setPathWalk_step_fresh x curr b b2 rest h hL']
      obtain ⟨hn, hlen, hempty, -, -⟩ := step_fresh h curr b hcurr
      have hv := visited_fresh _ h.newMap.1 (b2 :: rest) hempty
      have hc1 : curr < h.newMap.2.maps.length := by
        show curr < (h.maps ++ [[]]).length
        simp only [List.length_append, List.length_singleton]; exact Nat.lt_succ_of_lt hcurr
      rw [setPathWalk_frame x (b2 :: rest) h.newMap.1 _ curr
        (by intro r hr; rw [hv] at hr; simp at hr; rw [hr, hlen, hn]; exact Nat.lt_succ_self _)
        (by rw [hlen]; exact Nat.lt_succ_of_lt hcurr)
        (by rw [hv]; simp; rw [hn]; exact Nat.ne_of_lt hcurr)]
      rw [Heap.mapOf_mapStore_same _ _ _ _ hc1, mapLookup_mapInsert_ne _ _ _ _ hk,
        mapOf_newMap_old h curr hcurr]

/-- In every existing map the loop of `SetPath` passes through, every key but
the step taken there keeps its value. -/
theorem setPathWalk_off_path (x : Data) (p : List String) (curr : Ref) (h : Heap)
    (hall : ∀ r ∈ visited h curr p, r < h.maps.length) (hnd : (visited h curr p).Nodup)
    (i : Nat) (hi : i < (visited h curr p).length) (k : String) (hk : k ≠ p.getD i "") :
    mapLookup k ((Json.setPathWalk x curr p h).mapOf ((visited h curr p).getD i 0))
      = mapLookup k (h.mapOf ((visited h curr p).getD i 0)) := by
  induction p generalizing curr h i with
  | nil =>
    have : i = 0 := by simp [visited] at hi; exact hi
    subst this
    rfl
  | cons b rest ih =>
    cases i with
    | zero =>
      have h0 : (visited h curr (b :: rest)).getD 0 0 = curr := by
        cases rest with
        | nil => rfl
        | cons b2 rest => unfold visited; split <;> rfl
      rw [h0]
      exact setPathWalk_local x _ b rest rfl curr h hall hnd k (by simpa using hk)
    | succ i =>
      cases rest with
      | nil => simp [visited] at hi
      | cons b2 rest =>
        by_cases hL : ∃ r, mapLookup b (h.mapOf curr) = some (.map r)
        · obtain ⟨r, hL⟩ := hL
          rw [setPathWalk_step_map x curr r b b2 rest h hL]
          rw [visited_step_map curr r b b2 rest h hL] at hall hnd hi ⊢
          have := ih r h (fun r' hr' => hall r' (List.mem_cons_of_mem _ hr'))
            (List.nodup_cons.1 hnd).2 i (by simpa using hi) (by simpa using hk)
          simpa using this
        · have hv : visited h curr (b :: b2 :: rest) = [curr] := by
            unfold visited
            split
            · rename_i r hr; exact absurd ⟨r, hr⟩ hL
            · rfl
          rw [hv] at hi
          simp at hi

theorem setPathWalk_arrays_cells (x : Data) (p : List String) (curr : Ref) (h : Heap) :
    (Json.setPathWalk x curr p h).arrays = h.arrays ∧
    (Json.setPathWalk x curr p h).cells = h.cells := by
  induction p generalizing curr h with
  | nil => exact ⟨rfl, rfl⟩
  | cons b rest ih =>
    cases rest with
    | nil => exact ⟨rfl, rfl⟩
    | cons b2 rest =>
      unfold Json.setPathWalk
      split
      · exact ⟨(ih _ _).1.trans rfl, (ih _ _).2.trans rfl⟩
      · exact ih _ _
      · exact ⟨(ih _ _).1.trans rfl, (ih _ _).2.trans rfl⟩

/-- `SetPath(p, x)` with a non-empty path on a `map[string]interface{}` whose
maps along the path are allocated and pairwise different writes along the path
only, entry by entry.  The receiver stays the same map object; in the `i`-th
map the walk passes through, every key other than the step `p[i]` taken there
keeps the data stored under it; every map the walk does not pass through keeps
all its entries; arrays and slice cells are untouched. -/
theorem SetPath_entries_frame (h : Heap) (j m : Ref) (p : List String) (x : Data) (hp : p ≠ [])
    (hd : h.data j = Data.map m)
    (hall : ∀ r ∈ visited h m p, r < h.maps.length) (hnd : (visited h m p).Nodup) :
    (Json.SetPath j p x h).data j = Data.map m ∧
    (∀ k, k ≠ p.getD 0 "" →
      mapLookup k ((Json.SetPath j p x h).mapOf m) = mapLookup k (h.mapOf m)) ∧
    (∀ i, i < (visited h m p).length → ∀ k, k ≠ p.getD i "" →
      mapLookup k ((Json.SetPath j p x h).mapOf ((visited h m p).getD i 0))
        = mapLookup k (h.mapOf ((visited h m p).getD i 0))) ∧
    (∀ r, r < h.maps.length → r ∉ visited h m p → (Json.SetPath j p x h).mapOf r = h.mapOf r) ∧
    (Json.SetPath j p x h).arrays = h.arrays ∧ (Json.SetPath j p x h).cells = h.cells := by
  have hS : Json.SetPath j p x h = Json.setPathWalk x m p h := by
    cases p with
    | nil => exact absurd rfl hp
    | cons b rest => unfold Json.SetPath; rw [hd]
  rw [hS]
  have hoff := setPathWalk_off_path x p m h hall hnd
  have h0 : (visited h m p).getD 0 0 = m := by
    match p with
    | [] => rfl
    | [_] => rfl
    | b :: b2 :: rest => unfold visited; split <;> rfl
  have hpos : 0 < (visited h m p).length :=
    List.length_pos_of_mem (mem_visited_self h m p)
  refine ⟨?_, ?_, hoff, ?_, (setPathWalk_arrays_cells x p m h).1,
    (setPathWalk_arrays_cells x p m h).2⟩
  · rw [data_congr (setPathWalk_jsons x p m h)]; exact hd
  · intro k hk
    have := hoff 0 hpos k hk
    rwa [h0] at this
  · intro r hr hnot
    exact setPathWalk_frame x p m h r hall hr hnot

theorem SetPath_entries_frame_witness :
    (Json.SetPath 0 ["a", "b"] (Data.num 9) heapTree).data 0 = Data.map 0 ∧
    (∀ k, k ≠ ["a", "b"].getD 0 "" →
      mapLookup k ((Json.SetPath 0 ["a", "b"] (Data.num 9) heapTree).mapOf 0)
        = mapLookup k (heapTree.mapOf 0)) ∧
    (∀ i, i < (visited heapTree 0 ["a", "b"]).length → ∀ k, k ≠ ["a", "b"].getD i "" →
      mapLookup k ((Json.SetPath 0 ["a", "b"] (Data.num 9) heapTree).mapOf
          ((visited heapTree 0 ["a", "b"]).getD i 0))
        = mapLookup k (heapTree.mapOf ((visited heapTree 0 ["a", "b"]).getD i 0))) ∧
    (∀ r, r < heapTree.maps.length → r ∉ visited heapTree 0 ["a", "b"] →
      (Json.SetPath 0 ["a", "b"] (Data.num 9) heapTree).mapOf r = heapTree.mapOf r) ∧
    (Json.SetPath 0 ["a", "b"] (Data.num 9) heapTree).arrays = heapTree.arrays ∧
    (Json.SetPath 0 ["a", "b"] (Data.num 9) heapTree).cells = heapTree.cells :=
  SetPath_entries_frame heapTree 0 0 ["a", "b"] (Data.num 9) (by decide) rfl (by decide) (by decide)

/-- The walk on `{"a": {"b": 5, "c": 6}, "d": 7}` along `a, b` passes through
both maps, and `SetPath(["a","b"], 9)` changes the entry `b` of the inner map
only. -/
theorem SetPath_tree_example :
    visited heapTree 0 ["a", "b"] = [0, 1] ∧
    Json.SetPath 0 ["a", "b"] (Data.num 9) heapTree
      = ⟨[], [[("a", Data.map 1), ("d", Data.num 7)], [("b", Data.num 9), ("c", Data.num 6)]],
          [], [Data.map 0]⟩ :=
  ⟨rfl, rfl⟩

/-- A receiver that is a `primitive.M` is not a `map[string]interface{}` for
the type assertion of `SetPath`: it is replaced by a fresh map holding the new
branch only, while `Set` (through `Map`) writes into it. -/
theorem SetPath_on_bsonM :
    (Json.SetPath 0 ["a"] (Data.num 5) heapBson).data 0 = Data.map 1 ∧
    (Json.SetPath 0 ["a"] (Data.num 5) heapBson).mapOf 1 = [("a", Data.num 5)] ∧
    (Json.Set 0 "a" (Data.num 5) heapBson).data 0 = Data.bsonM 0 ∧
    (Json.Set 0 "a" (Data.num 5) heapBson).mapOf 0 = [("a", Data.num 5), ("b", Data.num 2)] :=
  ⟨rfl, rfl, rfl, rfl⟩

theorem ArrayPtr_data_frame {h h0 : Heap} {j : Ref} {r : Option Ref}
    (hA : Json.ArrayPtr j h = .ok (r, h0)) (c : Ref) (hc : c ≠ j) : h0.data c = h.data c := by
  unfold Json.ArrayPtr at hA
  cases hd : h.data j with
  | slice s =>
    simp [hd, TypeOf, kindOf, GoType.Kind] at hA
    rw [← hA.2]
    simp [Heap.data, Heap.setData, Heap.newCell, List.getElem?_set, Ne.symm hc]
  | null => simp [hd, TypeOf, kindOf] at hA
  | _ =>
    simp [hd, TypeOf, kindOf, GoType.Kind] at hA
    rw [← hA.2]

theorem ArrayPtr_cells_frame {h h0 : Heap} {j : Ref} {r : Option Ref}
    (hA : Json.ArrayPtr j h = .ok (r, h0)) :
    h0.arrays = h.arrays ∧ (∃ cs, h0.cells = h.cells ++ cs) ∧
    h0.jsons.length = h.jsons.length ∧ h0.maps = h.maps := by
  unfold Json.ArrayPtr at hA
  cases hd : h.data j with
  | slice s =>
    simp [hd, TypeOf, kindOf, GoType.Kind] at hA
    rw [← hA.2]
    exact ⟨rfl, ⟨[s], rfl⟩, by simp [Heap.setData, Heap.newCell], rfl⟩
  | null => simp [hd, TypeOf, kindOf] at hA
  | _ =>
    simp [hd, TypeOf, kindOf, GoType.Kind] at hA
    rw [← hA.2]
    exact ⟨rfl, ⟨[], by simp⟩, rfl, rfl⟩

/-- An Array stays the Array it is when the heap only grows around it: same
backing arrays, cells appended, the receiver's data kept. -/
theorem arrayOf_agree {h h1 : Heap} {j : Ref} {a : List Data} (ha : arrayOf h j = some a)
    (hA : h1.arrays = h.arrays) (hC : ∃ cs, h1.cells = h.cells ++ cs)
    (hD : h1.data j = h.data j) (hJ : h.jsons.length ≤ h1.jsons.length) :
    arrayOf h1 j = some a := by
  obtain ⟨cs, hC⟩ := hC
  unfold arrayOf at ha ⊢
  split at ha
  · rename_i hj
    rw [if_pos (Nat.lt_of_lt_of_le hj hJ), hD]
    unfold arrayOfData at ha ⊢
    split at ha
    · rename_i s hs
      split at ha
      · rename_i hv
        rw [if_pos ((validSlice_congr hA s).2 hv), elems_congr hA]; exact ha
      · cases ha
    · rename_i p hs
      split at ha
      · rename_i hv
        have hcell : h1.cell p = h.cell p := by
          unfold Heap.cell
          rw [hC]
          simp only [List.getD_eq_getElem?_getD]
          rw [List.getElem?_append_left hv.1]
        rw [if_pos ⟨by rw [hC]; simp; exact Nat.lt_of_lt_of_le hv.1 (Nat.le_add_right _ _),
          by rw [hcell]; exact (validSlice_congr hA _).2 hv.2⟩, hcell, elems_congr hA]
        exact ha
      · cases ha
    · cases ha
  · cases ha

/-- The loop of `Extend` on an Array in the state `ArrayPtr` leaves: the data
of the items is added at the end, in the order given. -/
theorem appendAll_core (g : Nat → Nat) (items : List Ref) {h : Heap} {j p : Ref}
    {a : List Data} (w : ArrAt h j p a) :
    ∃ h1, Json.appendAll g j items h = .ok h1 ∧ ArrAt h1 j p (a ++ items.map h.data) ∧
      h1.jsons = h.jsons ∧ h1.maps = h.maps := by
  induction items generalizing h a with
  | nil => exact ⟨h, rfl, by simpa using w, rfl, rfl⟩
  | cons item rest ih =>
    obtain ⟨h1, e1, w1, hm1, hj1⟩ := Append_core g w (Data.jsonPtr item) (by simp)
    obtain ⟨h2, e2, w2, hj2, hm2⟩ := ih w1
    refine ⟨h2, ?_, ?_, hj2.trans hj1, hm2.trans hm1⟩
    · rw [Json.appendAll, e1]; exact e2
    · have hmap : rest.map h1.data = rest.map h.data := by
        apply List.map_congr_left
        intro c _
        exact data_congr hj1 c
      rw [hmap] at w2
      simpa [rawContent] using w2

/-- The loop of `Extend` on an Array, for items other than the receiver. -/
theorem appendAll_array (g : Nat → Nat) (items : List Ref) (h : Heap) (j : Ref)
    (a : List Data) (ha : arrayOf h j = some a) (hne : j ∉ items) :
    ∃ h1, Json.appendAll g j items h = .ok h1 ∧
      arrayOf h1 j = some (a ++ items.map h.data) := by
  cases items with
  | nil => exact ⟨h, rfl, by simpa using ha⟩
  | cons item rest =>
    obtain ⟨p, h0, hA, w, -⟩ := ArrayPtr_of_arrayOf ha
    obtain ⟨h1, e1, w1, -, -⟩ := appendAll_core g (item :: rest) w
    have hre : Json.appendAll g j (item :: rest) h = Json.appendAll g j (item :: rest) h0 := by
      have : Json.Append g j (Data.jsonPtr item) h = Json.Append g j (Data.jsonPtr item) h0 := by
        unfold Json.Append; rw [hA, w.ArrayPtr]
      rw [Json.appendAll, Json.appendAll, this]
    have hmap : (item :: rest).map h0.data = (item :: rest).map h.data := by
      apply List.map_congr_left
      intro c hc
      exact ArrayPtr_data_frame hA c (fun e => hne (e ▸ hc))
    rw [hmap] at w1
    exact ⟨h1, by rw [hre, e1], w1.arrayOf⟩

theorem arrayOf_lt {h : Heap} {j : Ref} {a : List Data} (ha : arrayOf h j = some a) :
    j < h.jsons.length := by
  unfold arrayOf at ha
  split at ha
  · assumption
  · cases ha

theorem allocItems_refs (l : List (ItemKey × Data)) (h : Heap) :
    ∀ e ∈ (allocItems l h).1, h.jsons.length ≤ e.2 := by
  induction l generalizing h with
  | nil => intro e he; simp [allocItems] at he
  | cons x l ih =>
    obtain ⟨k, d⟩ := x
    intro e he
    simp only [allocItems, List.mem_cons] at he
    rcases he with rfl | he
    · exact Nat.le_refl _
    · have := ih (h.newJson d).2 e he
      have hl : (h.newJson d).2.jsons.length = h.jsons.length + 1 := by
        show (h.jsons ++ [d]).length = _
        simp
      rw [hl] at this
      exact Nat.le_of_succ_le this

theorem indexed_map_snd (i : Nat) (b : List Data) : (indexed i b).map (fun e => e.2) = b := by
  induction b generalizing i with
  | nil => rfl
  | cons d b ih => simp [indexed, ih]

/-- `Items()` on an Array, with what it leaves around it: the items hold the
elements by position, they are freshly allocated, and every other Array of the
heap is the Array it was. -/
theorem Items_array_frame (h : Heap) (arr : Ref) (b : List Data)
    (hb : arrayOf h arr = some b) :
    ∃ items h1, Json.Items arr h = .ok (items, h1) ∧ itemData h1 items = indexed 0 b ∧
      (∀ e ∈ items, h.jsons.length ≤ e.2) ∧
      ∀ j a, j ≠ arr → arrayOf h j = some a → arrayOf h1 j = some a := by
  obtain ⟨p, h0, hA, w, -⟩ := ArrayPtr_of_arrayOf hb
  obtain ⟨fa, fc, fj, -⟩ := ArrayPtr_cells_frame hA
  have hArr : Json.Array arr h = .ok ((h0.cell p, false), h0) := by
    unfold Json.Array; rw [hA]
  have hI : Json.Items arr h = .ok (allocItems (indexed 0 b) h0) := by
    unfold Json.Items Json.Interface
    unfold arrayOf at hb
    split at hb
    · unfold arrayOfData at hb
      split at hb
      · rename_i s' hd
        simp [hd, TypeOf, GoType.Kind, hArr, w.he]
      · rename_i p' hd
        simp [hd, TypeOf, GoType.Kind, GoType.Elem, hArr, w.he]
      · cases hb
    · cases hb
  obtain ⟨f1, -, f3, f4⟩ := allocItems_frame (indexed 0 b) h0
  refine ⟨_, _, hI, allocItems_data _ _, ?_, ?_⟩
  · intro e he
    have := allocItems_refs (indexed 0 b) h0 e he
    rwa [fj] at this
  · intro j a hne ha
    have hj := arrayOf_lt ha
    apply arrayOf_agree ha (f1.trans fa)
    · obtain ⟨cs, hcs⟩ := fc
      exact ⟨cs, by rw [f3, hcs]⟩
    · rw [data_of_jsons_append h0 _ _ f4 j (by rw [fj]; exact hj)]
      exact ArrayPtr_data_frame hA j hne
    · rw [f4, List.length_append, fj]; exact Nat.le_add_right _ _

/-- What `Extend` does once `FromStruct` has returned a `Json` holding an
Array with elements `b`: the receiver, an Array with elements `a`, ends up
holding `a` followed by the elements of `b` in the order in which the runtime
visits the map that `Items` returned, which is some permutation of `b`; in
the order of the positions it is `b` itself. -/
theorem Extend_spec (g : Nat → Nat) (fromStruct : Data → Heap → Except Panic (Ref × Heap))
    (order : List (ItemKey × Ref) → List (ItemKey × Ref)) (h h1 : Heap) (j arr : Ref)
    (val : Data) (a b : List Data) (hval : val ≠ Data.null)
    (hf : fromStruct val h = .ok (arr, h1)) (ha : arrayOf h1 j = some a)
    (hb : arrayOf h1 arr = some b) (hne : j ≠ arr) (hord : ∀ l, (order l).Perm l) :
    ∃ items h2 h3, Json.Items arr h1 = .ok (items, h2) ∧ itemData h2 items = indexed 0 b ∧
      Json.Extend g fromStruct order j val h = .ok h3 ∧
      arrayOf h3 j = some (a ++ (itemData h2 (order items)).map (fun e => e.2)) ∧
      ((itemData h2 (order items)).map (fun e => e.2)).Perm b ∧
      (order items = items → (itemData h2 (order items)).map (fun e => e.2) = b) := by
  obtain ⟨items, h2, hI, hdat, hfresh, hframe⟩ := Items_array_frame h1 arr b hb
  have ha2 := hframe j a hne ha
  have hnotin : j ∉ (order items).map (fun e => e.2) := by
    intro hmem
    obtain ⟨e, he, hej⟩ := List.mem_map.1 hmem
    have := hfresh e ((hord items).mem_iff.1 he)
    have hj := arrayOf_lt ha
    rw [hej] at this
    exact absurd hj (Nat.not_lt.2 this)
  obtain ⟨h3, e3, ha3⟩ := appendAll_array g _ h2 j a ha2 hnotin
  have hE : Json.Extend g fromStruct order j val h = .ok h3 := by
    unfold Json.Extend
    cases val with
    | null => exact absurd rfl hval
    | jsonPtr c => simp [TypeOf, GoType.Name, hf, hI, e3]
    | _ => simp [TypeOf, GoType.Name, hf, hI, e3]
  have hmm : ((order items).map (fun e => e.2)).map h2.data
      = (itemData h2 (order items)).map (fun e => e.2) := by
    simp [itemData, List.map_map, Function.comp]
  rw [hmm] at ha3
  refine ⟨items, h2, h3, hI, hdat, hE, ha3, ?_, ?_⟩
  · have : (itemData h2 (order items)).Perm (itemData h2 items) := (hord items).map _
    have := this.map (fun e => e.2)
    rwa [hdat, indexed_map_snd] at this
  · intro hid
    rw [hid, hdat, indexed_map_snd]

/-- C15 (the code departs from the claim): with `v = [0]` and
`other = [1, 2]`, `v.Extend(other)` ranges over the map that `Items` returns,
and Go visits the entries of a map in an order of its own; when it visits
position 1 before position 0, `v` ends up as `[0, 2, 1]`, not `[0, 1, 2]`. -/
theorem Extend_order_not_kept (g : Nat → Nat) :
    ∃ h3, Json.Extend g fromStructArray List.reverse 0 (Data.jsonPtr 1) heapTwoArrays = .ok h3 ∧
      arrayOf h3 0 = some [Data.num 0, Data.num 2, Data.num 1] := by
  obtain ⟨items, h2, h3, -, hdat, hE, ha3, -, -⟩ :=
    Extend_spec g fromStructArray List.reverse heapTwoArrays _ 0 2 (Data.jsonPtr 1)
      [Data.num 0] [Data.num 1, Data.num 2] (by simp) rfl (by decide) (by decide) (by decide)
      (fun l => List.reverse_perm l)
  refine ⟨h3, hE, ?_⟩
  have : (itemData h2 items.reverse).map (fun e => e.2) = [Data.num 2, Data.num 1] := by
    have hr : itemData h2 items.reverse = (itemData h2 items).reverse := by
      simp [itemData, List.map_reverse]
    rw [hr, hdat]
    rfl
  rw [this] at ha3
  exact ha3

/-- When the runtime visits the positions in increasing order, `Extend` gives
`[0, 1, 2]`. -/
theorem Extend_in_position_order (g : Nat → Nat) :
    ∃ h3, Json.Extend g fromStructArray (fun l => l) 0 (Data.jsonPtr 1) heapTwoArrays = .ok h3 ∧
      arrayOf h3 0 = some [Data.num 0, Data.num 1, Data.num 2] := by
  obtain ⟨items, h2, h3, -, hdat, hE, ha3, -, hid⟩ :=
    Extend_spec g fromStructArray (fun l => l) heapTwoArrays _ 0 2 (Data.jsonPtr 1)
      [Data.num 0] [Data.num 1, Data.num 2] (by simp) rfl (by decide) (by decide) (by decide)
      (fun l => List.Perm.refl l)
  rw [hid rfl] at ha3
  exact ⟨h3, hE, ha3⟩

theorem array_grow (h : Heap) (xs : List Data) (r : Ref) (hr : r < h.arrays.length) :
    Heap.array { h with arrays := h.arrays ++ [xs] } r = h.array r := by
  simp only [Heap.array, List.getD_eq_getElem?_getD]
  rw [List.getElem?_append_left hr]

/-- What `append` leaves alone: every other backing array, and the elements
seen through the old slice header. -/
theorem goAppend_frame (g : Nat → Nat) (h : Heap) (s : Slice) (vs : List Data)
    (hv : h.validSlice s) :
    (∀ r, r ≠ s.arr → r < h.arrays.length → (goAppend g h s vs).2.array r = h.array r) ∧
    (goAppend g h s vs).2.validSlice s ∧ (goAppend g h s vs).2.elems s = h.elems s := by
  obtain ⟨P, R, S, hA, hP, hR, hE⟩ := hv.window
  obtain ⟨ha, hl, hc⟩ := hv
  unfold goAppend
  split
  · rename_i hfit
    have hw : writeList (h.array s.arr) (s.off + s.len) vs = P ++ writeList R s.len vs ++ S := by
      rw [hA, ← hP]; exact writeList_mid P R S s.len vs (by omega)
    have hwl : (writeList R s.len vs).length = R.length := writeList_length _ _ _ (by omega)
    refine ⟨?_, ⟨?_, hl, ?_⟩, ?_⟩
    · intro r hr _
      have : ¬ s.arr = r := fun e => hr e.symm
      simp [Heap.array, Heap.setArray, List.getElem?_set, this]
    · simpa [Heap.setArray] using ha
    · simp only [Heap.array_setArray_same _ _ _ ha, hw]
      simp [hwl]; omega
    · rw [hE]
      simp only [Heap.elems, Heap.array_setArray_same _ _ _ ha, hw]
      rw [List.append_assoc, ← hP, List.drop_left]
      rw [List.take_append_of_le_length (by omega)]
      unfold writeList
      rw [List.append_assoc, List.take_append_of_le_length (by simp; omega)]
      rw [List.take_take, Nat.min_self]
  · refine ⟨?_, ⟨?_, hl, ?_⟩, ?_⟩
    · intro r _ hr
      exact array_grow h _ r hr
    · simp only [List.length_append, List.length_singleton]; exact Nat.lt_succ_of_lt ha
    · rw [array_grow h _ _ ha]; exact hc
    · simp only [Heap.elems]
      rw [array_grow h _ _ ha]

theorem Append_eq (g : Nat → Nat) {h : Heap} {j p : Ref} {a : List Data} (w : ArrAt h j p a)
    (x : Data) (hx : x ≠ Data.null) :
    Json.Append g j x h
      = .ok (((goAppend g h (h.cell p) [rawContent h x]).2.setCell p
          (goAppend g h (h.cell p) [rawContent h x]).1).setData j (.slicePtr p)) := by
  unfold Json.Append
  rw [w.ArrayPtr]
  cases x <;> first
    | exact absurd rfl hx
    | simp [TypeOf, stripPtr, GoType.Name, rawContent, Json.Interface]

/-- What `Append` leaves alone: the other slice cells, the other backing
arrays, and the elements seen through the old header of the receiver. -/
theorem Append_frame (g : Nat → Nat) {h : Heap} {j p : Ref} {a : List Data} (w : ArrAt h j p a)
    (x : Data) (hx : x ≠ Data.null) :
    ∃ h1, Json.Append g j x h = .ok h1 ∧ h1.jsons = h.jsons ∧
      h1.cells.length = h.cells.length ∧ (∀ q, q ≠ p → h1.cell q = h.cell q) ∧
      (∀ r, r ≠ (h.cell p).arr → r < h.arrays.length → h1.array r = h.array r) ∧
      h.arrays.length ≤ h1.arrays.length ∧
      h1.validSlice (h.cell p) ∧ h1.elems (h.cell p) = a := by
  obtain ⟨-, -, -, hc1, hj1, -, hlen⟩ := goAppend_spec g h (h.cell p) [rawContent h x] w.hv
  obtain ⟨f1, f2, f3⟩ := goAppend_frame g h (h.cell p) [rawContent h x] w.hv
  refine ⟨_, Append_eq g w x hx, ?_, ?_, ?_, ?_, hlen, f2, f3.trans w.he⟩
  · show List.set (goAppend g h (h.cell p) [rawContent h x]).2.jsons j _ = h.jsons
    rw [hj1]; exact set_getD_self _ _ _ w.hj w.hd
  · show (List.set (goAppend g h (h.cell p) [rawContent h x]).2.cells p _).length = _
    rw [List.length_set, hc1]
  · intro q hq
    show (List.set (goAppend g h (h.cell p) [rawContent h x]).2.cells p _).getD q _
      = h.cells.getD q _
    have : ¬ p = q := fun e => hq e.symm
    rw [hc1]
    simp only [List.getD_eq_getElem?_getD, List.getElem?_set, this, if_false]
  · intro r hr hlt
    exact f1 r hr hlt

theorem ArrayPtr_header {h h0 : Heap} {j p : Ref} (hA : Json.ArrayPtr j h = .ok (some p, h0)) :
    headerOf h (h.data j) = some (h0.cell p) := by
  unfold Json.ArrayPtr at hA
  cases hd : h.data j with
  | slice s =>
    simp [hd, TypeOf, kindOf, GoType.Kind] at hA
    rw [← hA.2, ← hA.1]
    simp [headerOf, Heap.cell, Heap.setData, Heap.newCell]
  | slicePtr q =>
    simp [hd, TypeOf, kindOf, GoType.Kind] at hA
    rw [← hA.2, ← hA.1]
    rfl
  | null => simp [hd, TypeOf, kindOf] at hA
  | _ => simp [hd, TypeOf, kindOf, GoType.Kind] at hA

theorem arrayOf_newJson (h : Heap) (d : Data) (a : List Data) (hd : arrayOfData h d = some a) :
    arrayOf (h.newJson d).2 (h.newJson d).1 = some a := by
  unfold arrayOf
  rw [if_pos (by show h.jsons.length < (h.jsons ++ [d]).length; simp), Heap.data_newJson]
  exact hd

theorem validSlice_of_array_eq {h h1 : Heap} {s : Slice} (hv : h.validSlice s)
    (ha : h1.array s.arr = h.array s.arr) (hl : h.arrays.length ≤ h1.arrays.length) :
    h1.validSlice s :=
  ⟨Nat.lt_of_lt_of_le hv.1 hl, hv.2.1, by rw [ha]; exact hv.2.2⟩

theorem elems_of_array_eq {h h1 : Heap} {s : Slice} (ha : h1.array s.arr = h.array s.arr) :
    h1.elems s = h.elems s := by
  unfold Heap.elems; rw [ha]

theorem ArrayPtr_slice (h : Heap) (j : Ref) (s : Slice) (hd : h.data j = Data.slice s) :
    Json.ArrayPtr j h
      = .ok (some h.cells.length, (h.newCell s).2.setData j (.slicePtr h.cells.length)) := by
  simp [Json.ArrayPtr, hd, TypeOf, kindOf, GoType.Kind, Heap.newCell]

theorem Append_rebound (g : Nat → Nat) {h h0 : Heap} {j p : Ref} {a : List Data}
    (hA : Json.ArrayPtr j h = .ok (some p, h0)) (w : ArrAt h0 j p a) (x : Data) :
    Json.Append g j x h = Json.Append g j x h0 := by
  unfold Json.Append; rw [hA, w.ArrayPtr]

/-- The missing write-back of `GetIndex` in general: whenever element `i` of
an Array is itself an Array held by value (as in every decoded document) over a
backing array of its own, an `Append` of a non-nil value through
`child := parent.GetIndex(i)` reaches the child only; a fresh
`parent.GetIndex(i)` still denotes the old elements. -/
theorem Append_through_GetIndex (g : Nat → Nat) (h : Heap) (j : Ref) (A a : List Data)
    (i : Nat) (s : Slice) (x : Data) (hA : arrayOf h j = some A) (hi : i < A.length)
    (he : A.getD i Data.null = Data.slice s) (hs : h.validSlice s) (hel : h.elems s = a)
    (hsep : ∀ sp, headerOf h (h.data j) = some sp → sp.arr ≠ s.arr) (hx : x ≠ Data.null) :
    ∃ child h1 h2 c2 h3, Json.GetIndex j (i : Int) h = .ok (child, h1) ∧
      Json.Append g child x h1 = .ok h2 ∧ Json.GetIndex j (i : Int) h2 = .ok (c2, h3) ∧
      arrayOf h3 c2 = some a ∧ (∃ y, arrayOf h2 child = some (a ++ [y])) := by
  obtain ⟨p, h0, hAP, w, fa, -, -⟩ := ArrayPtr_of_arrayOf hA
  have hne : (h0.cell p).arr ≠ s.arr := hsep _ (ArrayPtr_header hAP)
  have hs0 : h0.validSlice s := (validSlice_congr fa s).2 hs
  have hel0 : h0.elems s = a := (elems_congr fa s).trans hel
  -- the child
  have hG : Json.GetIndex j (i : Int) h = .ok (h0.newJson (Data.slice s)) := by
    rw [GetIndex_rebound hAP w, GetIndex_core w i hi, he]
  have hd1 : (h0.newJson (Data.slice s)).2.data h0.jsons.length = Data.slice s :=
    Heap.data_newJson _ _
  have hAP1 := ArrayPtr_slice (h0.newJson (Data.slice s)).2 h0.jsons.length s hd1
  have w1 : ArrAt (((h0.newJson (Data.slice s)).2.newCell s).2.setData h0.jsons.length
      (.slicePtr h0.cells.length)) h0.jsons.length h0.cells.length a := by
    refine ⟨?_, ?_, ?_, ?_, ?_⟩
    · simp [Heap.setData, Heap.newCell, Heap.newJson]
    · simp [Heap.data, Heap.setData, Heap.newCell, Heap.newJson]
    · simp [Heap.setData, Heap.newCell, Heap.newJson]
    · have : Heap.cell (((h0.newJson (Data.slice s)).2.newCell s).2.setData h0.jsons.length
          (.slicePtr h0.cells.length)) h0.cells.length = s := by
        simp [Heap.cell, Heap.setData, Heap.newCell, Heap.newJson]
      rw [this]; exact hs0
    · have : Heap.cell (((h0.newJson (Data.slice s)).2.newCell s).2.setData h0.jsons.length
          (.slicePtr h0.cells.length)) h0.cells.length = s := by
        simp [Heap.cell, Heap.setData, Heap.newCell, Heap.newJson]
      rw [this]; exact hel0
  have hcq : Heap.cell (((h0.newJson (Data.slice s)).2.newCell s).2.setData h0.jsons.length
      (.slicePtr h0.cells.length)) h0.cells.length = s := by
    simp [Heap.cell, Heap.setData, Heap.newCell, Heap.newJson]
  obtain ⟨h2, e2, fj, fcl, fc, far, fal, fv, fe⟩ := Append_frame g w1 x hx
  obtain ⟨h2', e2', w2c, -, -⟩ := Append_core g w1 x hx
  have h22 : h2' = h2 := by
    rw [e2] at e2'; injection e2' with e2'; exact e2'.symm
  subst h22
  rw [hcq] at far fv fe
  have hApp : Json.Append g h0.jsons.length x (h0.newJson (Data.slice s)).2 = .ok h2' :=
    (Append_rebound g hAP1 w1 x).trans e2
  -- the parent after the append
  have hjlt : j < h0.jsons.length := w.hj
  have w2 : ArrAt h2' j p A := by
    have hcellp : h2'.cell p = h0.cell p := by
      rw [fc p (Nat.ne_of_lt w.hp)]
      simp [Heap.cell, Heap.setData, Heap.newCell, Heap.newJson, List.getElem?_append_left w.hp]
    have harr : h2'.array (h0.cell p).arr = h0.array (h0.cell p).arr := by
      rw [far _ hne w.hv.1]; rfl
    refine ⟨?_, ?_, ?_, ?_, ?_⟩
    · rw [fj]
      show j < (List.set (h0.jsons ++ [Data.slice s]) _ _).length
      rw [List.length_set, List.length_append]
      exact Nat.lt_of_lt_of_le hjlt (Nat.le_add_right _ _)
    · rw [data_congr fj]
      have : j ≠ h0.jsons.length := Nat.ne_of_lt hjlt
      have hd := w.hd
      simp only [Heap.data, List.getD_eq_getElem?_getD] at hd ⊢
      simp [Heap.setData, Heap.newCell, Heap.newJson, List.getElem?_set, this.symm,
        List.getElem?_append_left hjlt]
      simpa using hd
    · rw [fcl]; simp [Heap.setData, Heap.newCell, Heap.newJson]
      exact Nat.lt_succ_of_lt w.hp
    · rw [hcellp]
      exact validSlice_of_array_eq w.hv harr fal
    · rw [hcellp, elems_of_array_eq harr]; exact w.he
  have hG2 : Json.GetIndex j (i : Int) h2' = .ok (h2'.newJson (Data.slice s)) := by
    rw [GetIndex_core w2 i hi, he]
  refine ⟨_, _, h2', _, _, hG, hApp, hG2, ?_, ⟨_, w2c.arrayOf⟩⟩
  apply arrayOf_newJson
  simp only [arrayOfData, if_pos fv, fe]

theorem Append_through_GetIndex_witness :
    ∃ child h1 h2 c2 h3, Json.GetIndex 0 ((0 : Nat) : Int) heapNested = .ok (child, h1) ∧
      Json.Append (fun _ => 1) child (Data.num 3) h1 = .ok h2 ∧
      Json.GetIndex 0 ((0 : Nat) : Int) h2 = .ok (c2, h3) ∧
      arrayOf h3 c2 = some [Data.num 1, Data.num 2] ∧
      (∃ y, arrayOf h2 child = some ([Data.num 1, Data.num 2] ++ [y])) :=
  Append_through_GetIndex (fun _ => 1) heapNested 0 [Data.slice ⟨1, 0, 2, 2⟩]
    [Data.num 1, Data.num 2] 0 ⟨1, 0, 2, 2⟩ (Data.num 3) (by decide) (by decide) rfl (by decide)
    rfl (fun sp hsp => by
      have : sp = ⟨0, 0, 1, 1⟩ := by
        have h0 : headerOf heapNested (heapNested.data 0) = some ⟨0, 0, 1, 1⟩ := rfl
        rw [h0] at hsp; injection hsp with hsp; exact hsp.symm
      subst this; decide) (by decide)


theorem sameList_diag (f : Data → Data → Bool) (xs : List Data)
    (hf : ∀ x ∈ xs, f x x = true) : sameList f xs xs = true := by
  induction xs with
  | nil => rfl
  | cons x xs ih =>
    simp only [sameList, Bool.and_eq_true]
    exact ⟨hf x (List.mem_cons_self _ _), ih (fun y hy => hf y (List.mem_cons_of_mem _ hy))⟩

theorem sameEntries_of (f : Data → Data → Bool) (m1 m2 : MapObj)
    (hf : ∀ k, (mapLookup k m1 = none ∧ mapLookup k m2 = none) ∨
      ∃ a b, mapLookup k m1 = some a ∧ mapLookup k m2 = some b ∧ f a b = true) :
    sameEntries f m1 m2 = true := by
  unfold sameEntries
  rw [List.all_eq_true]
  intro k _
  rcases hf k with ⟨e1, e2⟩ | ⟨a, b, e1, e2, e3⟩
  · rw [e1, e2]
  · rw [e1, e2]; exact e3

theorem mapLookup_mem {k : String} {v : Data} {M : MapObj} (hL : mapLookup k M = some v) :
    (k, v) ∈ M := by
  induction M with
  | nil => cases hL
  | cons e rest ih =>
    obtain ⟨k1, v1⟩ := e
    unfold mapLookup at hL
    by_cases hk : k1 = k
    · rw [if_pos hk] at hL
      injection hL with hL
      subst hk; subst hL
      exact List.mem_cons_self _ _
    · rw [if_neg hk] at hL
      exact List.mem_cons_of_mem _ (ih hL)

theorem getD_mem_or {α : Type} (l : List α) (i : Nat) (d : α) :
    l.getD i d ∈ l ∨ l.getD i d = d := by
  by_cases hi : i < l.length
  · left
    rw [List.getD_eq_getElem l d hi]
    exact List.getElem_mem _
  · right
    rw [List.getD_eq_getElem?_getD, List.getElem?_eq_none (Nat.le_of_not_lt hi)]
    rfl

/-- In a closed heap the elements of every slice are allocated. -/
theorem closed_elems {h : Heap} (hc : h.closed = true) (s : Slice) :
    ∀ x ∈ h.elems s, allocated h x = true := by
  intro x hx
  have hx1 : x ∈ h.array s.arr := List.mem_of_mem_drop (List.mem_of_mem_take hx)
  simp only [Heap.closed, Bool.and_eq_true, List.all_eq_true] at hc
  rcases getD_mem_or h.arrays s.arr [] with hm | he
  · exact hc.1.1 _ hm x hx1
  · unfold Heap.array at hx1
    rw [he] at hx1
    cases hx1

/-- In a closed heap the values of every map are allocated. -/
theorem closed_mapOf {h : Heap} (hc : h.closed = true) (m : Ref) (k : String) (v : Data)
    (hL : mapLookup k (h.mapOf m) = some v) : allocated h v = true := by
  have hm := mapLookup_mem hL
  simp only [Heap.closed, Bool.and_eq_true, List.all_eq_true] at hc
  rcases getD_mem_or h.maps m [] with hm1 | he
  · exact hc.1.2 _ hm1 (k, v) hm
  · unfold Heap.mapOf at hm
    rw [he] at hm
    cases hm

/-- In a closed heap the data of every `Json` is allocated. -/
theorem closed_data {h : Heap} (hc : h.closed = true) (c : Ref) :
    allocated h (h.data c) = true := by
  simp only [Heap.closed, Bool.and_eq_true, List.all_eq_true] at hc
  rcases getD_mem_or h.jsons c Data.null with hm | he
  · exact hc.2 _ hm
  · unfold Heap.data
    rw [he]
    rfl

theorem elems_of_arrays_eq {h h1 : Heap} (ha : h1.arrays = h.arrays) (s : Slice) :
    h1.elems s = h.elems s := by
  unfold Heap.elems Heap.array
  rw [ha]

/-- Rebinding keeps every value: a value of a closed heap and what it has
become after rebinding are structurally equal down to every depth. -/
theorem Rebinds.preserves {h h1 : Heap} (r : Rebinds h h1) (hc : h.closed = true) :
    ∀ (n : Nat) (a b : Data), allocated h a = true → Rebound h1 a b →
      SimpleJson.sameValue h h1 n a b = true := by
  intro n
  induction n with
  | zero => intro a b _ _; rfl
  | succ n ih =>
    intro a b ha hab
    have hlist : ∀ s, sameList (SimpleJson.sameValue h h1 n) (h.elems s) (h.elems s) = true :=
      fun s => sameList_diag _ _ (fun x hx => ih x x (closed_elems hc s x hx) (Or.inl rfl))
    have hmap : ∀ m, sameEntries (SimpleJson.sameValue h h1 n) (h.mapOf m) (h1.mapOf m) = true := by
      intro m
      apply sameEntries_of
      intro k
      rcases r.maps m k with hn | ⟨x, y, e1, e2, hxy⟩
      · exact Or.inl hn
      · exact Or.inr ⟨x, y, e1, e2, ih x y (closed_mapOf hc m k x e1) hxy⟩
    rcases hab with hab | ⟨s, p, e1, e2, _, e4⟩
    · subst hab
      cases b with
      | null => simp [SimpleJson.sameValue, shapeOf]
      | bool v => simp [SimpleJson.sameValue, shapeOf]
      | num v => simp [SimpleJson.sameValue, shapeOf]
      | str v => simp [SimpleJson.sameValue, shapeOf]
      | slice s =>
        simp only [SimpleJson.sameValue, shapeOf]
        rw [elems_of_arrays_eq r.arrays]
        exact hlist s
      | map m =>
        simp only [SimpleJson.sameValue, shapeOf]
        exact hmap m
      | bsonM m =>
        simp only [SimpleJson.sameValue, shapeOf]
        exact hmap m
      | slicePtr p =>
        have hp : p < h.cells.length := by simpa [allocated] using ha
        simp only [SimpleJson.sameValue, shapeOf]
        rw [elems_of_arrays_eq r.arrays, r.cells p hp]
        exact hlist _
      | jsonPtr c =>
        have hcl : c < h.jsons.length := by simpa [allocated] using ha
        simp only [SimpleJson.sameValue, shapeOf]
        exact ih _ _ (closed_data hc c) (r.jsons c hcl)
    · subst e1; subst e2
      simp only [SimpleJson.sameValue, shapeOf]
      rw [elems_of_arrays_eq r.arrays, e4]
      exact hlist s


theorem cell_of_cells_append {h h1 : Heap} {cs : List Slice} (hcs : h1.cells = h.cells ++ cs)
    (p : Ref) (hp : p < h.cells.length) : h1.cell p = h.cell p := by
  unfold Heap.cell
  rw [hcs]
  simp only [List.getD_eq_getElem?_getD]
  rw [List.getElem?_append_left hp]

theorem lookup_same (h1 : Heap) (M : MapObj) (k : String) :
    (mapLookup k M = none ∧ mapLookup k M = none) ∨
    ∃ a b, mapLookup k M = some a ∧ mapLookup k M = some b ∧ Rebound h1 a b := by
  cases hL : mapLookup k M with
  | none => exact Or.inl ⟨rfl, rfl⟩
  | some v => exact Or.inr ⟨v, v, rfl, rfl, Or.inl rfl⟩

/-- A heap rebinds itself. -/
theorem Rebinds.refl (h : Heap) : Rebinds h h :=
  ⟨rfl, fun _ _ => rfl, fun m k => lookup_same h (h.mapOf m) k, Nat.le_refl _,
    fun _ _ => Or.inl rfl⟩

/-- Allocating a `Json` after a rebinding is still a rebinding. -/
theorem Rebinds.alloc {h h1 : Heap} (r : Rebinds h h1) (d : Data) :
    Rebinds h (h1.newJson d).2 := by
  refine ⟨r.arrays, r.cells, r.maps, ?_, ?_⟩
  · show h.jsons.length ≤ (h1.jsons ++ [d]).length
    rw [List.length_append]
    exact Nat.le_trans r.len (Nat.le_add_right _ _)
  · intro c hc
    rw [Heap.data_newJson_old h1 d c (Nat.lt_of_lt_of_le hc r.len)]
    exact r.jsons c hc

/-- `ArrayPtr` only rebinds: the one thing it may change is the receiver's
own data, from a slice held by value to a pointer to a cell holding it. -/
theorem ArrayPtr_rebinds {h h0 : Heap} {j : Ref} {r : Option Ref}
    (hA : Json.ArrayPtr j h = .ok (r, h0)) : Rebinds h h0 := by
  obtain ⟨ha, ⟨cs, hcs⟩, hl, hm⟩ := ArrayPtr_cells_frame hA
  refine ⟨ha, fun p hp => cell_of_cells_append hcs p hp, ?_, Nat.le_of_eq hl.symm, ?_⟩
  · intro m k
    have e : h0.mapOf m = h.mapOf m := by unfold Heap.mapOf; rw [hm]
    rw [e]
    exact lookup_same h0 _ k
  · intro c hc
    by_cases hcj : c = j
    · subst hcj
      unfold Json.ArrayPtr at hA
      cases hd : h.data c with
      | slice s =>
        simp [hd, TypeOf, kindOf, GoType.Kind] at hA
        rw [← hA.2]
        refine Or.inr ⟨s, h.cells.length, rfl, ?_, ?_, ?_⟩
        · exact Heap.data_setData_same _ _ _ hc
        · simp [Heap.setData, Heap.newCell]
        · exact Heap.cell_newCell h s
      | null => simp [hd, TypeOf, kindOf] at hA
      | bool b =>
        simp [hd, TypeOf, kindOf, GoType.Kind] at hA
        rw [← hA.2, hd]; exact Or.inl rfl
      | num b =>
        simp [hd, TypeOf, kindOf, GoType.Kind] at hA
        rw [← hA.2, hd]; exact Or.inl rfl
      | str b =>
        simp [hd, TypeOf, kindOf, GoType.Kind] at hA
        rw [← hA.2, hd]; exact Or.inl rfl
      | map b =>
        simp [hd, TypeOf, kindOf, GoType.Kind] at hA
        rw [← hA.2, hd]; exact Or.inl rfl
      | bsonM b =>
        simp [hd, TypeOf, kindOf, GoType.Kind] at hA
        rw [← hA.2, hd]; exact Or.inl rfl
      | slicePtr b =>
        simp [hd, TypeOf, kindOf, GoType.Kind] at hA
        rw [← hA.2, hd]; exact Or.inl rfl
      | jsonPtr b =>
        simp [hd, TypeOf, kindOf, GoType.Kind] at hA
        rw [← hA.2, hd]; exact Or.inl rfl
    · rw [ArrayPtr_data_frame hA c hcj]
      exact Or.inl rfl

/-- `GetIndex` only rebinds. -/
theorem GetIndex_rebinds {h h1 : Heap} {j c : Ref} {i : Int}
    (hG : Json.GetIndex j i h = .ok (c, h1)) : Rebinds h h1 := by
  unfold Json.GetIndex at hG
  cases hA : Json.ArrayPtr j h with
  | error e => rw [hA] at hG; cases hG
  | ok r =>
    obtain ⟨ap, h0⟩ := r
    have r0 := ArrayPtr_rebinds hA
    rw [hA] at hG
    cases ap with
    | none =>
      simp only [] at hG
      injection hG with hG
      rw [← (Prod.mk.inj hG).2]
      exact r0.alloc _
    | some p =>
      simp only [] at hG
      split at hG
      · split at hG
        · cases hG
        · injection hG with hG
          rw [← (Prod.mk.inj hG).2]
          exact r0.alloc _
      · injection hG with hG
        rw [← (Prod.mk.inj hG).2]
        exact r0.alloc _

/-- `Array` only rebinds. -/
theorem Array_rebinds {h h1 : Heap} {j : Ref} {r : Slice × Bool}
    (hG : Json.Array j h = .ok (r, h1)) : Rebinds h h1 := by
  unfold Json.Array at hG
  cases hA : Json.ArrayPtr j h with
  | error e => rw [hA] at hG; cases hG
  | ok r0 =>
    obtain ⟨ap, h0⟩ := r0
    rw [hA] at hG
    cases ap with
    | none => cases hG
    | some p =>
      simp only [] at hG
      injection hG with hG
      rw [← (Prod.mk.inj hG).2]
      exact ArrayPtr_rebinds hA


theorem lt_of_mapLookup {h : Heap} {m : Ref} {k : String} {v : Data}
    (hL : mapLookup k (h.mapOf m) = some v) : m < h.maps.length := by
  by_contra hc
  have : h.mapOf m = [] := by
    unfold Heap.mapOf
    rw [List.getD_eq_getElem?_getD, List.getElem?_eq_none (Nat.le_of_not_lt hc)]
    rfl
  rw [this] at hL
  cases hL

/-- The write-back `arr := val.([]interface{}); m[key] = &arr` of `Get` and
`CheckGet` is a rebinding. -/
theorem store_rebinds (h : Heap) (m : Ref) (k : String) (s : Slice)
    (hL : mapLookup k (h.mapOf m) = some (Data.slice s)) :
    Rebinds h ((h.newCell s).2.mapStore m k (.slicePtr h.cells.length)) := by
  have hm : m < (h.newCell s).2.maps.length := lt_of_mapLookup hL
  have hcell : ((h.newCell s).2.mapStore m k (.slicePtr h.cells.length)).cell h.cells.length = s :=
    Heap.cell_newCell h s
  refine ⟨rfl, fun p hp => @cell_of_cells_append _ _ [s] rfl p hp, ?_, Nat.le_refl _,
    fun _ _ => Or.inl rfl⟩
  intro m1 k1
  by_cases hm1 : m1 = m
  · subst hm1
    rw [Heap.mapOf_mapStore_same _ _ _ _ hm]
    have e0 : (h.newCell s).2.mapOf m1 = h.mapOf m1 := rfl
    rw [e0]
    by_cases hk1 : k1 = k
    · subst hk1
      refine Or.inr ⟨_, _, hL, mapLookup_mapInsert_self _ _ _,
        Or.inr ⟨s, h.cells.length, rfl, rfl, ?_, hcell⟩⟩
      simp [Heap.mapStore, Heap.newCell]
    · rw [mapLookup_mapInsert_ne _ _ _ _ hk1]
      exact lookup_same _ _ _
  · rw [Heap.mapOf_mapStore_other _ _ _ _ _ hm1]
    exact lookup_same _ (h.mapOf m1) k1

/-- `Get` and `CheckGet` only rebind. -/
theorem Get_CheckGet_rebinds (h : Heap) (j : Ref) (k : String) :
    (∀ c h1, Json.Get j k h = .ok (c, h1) → Rebinds h h1) ∧
    (∀ c h1, Json.CheckGet j k h = .ok (c, h1) → Rebinds h h1) := by
  by_cases hk : ∀ m, Json.Map j h = some m → mapLookup k (h.mapOf m) = none
  · obtain ⟨e1, e2⟩ := Get_CheckGet_absent h j k hk
    rw [e1, e2]
    constructor
    · intro c h1 e
      injection e with e
      rw [← (Prod.mk.inj e).2]
      exact (Rebinds.refl h).alloc _
    · intro c h1 e
      injection e with e
      rw [← (Prod.mk.inj e).2]
      exact Rebinds.refl h
  · push_neg at hk
    obtain ⟨m, hM, hL⟩ := hk
    obtain ⟨v, hv⟩ := Option.ne_none_iff_exists'.mp hL
    by_cases hnull : v = Data.null
    · subst hnull
      obtain ⟨p1, p2⟩ := Get_CheckGet_panic_iff h j k
      obtain ⟨e1, he1⟩ := p1.mpr ⟨m, hM, hv⟩
      obtain ⟨e2, he2⟩ := p2.mpr ⟨m, hM, hv⟩
      rw [he1, he2]
      exact ⟨fun c h1 e => (by cases e), fun c h1 e => (by cases e)⟩
    · obtain ⟨c0, h0, e1, e2, -, -, -, hns, hs⟩ := Get_CheckGet_present h j m k v hM hv hnull
      have r0 : Rebinds h h0 := by
        by_cases hsl : ∃ s, v = Data.slice s
        · obtain ⟨s, hs1⟩ := hsl
          rw [hs s hs1]
          subst hs1
          exact (store_rebinds h m k s hv).alloc _
        · push_neg at hsl
          rw [hns hsl]
          exact (Rebinds.refl h).alloc _
      rw [e1, e2]
      constructor
      · intro c h1 e
        injection e with e
        rw [← (Prod.mk.inj e).2]
        exact r0
      · intro c h1 e
        injection e with e
        rw [← (Prod.mk.inj e).2]
        exact r0


/-- Structural equality tells a mutated value from the original: on
`{"a": 1}`, overwriting `a`, adding the key `b` and deleting `a` each give a
value that is not structurally equal; so does appending `3` to `[1, 2]`; and on
`{"a": {"b": 5}}` overwriting the nested `b` is seen at depth 3 and not
above. -/
theorem StructurallyEqual_tells_apart :
    ¬ StructurallyEqual heapA1 (Json.Set 0 "a" (Data.num 2) heapA1) 0 ∧
    ¬ StructurallyEqual heapA1 (Json.Set 0 "b" (Data.num 2) heapA1) 0 ∧
    ¬ StructurallyEqual heapA1 (Json.Del 0 "a" heapA1) 0 ∧
    (∃ h1, Json.Append (fun _ => 0) 0 (Data.num 3) heapArr12 = .ok h1 ∧
      ¬ StructurallyEqual heapArr12 h1 0) ∧
    sameValue heapAB5 (Json.SetPath 0 ["a", "b"] (Data.num 6) heapAB5) 2
      (Data.map 0) (Data.map 0) = true ∧
    ¬ StructurallyEqual heapAB5 (Json.SetPath 0 ["a", "b"] (Data.num 6) heapAB5) 0 := by
  refine ⟨fun hS => absurd (hS 2) (by decide), fun hS => absurd (hS 1) (by decide),
    fun hS => absurd (hS 1) (by decide), ⟨_, rfl, fun hS => absurd (hS 1) (by decide)⟩,
    by decide, fun hS => absurd (hS 3) (by decide)⟩

/-- C21: navigation is structurally read-only.  Let `v` be the `Json` at an
allocated address `j` of a heap without dangling pointers.  Whenever
`v.Get(k)`, `v.CheckGet(k)`, `v.GetIndex(i)` (any `i`) or `v.Array()` returns,
`v` is structurally equal to what it was before the call: same variant, same
keys, same elements in the same positions, and the same nested values down to
every depth, although the call may have replaced a slice stored in `v` by a
pointer to a cell holding it.  And the calls do return: `Get` and `CheckGet`
unless `v` is an Object holding null under `k`, `Array` on every Array, and
`GetIndex` on every Array for `i >= 0`. -/
theorem navigation_read_only (h : Heap) (j : Ref) (k : String) (i : Int)
    (hc : h.closed = true) (hj : j < h.jsons.length) :
    (∀ c h1, Json.Get j k h = .ok (c, h1) → StructurallyEqual h h1 j) ∧
    (∀ c h1, Json.CheckGet j k h = .ok (c, h1) → StructurallyEqual h h1 j) ∧
    (∀ c h1, Json.GetIndex j i h = .ok (c, h1) → StructurallyEqual h h1 j) ∧
    (∀ r h1, Json.Array j h = .ok (r, h1) → StructurallyEqual h h1 j) ∧
    ((∀ m, Json.Map j h = some m → mapLookup k (h.mapOf m) ≠ some Data.null) →
      (∃ c h1, Json.Get j k h = .ok (c, h1)) ∧ ∃ c h1, Json.CheckGet j k h = .ok (c, h1)) ∧
    (∀ a, arrayOf h j = some a →
      (∃ r h1, Json.Array j h = .ok (r, h1)) ∧
      (0 ≤ i → ∃ c h1, Json.GetIndex j i h = .ok (c, h1))) := by
  have key : ∀ h1, Rebinds h h1 → StructurallyEqual h h1 j :=
    fun h1 r n => r.preserves hc n _ _ (closed_data hc j) (r.jsons j hj)
  refine ⟨fun c h1 e => key h1 ((Get_CheckGet_rebinds h j k).1 c h1 e),
    fun c h1 e => key h1 ((Get_CheckGet_rebinds h j k).2 c h1 e),
    fun c h1 e => key h1 (GetIndex_rebinds e), fun r h1 e => key h1 (Array_rebinds e), ?_, ?_⟩
  · intro hk
    obtain ⟨p1, p2⟩ := Get_CheckGet_panic_iff h j k
    have hno : ¬ ∃ m, Json.Map j h = some m ∧ mapLookup k (h.mapOf m) = some Data.null :=
      fun ⟨m, hM, hL⟩ => hk m hM hL
    constructor
    · cases hG : Json.Get j k h with
      | error e => exact absurd (p1.mp ⟨e, hG⟩) hno
      | ok r => exact ⟨r.1, r.2, rfl⟩
    · cases hG : Json.CheckGet j k h with
      | error e => exact absurd (p2.mp ⟨e, hG⟩) hno
      | ok r => exact ⟨r.1, r.2, rfl⟩
  · intro a ha
    constructor
    · obtain ⟨s, h1, e, -⟩ := Array_of_array h j a ha
      exact ⟨_, _, e⟩
    · intro hi
      obtain ⟨c, h1, e, -⟩ := (GetIndex_cases h j i).1 a ha hi
      exact ⟨c, h1, e⟩

theorem navigation_read_only_witness :
    heapNav.closed = true ∧ 0 < heapNav.jsons.length ∧ 1 < heapNav.jsons.length ∧
    (∃ c h1, Json.Get 0 "arr" heapNav = .ok (c, h1) ∧
      mapLookup "arr" (heapNav.mapOf 0) = some (Data.slice ⟨0, 0, 2, 2⟩) ∧
      mapLookup "arr" (h1.mapOf 0) = some (Data.slicePtr 0) ∧ StructurallyEqual heapNav h1 0) ∧
    (∃ c h1, Json.GetIndex 1 0 heapNav = .ok (c, h1) ∧
      heapNav.data 1 = Data.slice ⟨1, 0, 2, 2⟩ ∧ h1.data 1 = Data.slicePtr 0 ∧
      StructurallyEqual heapNav h1 1) :=
  ⟨by decide, by decide, by decide,
    ⟨_, _, rfl, rfl, rfl,
      (navigation_read_only heapNav 0 "arr" 0 (by decide) (by decide)).1 _ _ rfl⟩,
    ⟨_, _, rfl, rfl, rfl,
      (navigation_read_only heapNav 1 "arr" 0 (by decide) (by decide)).2.2.1 _ _ rfl⟩⟩


/-- Why the heap is taken without dangling pointers: in `heapDangling` the
cell that `Get("arr")` allocates gets the address the dangling pointer under
`p` already holds, so the embedding reads `p` as an empty Array before the call
and as `[1, 2]` after it. -/
theorem dangling_pointer_example :
    heapDangling.closed = false ∧
    ∃ c h1, Json.Get 0 "arr" heapDangling = .ok (c, h1) ∧ ¬ StructurallyEqual heapDangling h1 0 :=
  ⟨by decide, _, _, rfl, fun hS => absurd (hS 2) (by decide)⟩


theorem visited_length_one (h : Heap) (curr : Ref) (b b2 : String) (rest : List String)
    (hL : ¬ ∃ r, mapLookup b (h.mapOf curr) = some (.map r)) :
    visited h curr (b :: b2 :: rest) = [curr] := by
  unfold visited
  split
  · rename_i r hr; exact absurd ⟨r, hr⟩ hL
  · rfl

theorem visited_head (h : Heap) (curr : Ref) (p : List String) :
    (visited h curr p).getD 0 0 = curr := by
  match p with
  | [] => rfl
  | [_] => rfl
  | b :: b2 :: rest => unfold visited; split <;> rfl

/-- The maps of `visited` are the Objects that the initial parts of the branch
reach before the call. -/
theorem visited_descend (h : Heap) (p : List String) (curr : Ref) (i : Nat)
    (hi : i < (visited h curr p).length) :
    descend h (.map curr) (p.take i) = some (.map ((visited h curr p).getD i 0)) := by
  induction p generalizing curr i with
  | nil =>
    have : i = 0 := by simp [visited] at hi; exact hi
    subst this
    rfl
  | cons b rest ih =>
    cases i with
    | zero => rw [visited_head]; rfl
    | succ i =>
      cases rest with
      | nil => simp [visited] at hi
      | cons b2 rest =>
        by_cases hL : ∃ r, mapLookup b (h.mapOf curr) = some (.map r)
        · obtain ⟨r, hL⟩ := hL
          rw [visited_step_map curr r b b2 rest h hL] at hi ⊢
          have := ih r i (by simpa using hi)
          simp only [List.take_succ_cons, descend, dataMap, hL]
          simpa using this
        · rw [visited_length_one h curr b b2 rest hL] at hi
          simp at hi

/-- After the loop of `SetPath` the initial parts of the branch still reach
the very maps they reached before. -/
theorem setPathWalk_reaches (x : Data) (p : List String) (curr : Ref) (h : Heap)
    (hall : ∀ r ∈ visited h curr p, r < h.maps.length) (hnd : (visited h curr p).Nodup)
    (i : Nat) (hi : i < (visited h curr p).length) :
    descend (Json.setPathWalk x curr p h) (.map curr) (p.take i)
      = some (.map ((visited h curr p).getD i 0)) := by
  induction p generalizing curr h i with
  | nil =>
    have : i = 0 := by simp [visited] at hi; exact hi
    subst this
    rfl
  | cons b rest ih =>
    have hcurr : curr < h.maps.length := hall curr (mem_visited_self h curr _)
    cases i with
    | zero => rw [visited_head]; rfl
    | succ i =>
      cases rest with
      | nil => simp [visited] at hi
      | cons b2 rest =>
        by_cases hL : ∃ r, mapLookup b (h.mapOf curr) = some (.map r)
        · obtain ⟨r, hL⟩ := hL
          rw [setPathWalk_step_map x curr r b b2 rest h hL]
          rw [visited_step_map curr r b b2 rest h hL] at hall hnd hi ⊢
          have hfr : (Json.setPathWalk x r (b2 :: rest) h).mapOf curr = h.mapOf curr :=
            setPathWalk_frame x (b2 :: rest) r h curr
              (fun r' hr' => hall r' (List.mem_cons_of_mem _ hr')) hcurr (List.nodup_cons.1 hnd).1
          have := ih r h (fun r' hr' => hall r' (List.mem_cons_of_mem _ hr'))
            (List.nodup_cons.1 hnd).2 i (by simpa using hi)
          simp only [List.take_succ_cons, descend, dataMap, hfr, hL]
          simpa using this
        · rw [visited_length_one h curr b b2 rest hL] at hi
          simp at hi

/-- A value keeps its structure when nothing it reaches is written: the
arrays, cells and `Json` structs are the same in both heaps, and so is every
map the value reaches. -/
theorem sameValue_frame {h h1 : Heap} (ha : h1.arrays = h.arrays) (hc : h1.cells = h.cells)
    (hj : h1.jsons = h.jsons) (P : Ref → Prop) (hP : ∀ r, P r → h1.mapOf r = h.mapOf r) :
    ∀ (n : Nat) (d : Data), (∀ k, ∀ r ∈ mapsWithin h k d, P r) → sameValue h h1 n d d = true := by
  intro n
  induction n with
  | zero => intro d _; rfl
  | succ n ih =>
    intro d hd
    have hlist : ∀ xs : List Data, (∀ k, ∀ r ∈ xs.flatMap (mapsWithin h k), P r) →
        sameList (sameValue h h1 n) xs xs = true := by
      intro xs hxs
      apply sameList_diag
      intro y hy
      exact ih y (fun k r hr => hxs k r (List.mem_flatMap.2 ⟨y, hy, hr⟩))
    have hmap : ∀ r0 : Ref, (∀ k, ∀ r ∈ r0 :: (h.mapOf r0).flatMap (fun e => mapsWithin h k e.2),
        P r) → sameEntries (sameValue h h1 n) (h.mapOf r0) (h1.mapOf r0) = true := by
      intro r0 hr0
      rw [hP r0 (hr0 0 r0 (List.mem_cons_self _ _))]
      apply sameEntries_of
      intro k
      cases hL : mapLookup k (h.mapOf r0) with
      | none => exact Or.inl ⟨rfl, rfl⟩
      | some v =>
        refine Or.inr ⟨v, v, rfl, rfl, ih v (fun k1 r hr => hr0 k1 r ?_)⟩
        exact List.mem_cons_of_mem _ (List.mem_flatMap.2 ⟨(k, v), mapLookup_mem hL, hr⟩)
    have hcell : ∀ p, h1.cell p = h.cell p := fun p => by unfold Heap.cell; rw [hc]
    have hdata : ∀ c, h1.data c = h.data c := fun c => by unfold Heap.data; rw [hj]
    cases d with
    | null => simp [sameValue, shapeOf]
    | bool v => simp [sameValue, shapeOf]
    | num v => simp [sameValue, shapeOf]
    | str v => simp [sameValue, shapeOf]
    | slice s =>
      simp only [sameValue, shapeOf]
      rw [elems_of_arrays_eq ha]
      exact hlist _ (fun k r hr => hd (k + 1) r hr)
    | slicePtr p =>
      simp only [sameValue, shapeOf]
      rw [elems_of_arrays_eq ha, hcell]
      exact hlist _ (fun k r hr => hd (k + 1) r hr)
    | map m =>
      simp only [sameValue, shapeOf]
      exact hmap m (fun k r hr => hd (k + 1) r hr)
    | bsonM m =>
      simp only [sameValue, shapeOf]
      exact hmap m (fun k r hr => hd (k + 1) r hr)
    | jsonPtr c =>
      simp only [sameValue, shapeOf]
      rw [hdata]
      exact ih _ (fun k r hr => hd (k + 1) r hr)


/-- `SetPath(p, x)` changes nothing off the path, for a receiver held as
`map[string]interface{}` whose maps along the path are allocated, pairwise
different and apart from the entries off the path (a document that is a
tree).  The receiver stays the same Object.  For each Object the path went
through before the call (the `i`-th reached by `p[0..i)`): the path still
reaches that very Object after the call, and every key of it other than the
step `p[i]` holds the same data, which is structurally equal as a value down
to every depth. -/
theorem SetPath_keeps_off_path (h : Heap) (j m : Ref) (p : List String) (x : Data) (hp : p ≠ [])
    (hd : h.data j = Data.map m)
    (hall : ∀ r ∈ visited h m p, r < h.maps.length) (hnd : (visited h m p).Nodup)
    (hsep : OffPathApart h m p) :
    (Json.SetPath j p x h).data j = Data.map m ∧
    ∀ i, i < (visited h m p).length →
      descend h (Data.map m) (p.take i) = some (Data.map ((visited h m p).getD i 0)) ∧
      descend (Json.SetPath j p x h) (Data.map m) (p.take i)
        = some (Data.map ((visited h m p).getD i 0)) ∧
      ∀ k, k ≠ p.getD i "" →
        mapLookup k ((Json.SetPath j p x h).mapOf ((visited h m p).getD i 0))
          = mapLookup k (h.mapOf ((visited h m p).getD i 0)) ∧
        ∀ v, mapLookup k (h.mapOf ((visited h m p).getD i 0)) = some v →
          ∀ n, sameValue h (Json.SetPath j p x h) n v v = true := by
  have hS : Json.SetPath j p x h = Json.setPathWalk x m p h := by
    cases p with
    | nil => exact absurd rfl hp
    | cons b rest => unfold Json.SetPath; rw [hd]
  rw [hS]
  refine ⟨?_, fun i hi => ⟨visited_descend h p m i hi, setPathWalk_reaches x p m h hall hnd i hi,
    fun k hk => ⟨setPathWalk_off_path x p m h hall hnd i hi k hk, fun v hv n => ?_⟩⟩⟩
  · rw [data_congr (setPathWalk_jsons x p m h)]; exact hd
  · exact sameValue_frame (setPathWalk_arrays_cells x p m h).1 (setPathWalk_arrays_cells x p m h).2
      (setPathWalk_jsons x p m h) (fun r => r < h.maps.length ∧ r ∉ visited h m p)
      (fun r hr => setPathWalk_frame x p m h r hall hr.1 hr.2) n v
      (fun k1 r hr => hsep i hi (k, v) (mapLookup_mem hv) hk k1 r hr)

theorem mapsWithin_heapDeep_d (n : Nat) :
    ∀ r ∈ mapsWithin heapDeep n (Data.slice ⟨0, 0, 1, 1⟩), r = 3 := by
  rcases n with _ | _ | _ | n <;>
    simp [mapsWithin, heapDeep, Heap.elems, Heap.array, Heap.mapOf]

theorem mapsWithin_heapDeep_c (n : Nat) :
    ∀ r ∈ mapsWithin heapDeep n (Data.map 2), r = 2 := by
  rcases n with _ | _ | n <;>
    simp [mapsWithin, heapDeep, Heap.elems, Heap.array, Heap.mapOf]


theorem OffPathApart_heapDeep : OffPathApart heapDeep 0 ["a", "b"] := by
  have hv : visited heapDeep 0 ["a", "b"] = [0, 1] := rfl
  intro i hi e he hne n r hr
  rw [hv] at hi he ⊢
  have hi2 : i = 0 ∨ i = 1 := by
    simp only [List.length_cons, List.length_nil] at hi
    omega
  rcases hi2 with rfl | rfl
  · have he1 : e = ("a", Data.map 1) ∨ e = ("d", Data.slice ⟨0, 0, 1, 1⟩) := by
      simpa [heapDeep, Heap.mapOf] using he
    rcases he1 with rfl | rfl
    · exact absurd rfl hne
    · rw [mapsWithin_heapDeep_d n r hr]
      decide
  · have he1 : e = ("b", Data.num 5) ∨ e = ("c", Data.map 2) := by
      simpa [heapDeep, Heap.mapOf] using he
    rcases he1 with rfl | rfl
    · exact absurd rfl hne
    · rw [mapsWithin_heapDeep_c n r hr]
      decide

theorem SetPath_keeps_off_path_witness :
    OffPathApart heapDeep 0 ["a", "b"] ∧
    mapLookup "b" ((Json.SetPath 0 ["a", "b"] (Data.num 9) heapDeep).mapOf 1) = some (Data.num 9) ∧
    descend (Json.SetPath 0 ["a", "b"] (Data.num 9) heapDeep) (Data.map 0) ["a"]
      = some (Data.map 1) ∧
    (∀ n, sameValue heapDeep (Json.SetPath 0 ["a", "b"] (Data.num 9) heapDeep) n
      (Data.slice ⟨0, 0, 1, 1⟩) (Data.slice ⟨0, 0, 1, 1⟩) = true) ∧
    (∀ n, sameValue heapDeep (Json.SetPath 0 ["a", "b"] (Data.num 9) heapDeep) n
      (Data.map 2) (Data.map 2) = true) :=
  ⟨OffPathApart_heapDeep, rfl,
    ((SetPath_keeps_off_path heapDeep 0 0 ["a", "b"] (Data.num 9) (by decide) rfl (by decide)
      (by decide) OffPathApart_heapDeep).2 1 (by decide)).2.1,
    (((SetPath_keeps_off_path heapDeep 0 0 ["a", "b"] (Data.num 9) (by decide) rfl (by decide)
      (by decide) OffPathApart_heapDeep).2 0 (by decide)).2.2 "d" (by decide)).2 _ rfl,
    (((SetPath_keeps_off_path heapDeep 0 0 ["a", "b"] (Data.num 9) (by decide) rfl (by decide)
      (by decide) OffPathApart_heapDeep).2 1 (by decide)).2.2 "c" (by decide)).2 _ rfl⟩

/-- Why the entries off the path are taken apart from the path: in
`{"a": M, "b": M}` both keys hold one map object, the maps the walk along
`a, x` passes through are allocated and different, and after
`SetPath(["a","x"], 2)` the key `b` holds the same reference but no longer the
same value. -/
theorem SetPath_shared_map_example :
    visited heapShared 0 ["a", "x"] = [0, 1] ∧
    mapLookup "b" ((Json.SetPath 0 ["a", "x"] (Data.num 2) heapShared).mapOf 0)
      = mapLookup "b" (heapShared.mapOf 0) ∧
    sameValue heapShared (Json.SetPath 0 ["a", "x"] (Data.num 2) heapShared) 2
      (Data.map 1) (Data.map 1) = false ∧
    ¬ OffPathApart heapShared 0 ["a", "x"] :=
  ⟨rfl, rfl, by decide, fun hA =>
    (hA 0 (by decide) ("b", Data.map 1) (by decide) (by decide) 1 1 (by decide)).2 (by decide)⟩

/-- C20 (the code departs from the claim): a `primitive.M` is an Object for
`Map`, and through it for `Get`, `Set` and `Del`, but not for the type
assertion of `SetPath`.  On the `primitive.M` `{"a": 1, "b": 2}`,
`SetPath(["a"], 5)` replaces the whole document by the fresh map `{"a": 5}`:
the key `b`, which is not on the path, held 2 before and is gone after, while
`Set("a", 5)` on the same receiver keeps it.  On `{"a": M, "d": 7}` with the
`primitive.M` `M = {"b": 1, "c": 2}`, `SetPath(["a","b"], 9)` replaces the
existing intermediate Object under `a` by the fresh map `{"b": 9}`: the key `c`
of it held 2 before and is gone after. -/
theorem SetPath_drops_primitiveM_keys :
    Json.Map 0 heapBson = some 0 ∧
    (∃ c h1, Json.Get 0 "b" heapBson = .ok (c, h1) ∧ h1.data c = Data.num 2) ∧
    (Json.SetPath 0 ["a"] (Data.num 5) heapBson).data 0 = Data.map 1 ∧
    (Json.SetPath 0 ["a"] (Data.num 5) heapBson).mapOf 1 = [("a", Data.num 5)] ∧
    (∃ c h1, Json.Get 0 "b" (Json.SetPath 0 ["a"] (Data.num 5) heapBson) = .ok (c, h1) ∧
      h1.data c = Data.null) ∧
    (∃ c h1, Json.Get 0 "b" (Json.Set 0 "a" (Data.num 5) heapBson) = .ok (c, h1) ∧
      h1.data c = Data.num 2) ∧
    (∃ c h1, Json.GetPath 0 [Step.key "a", Step.key "c"] heapBsonInner = .ok (c, h1) ∧
      h1.data c = Data.num 2) ∧
    (∃ c h1, Json.GetPath 0 [Step.key "a", Step.key "c"]
        (Json.SetPath 0 ["a", "b"] (Data.num 9) heapBsonInner) = .ok (c, h1) ∧
      h1.data c = Data.null) ∧
    (∃ c h1, Json.GetPath 0 [Step.key "a", Step.key "b"]
        (Json.SetPath 0 ["a", "b"] (Data.num 9) heapBsonInner) = .ok (c, h1) ∧
      h1.data c = Data.num 9) :=
  ⟨rfl, ⟨_, _, rfl, rfl⟩, rfl, rfl, ⟨_, _, rfl, rfl⟩, ⟨_, _, rfl, rfl⟩, ⟨_, _, rfl, rfl⟩,
    ⟨_, _, rfl, rfl⟩, ⟨_, _, rfl, rfl⟩⟩

end SimpleJson
